import Mathlib

/-!
Verification of the `bog` orchestration engine against its specification.

The definitions below are shallow embeddings of the Rust sources:
  * `crates/bog-orchestrate/src/permissions.rs` (permission checker, glob matching
    via the `glob` crate, v0.3, with its default `MatchOptions`),
  * `crates/bog-orchestrate/src/worktree.rs` (diff merging, run cleanup),
  * `crates/bog-orchestrate/src/plan.rs` (plan validation, Kahn topological sort),
  * `src/orchestrate/orchestrator.rs` (the replan/merge control loop),
  * `src/orchestrate/dock.rs` (plan extraction from planner output),
  * `src/orchestrate/provider.rs` (subprocess invocation thread discipline).

Machine integers are modelled as `Nat` (no claim here depends on overflow).
Effectful code is modelled by explicit state passing plus oracles ("scripts")
for the behaviour of external processes and git, and event traces record the
observable actions (worktree creation, merges, cleanup, planner invocations).
-/

/-! # Glob matching (`glob` crate v0.3, as used by `permissions.rs`)

`glob::Pattern::new` compiles a pattern string to a token list (or an error);
`Pattern::matches` runs the matcher with the default `MatchOptions`
(`case_sensitive = true`, `require_literal_separator = false`,
`require_literal_leading_dot = false`).  Because the two boolean options are
false, `*` and `?` may also match the path separator `/`.  Error positions and
messages are not needed by any claim, so compilation returns `Option`
(`none` = `PatternError`). -/

inductive CharSpecifier where
  | singleChar (c : Char)
  | charRange (lo hi : Char)
deriving DecidableEq, Repr

inductive PatternToken where
  | char (c : Char)
  | anyChar
  | anySequence
  | anyRecursiveSequence
  | anyWithin (specifiers : List CharSpecifier)
  | anyExcept (specifiers : List CharSpecifier)
deriving DecidableEq, Repr

/-- `parse_char_specifiers` from the glob crate: a `-` with a character on both
sides forms a range, everything else is a single character. -/
def parse_char_specifiers : List Char → List CharSpecifier
  | a :: '-' :: b :: rest => .charRange a b :: parse_char_specifiers rest
  | a :: rest => .singleChar a :: parse_char_specifiers rest
  | [] => []

/-- `in_char_specifiers` with `case_sensitive = true`. -/
def in_char_specifiers (specifiers : List CharSpecifier) (c : Char) : Bool :=
  specifiers.any fun s =>
    match s with
    | .singleChar sc => c == sc
    | .charRange lo hi => lo ≤ c && c ≤ hi

/-- Scan for the next `]`, returning the characters before it and the
characters after it (`chars.position(']')` plus the two slices it induces
in `Pattern::new`). -/
def scanRBracket : List Char → Option (List Char × List Char)
  | [] => none
  | ']' :: rest => some ([], rest)
  | c :: rest => (scanRBracket rest).map (fun pr => (c :: pr.1, pr.2))

/-- The tokenizer loop of `glob::Pattern::new`.  `prev` is the character just
before the current position (`none` at the start of the pattern); `acc` holds
the tokens produced so far, most recent first.  The loop consumes at least one
character per iteration, so `fuel` larger than the input length (as supplied
by `tokenizePattern`) never runs out; the `fuel = 0` branch is unreachable. -/
def tokenizeLoop : Nat → List Char → Option Char → List PatternToken → Option (List PatternToken)
  | 0, _, _, _ => none
  | _ + 1, [], _, acc => some acc.reverse
  | fuel + 1, '?' :: rest, _, acc => tokenizeLoop fuel rest (some '?') (.anyChar :: acc)
  | _ + 1, '*' :: '*' :: '*' :: _, _, _ => none
  | fuel + 1, '*' :: '*' :: rest1, prev, acc =>
    -- a run of exactly two stars (a longer run was caught by the previous
    -- clause): `**` must occupy a whole path component, i.e. start the
    -- pattern or follow a `/`, and be followed by a `/` or end the pattern.
    if prev == none || prev == some '/' then
      let acc2 :=
        if acc.length > 1 && acc.head? == some .anyRecursiveSequence then acc
        else .anyRecursiveSequence :: acc
      match rest1 with
      | '/' :: rest2 => tokenizeLoop fuel rest2 (some '/') acc2
      | [] => some acc2.reverse
      | _ => none
    else
      none
  | fuel + 1, '*' :: rest, _, acc => tokenizeLoop fuel rest (some '*') (.anySequence :: acc)
  | fuel + 1, '[' :: rest, _, acc =>
    match rest with
    | '!' :: c2 :: rest3 =>
      match scanRBracket rest3 with
      | some pr =>
        tokenizeLoop fuel pr.2 (some ']')
          (.anyExcept (parse_char_specifiers (c2 :: pr.1)) :: acc)
      | none => none
    | c1 :: rest2 =>
      if c1 == '!' then none
      else
        match scanRBracket rest2 with
        | some pr =>
          tokenizeLoop fuel pr.2 (some ']')
            (.anyWithin (parse_char_specifiers (c1 :: pr.1)) :: acc)
        | none => none
    | [] => none
  | fuel + 1, c :: rest, _, acc => tokenizeLoop fuel rest (some c) (.char c :: acc)

/-- `glob::Pattern::new`: compile a pattern to tokens, `none` on a
`PatternError`. -/
def tokenizePattern (pattern : String) : Option (List PatternToken) :=
  tokenizeLoop (pattern.data.length + 1) pattern.data none []

inductive MatchResult where
  | matchOk
  | subPatternDoesntMatch
  | entirePatternDoesntMatch
deriving DecidableEq, Repr

/-- Can a non-sequence token consume character `c`?  (Default options: the
separator checks and leading-dot checks in `matches_from` are disabled.) -/
def tokenMatchesChar : PatternToken → Char → Bool
  | .anyChar, _ => true
  | .anyWithin specifiers, c => in_char_specifiers specifiers c
  | .anyExcept specifiers, c => !in_char_specifiers specifiers c
  | .char c2, c => c == c2
  | _, _ => false

/-- The `while let Some(c) = file.next()` loop inside the `AnySequence` /
`AnyRecursiveSequence` arm of `matches_from`; `k` is the match continuation
for the tokens after the sequence token.  When the file is exhausted the
`for` loop continues over the remaining tokens with an empty file, which is
`k` applied to the empty file. -/
def seqLoop (isRec : Bool) (k : Bool → List Char → MatchResult) : Bool → List Char → MatchResult
  | follows, [] => k follows []
  | _, c :: fileRest =>
    let fsep := c == '/'
    if isRec && !fsep then
      seqLoop isRec k fsep fileRest
    else
      match k fsep fileRest with
      | .subPatternDoesntMatch => seqLoop isRec k fsep fileRest
      | m => m

/-- `Pattern::matches_from` under the default `MatchOptions`.  `follows` is
`follows_separator`.  The file is a character list; the separator is `/`. -/
def matchesFrom : List PatternToken → Bool → List Char → MatchResult
  | [], _, file => if file.isEmpty then .matchOk else .subPatternDoesntMatch
  | .anySequence :: rest, follows, file =>
    (match matchesFrom rest follows file with
     | .subPatternDoesntMatch => seqLoop false (matchesFrom rest) follows file
     | m => m)
  | .anyRecursiveSequence :: rest, follows, file =>
    (match matchesFrom rest follows file with
     | .subPatternDoesntMatch => seqLoop true (matchesFrom rest) follows file
     | m => m)
  | _ :: _, _, [] =>
    -- a consuming token with the file exhausted
    .entirePatternDoesntMatch
  | tok :: rest, _, c :: fileRest =>
    if tokenMatchesChar tok c then matchesFrom rest (c == '/') fileRest
    else .subPatternDoesntMatch

/-- `Pattern::matches` (default options; initial `follows_separator = true`). -/
def patternMatches (tokens : List PatternToken) (path : String) : Bool :=
  matchesFrom tokens true path.data == .matchOk

/-- One disjunct of `matches_any_glob`:
`glob::Pattern::new(pattern).map(|p| p.matches(path)).unwrap_or(false)`. -/
def globMatches (pattern path : String) : Bool :=
  ((tokenizePattern pattern).map (fun toks => patternMatches toks path)).getD false

/-- `matches_any_glob` from `permissions.rs`. -/
def matches_any_glob (path : String) (patterns : List String) : Bool :=
  patterns.any fun pattern => globMatches pattern path

/-! # Permission checker (`permissions.rs`) -/

inductive AgentRole where
  | Subsystem
  | Skimsystem
deriving DecidableEq, Repr

inductive DiffChangeType where
  | Added
  | Modified
  | Deleted
deriving DecidableEq, Repr

structure DiffEntry where
  path : String
  change_type : DiffChangeType
deriving DecidableEq, Repr

structure Violation where
  file_path : String
  reason : String
deriving DecidableEq, Repr

/-- The slice of `RepoContext` (context.rs) that `check_agent_permissions`
reads: `agent_role` looks the agent up in the `bog.toml` agent table, and
`agent_file_globs` is the union of the file globs of the subsystems the agent
owns.  Both are modelled as association lists (first binding wins, matching
the unique-key maps of the source). -/
structure RepoContext where
  agents : List (String × AgentRole)
  agent_globs : List (String × List String)
deriving DecidableEq, Repr

def RepoContext.agent_role (ctx : RepoContext) (agent_name : String) : Option AgentRole :=
  (ctx.agents.find? (fun p => p.1 == agent_name)).map (·.2)

def RepoContext.agent_file_globs (ctx : RepoContext) (agent_name : String) : List String :=
  ((ctx.agent_globs.find? (fun p => p.1 == agent_name)).map (·.2)).getD []

def subsystemReason (agent_name path : String) : String :=
  "Subsystem agent '" ++ agent_name ++ "' modified '" ++ path ++ "' outside its declared globs"

def skimsystemReason (agent_name path : String) : String :=
  "Skimsystem agent '" ++ agent_name ++ "' modified non-.bog file '" ++ path ++ "'"

def unregisteredReason (agent_name : String) : String :=
  "Agent '" ++ agent_name ++ "' is not registered in bog.toml"

/-- `check_agent_permissions` from `permissions.rs`: the `for` loops pushing
onto `violations` are modelled as left folds. -/
def check_agent_permissions (agent_name : String) (diff_entries : List DiffEntry)
    (ctx : RepoContext) : List Violation :=
  match ctx.agent_role agent_name with
  | some .Subsystem =>
    let allowed_globs := ctx.agent_file_globs agent_name
    diff_entries.foldl (fun violations entry =>
      if !matches_any_glob entry.path allowed_globs then
        violations ++ [⟨entry.path, subsystemReason agent_name entry.path⟩]
      else violations) []
  | some .Skimsystem =>
    diff_entries.foldl (fun violations entry =>
      if !entry.path.endsWith ".bog" then
        violations ++ [⟨entry.path, skimsystemReason agent_name entry.path⟩]
      else violations) []
  | none =>
    diff_entries.foldl (fun violations entry =>
      violations ++ [⟨entry.path, unregisteredReason agent_name⟩]) []

/-! ## Spec-side glob semantics (for comparison only)

Modelled from the spec's words, *not* from the source: "standard shell-glob
semantics: `*` within a segment, `**` across segments" (spec §4.1).  A pattern
and a path are split into `/`-separated segments; `*` and `?` match within a
single segment only, and a segment consisting of `**` matches any (possibly
empty) run of whole segments. -/

/-- Try the continuation `k` on every suffix of the input (the spec's `*` /
`**`: match any, possibly empty, run). -/
def specStarHelper (k : List Char → Bool) : List Char → Bool
  | [] => k []
  | c :: cs => k (c :: cs) || specStarHelper k cs

def specSegMatch : List Char → List Char → Bool
  | [], cs => cs.isEmpty
  | '*' :: ps, cs => specStarHelper (specSegMatch ps) cs
  | '?' :: ps, cs =>
    (match cs with
     | [] => false
     | _ :: cs2 => specSegMatch ps cs2)
  | p :: ps, cs =>
    (match cs with
     | [] => false
     | c :: cs2 => p == c && specSegMatch ps cs2)

def specSegsStarHelper (k : List (List Char) → Bool) : List (List Char) → Bool
  | [] => k []
  | q :: qs => k (q :: qs) || specSegsStarHelper k qs

def specSegsMatch : List (List Char) → List (List Char) → Bool
  | [], qs => qs.isEmpty
  | p :: ps, qs =>
    if p == ['*', '*'] then
      specSegsStarHelper (specSegsMatch ps) qs
    else
      match qs with
      | q :: qs2 => specSegMatch p q && specSegsMatch ps qs2
      | [] => false

/-- Split a character list at every occurrence of `sep`. -/
def splitOnChar (sep : Char) : List Char → List (List Char)
  | [] => [[]]
  | c :: rest =>
    if c = sep then [] :: splitOnChar sep rest
    else
      match splitOnChar sep rest with
      | seg :: segs => (c :: seg) :: segs
      | [] => [[c]]

/-- Modelled from the spec: shell-glob matching where `*` stays within a path
segment and `**` crosses segments. -/
def specShellGlobMatches (pattern path : String) : Bool :=
  specSegsMatch (splitOnChar '/' pattern.data) (splitOnChar '/' path.data)

/-- The violation list claim C1 predicts for a `Subsystem` agent: one violation
per entry whose path matches none of the owned patterns under the spec's
segment-local `*` semantics. -/
def specSubsystemViolations (agent_name : String) (diff_entries : List DiffEntry)
    (globs : List String) : List Violation :=
  (diff_entries.filter fun e => !globs.any (fun g => specShellGlobMatches g e.path)).map
    fun e => ⟨e.path, subsystemReason agent_name e.path⟩

/-! # Worktree diff merging (`worktree.rs`)

`WorktreeManager::inspect_diff` runs three git commands and merges their
outputs.  The merging logic is modelled as a pure function of the three raw
command outputs (`git diff --name-status HEAD`, `git ls-files --others
--exclude-standard`, `git diff --name-status <base>..HEAD`). -/

/-- Trim Unicode whitespace from both ends (`str::trim`). -/
def trimChars (cs : List Char) : List Char :=
  ((cs.dropWhile Char.isWhitespace).reverse.dropWhile Char.isWhitespace).reverse

/-- One line of `--name-status` output: `splitn(2, '\t')`, first part is the
status letter, second (required) is the path, trimmed. -/
def parseNameStatusLine (line : List Char) : Option DiffEntry :=
  let line := trimChars line
  if line.isEmpty then none
  else
    let status := line.takeWhile (fun c => c ≠ '\t')
    let rest := line.dropWhile (fun c => c ≠ '\t')
    match rest with
    | [] => none
    | _ :: pathRaw =>
      match status with
      | [] => none
      | s :: _ =>
        let change_type :=
          if s = 'A' then DiffChangeType.Added
          else if s = 'M' then DiffChangeType.Modified
          else if s = 'D' then DiffChangeType.Deleted
          else DiffChangeType.Modified
        some ⟨⟨trimChars pathRaw⟩, change_type⟩

/-- `parse_name_status` from `worktree.rs`. -/
def parse_name_status (output : String) : List DiffEntry :=
  (splitOnChar '\n' output.data).filterMap parseNameStatusLine

/-- The untracked-file entries of `inspect_diff`: every nonempty trimmed line
of the `ls-files` output becomes an `Added` entry. -/
def untrackedEntries (output : String) : List DiffEntry :=
  (splitOnChar '\n' output.data).filterMap fun line =>
    let line := trimChars line
    if line.isEmpty then none else some ⟨⟨line⟩, .Added⟩

/-- The merging logic of `WorktreeManager::inspect_diff`: uncommitted entries,
then untracked entries (appended unconditionally), then committed entries,
each appended only if its path is not already present. -/
def inspect_diff_entries (uncommitted untracked committed : String) : List DiffEntry :=
  let entries := parse_name_status uncommitted
  let entries := entries ++ untrackedEntries untracked
  (parse_name_status committed).foldl
    (fun es e => if es.any (fun x => x.path == e.path) then es else es ++ [e]) entries

/-! # Run cleanup (`worktree.rs`, `WorktreeManager::cleanup_run`) -/

structure AgentWorktreeRec where
  agent : String
  run_id : String
  branch : String
  path : String
deriving DecidableEq, Repr

structure WorktreeManagerState where
  active : List AgentWorktreeRec
deriving DecidableEq, Repr

/-- `WorktreeManager::cleanup_run`: `self.active.drain(..)` empties the
registry; the drained worktrees matching the run id are collected and
`remove_worktree` is invoked on each of them in turn (an individual failure is
logged and skipped, so the returned removal list does not depend on which
removals succeed); `remaining` is the hard-coded empty vector the code then
assigns back to `self.active`.  Returns the new state and the list of
worktrees on which removal was attempted. -/
def cleanup_run (st : WorktreeManagerState) (run_id : String) :
    WorktreeManagerState × List AgentWorktreeRec :=
  let to_remove := st.active.filter (fun wt => wt.run_id == run_id)
  let remaining : List AgentWorktreeRec := []
  (⟨remaining⟩, to_remove)

/-! # Provider invocation thread discipline (`provider.rs`)

`ClaudeCliProvider::invoke` (and identically `CodexCliProvider::invoke`)
spawns a stderr reader thread and a stdout parser thread, then poll-waits on
the child.  The thread/process management actions each control path performs
are modelled as an ordered action trace. -/

inductive ThreadAct where
  | spawnStderrReader
  | spawnStdoutReader
  | joinStdoutReader
  | joinStderrReader
  | killChild
  | reapChild
deriving DecidableEq, Repr

structure ProviderOutputM where
  stdout : String
  stderr : String
  exit_code : Int
deriving DecidableEq, Repr

inductive ProviderErrorM where
  | CliNotFound
  | Timeout (seconds : Nat)
  | Io
deriving DecidableEq, Repr

/-- How the spawned child behaves: it either exits (with an exit code, a final
result text collected by the stdout parser, and collected stderr) before the
timeout elapses, or it is still running when the timeout fires. -/
inductive ChildBehavior where
  | exitsInTime (exit_code : Int) (resultText stderrText : String)
  | outlivesTimeout
deriving DecidableEq, Repr

/-- The ordered thread/process management actions of
`ClaudeCliProvider::invoke` (provider.rs): on normal exit the two reader
threads are joined and the collected output returned; on timeout the child is
killed (`child.kill()`) and reaped (`child.wait()`) and the `Timeout` error is
returned immediately — the two reader `JoinHandle`s are dropped without being
joined.  `CodexCliProvider::invoke` has the identical wait-loop structure. -/
def claude_invoke_trace (timeout_seconds : Nat) (child : ChildBehavior) :
    List ThreadAct × Except ProviderErrorM ProviderOutputM :=
  match child with
  | .exitsInTime code resultText stderrText =>
    ([.spawnStderrReader, .spawnStdoutReader, .joinStdoutReader, .joinStderrReader],
     .ok ⟨resultText, stderrText, code⟩)
  | .outlivesTimeout =>
    ([.spawnStderrReader, .spawnStdoutReader, .killChild, .reapChild],
     .error (.Timeout timeout_seconds))

/-- Same action trace for `CodexCliProvider::invoke` (provider.rs): the
spawn/join/kill structure is identical to the Claude provider. -/
def codex_invoke_trace (timeout_seconds : Nat) (child : ChildBehavior) :
    List ThreadAct × Except ProviderErrorM ProviderOutputM :=
  claude_invoke_trace timeout_seconds child

/-! # Plans and topological sort (`plan.rs`) -/

structure AgentTask where
  agent : String
  instruction : String
  focus_files : List String
  depends_on : List Nat
deriving DecidableEq, Repr

instance : Inhabited AgentTask := ⟨⟨"", "", [], []⟩⟩

structure DockPlan where
  summary : String
  tasks : List AgentTask
deriving DecidableEq, Repr

inductive WorktreeErrorM where
  | CreateFailed (path message : String)
  | RemoveFailed (path message : String)
  | GitFailed (message : String)
deriving DecidableEq, Repr

inductive OrchestrateError where
  | ContextLoad (msg : String)
  | DockFailed (msg : String)
  | InvalidPlan (msg : String)
  | Provider (e : ProviderErrorM)
  | Worktree (e : WorktreeErrorM)
  | PermissionViolation (agent : String) (violations : List Violation)
  | AgentFailed (agent message : String)
  | ReplanExhausted (attempts : Nat)
deriving DecidableEq, Repr

/-- The inner `for &next in &adj[node]` loop of `topological_sort`: decrement
`in_degree[next]` and push `next` when it reaches zero.  The queue is the
Rust `Vec` reversed (head = top of stack, where `push`/`pop` operate). -/
def processEdges : List Nat → List Nat → List Nat → List Nat × List Nat
  | [], in_deg, queue => (in_deg, queue)
  | next :: rest, in_deg, queue =>
    let d := in_deg.getD next 0 - 1
    let in_deg2 := in_deg.set next d
    if d == 0 then processEdges rest in_deg2 (next :: queue)
    else processEdges rest in_deg2 queue

/-- The `while let Some(node) = queue.pop()` loop of `topological_sort`.  One
unit of fuel is spent per iteration; each iteration pops one queue element and
(for the edge counts produced by `buildAdj`) strictly decreases
`queue.length + in_degree sum`, so the fuel supplied by `topological_sort`
never runs out on inputs where the Rust loop terminates normally. -/
def kahnLoop (adj : List (List Nat)) : Nat → List Nat → List Nat → List Nat → List Nat
  | 0, _, _, order => order
  | fuel + 1, in_deg, queue, order =>
    match queue with
    | [] => order
    | node :: qrest =>
      let s := processEdges (adj.getD node []) in_deg qrest
      kahnLoop adj fuel s.1 s.2 (order ++ [node])

/-- The adjacency lists of `topological_sort`: `adj[dep].push(i)` for every
task `i` and every `dep` in its `depends_on`, in iteration order.  (For
`dep ≥ n` the Rust indexing panics; `List.set` is a no-op there, which no
reachable call exercises since plans are validated before sorting.) -/
def buildAdj (tasks : List AgentTask) : List (List Nat) :=
  tasks.enum.foldl
    (fun adj it =>
      it.2.depends_on.foldl (fun adj d => adj.set d (adj.getD d [] ++ [it.1])) adj)
    (List.replicate tasks.length [])

/-- `topological_sort` from `plan.rs` (Kahn's algorithm; ready tasks are drawn
from a stack). -/
def topological_sort (plan : DockPlan) : Except OrchestrateError (List Nat) :=
  let n := plan.tasks.length
  let in_degree := plan.tasks.map (fun t => t.depends_on.length)
  let adj := buildAdj plan.tasks
  let queue := ((List.range n).filter (fun i => in_degree.getD i 0 == 0)).reverse
  let order := kahnLoop adj (queue.length + in_degree.sum) in_degree queue []
  if order.length == n then .ok order
  else .error (.InvalidPlan "Task dependency cycle detected")

/-- The dependency list of task `i` of a plan. -/
def depsOf (plan : DockPlan) (i : Nat) : List Nat :=
  (plan.tasks.getD i default).depends_on

/-- A task ordering is dependency-respecting: every dependency of the task at
position `k` already occurs among the first `k` entries. -/
def OrderOK (plan : DockPlan) (l : List Nat) : Prop :=
  ∀ k, (hk : k < l.length) → ∀ d ∈ depsOf plan (l.get ⟨k, hk⟩), d ∈ l.take k

/-- Invariant of the Kahn loop (proof apparatus for the topological-sort
claim). -/
structure KahnInv (plan : DockPlan) (deg : List Nat) (queue order : List Nat) : Prop where
  deg_len : deg.length = plan.tasks.length
  queue_lt : ∀ q ∈ queue, q < plan.tasks.length
  order_lt : ∀ x ∈ order, x < plan.tasks.length
  order_nodup : order.Nodup
  queue_nodup : queue.Nodup
  disj : ∀ x ∈ order, x ∉ queue
  deg_eq : ∀ i, i < plan.tasks.length →
    deg.getD i 0 + (depsOf plan i).countP (fun d => decide (d ∈ order)) = (depsOf plan i).length
  zero_mem : ∀ i, i < plan.tasks.length → deg.getD i 0 = 0 → i ∈ order ∨ i ∈ queue
  queue_zero : ∀ q ∈ queue, deg.getD q 0 = 0
  order_zero : ∀ x ∈ order, deg.getD x 0 = 0
  order_ok : OrderOK plan order

/-! # The orchestration loop (`orchestrator.rs`)

`orchestrate` is effectful: it invokes the dock, creates worktrees, executes
agent tasks, merges and cleans up.  The embedding makes the external effects
explicit: a `RunScript` oracle fixes the outcome of each external call (the
dock result per attempt, worktree creation and agent execution per
(attempt, task index), merge success per (attempt, agent)), and an ordered
`OrchEvent` trace records the observable actions.  The control flow is
transcribed from `orchestrate` (orchestrator.rs lines 42-174). -/

inductive MergeStrategy where
  | Incremental
  | AllOrNothing
deriving DecidableEq, Repr

structure OrchestrateConfig where
  max_replan_attempts : Nat
  merge_strategy : MergeStrategy
deriving DecidableEq, Repr

inductive AgentResultStatus where
  | Success
  | Failed (msg : String)
  | PermissionViolation (violations : List Violation)
deriving DecidableEq, Repr

structure AgentResult where
  agent : String
  task_index : Nat
  status : AgentResultStatus
  files_modified : List String
  stdout : String
  stderr : String
deriving DecidableEq, Repr

structure OrchestrateResult where
  plan : DockPlan
  agent_results : List AgentResult
  merged : Bool
  violations : List (String × List Violation)
deriving DecidableEq, Repr

structure ReplanContext where
  previous_plan : DockPlan
  violations : List (String × List Violation)
  attempt_number : Nat
deriving DecidableEq, Repr

/-- What `execute_agent_task` produces when it returns `Ok` (agent.rs):
status plus captured outputs.  The `agent` and `task_index` fields of the
`AgentResult` are filled in by the caller from the task, as in the source. -/
structure ExecOutcome where
  status : AgentResultStatus
  files_modified : List String
  stdout : String
  stderr : String
deriving DecidableEq, Repr

/-- Oracle for the external effects of one orchestration run:
`dock attempt` is the outcome of `run_dock` on that attempt (the replan
context only affects prompt text, which the oracle abstracts over);
`create attempt i` is the git outcome of `create_worktree` for task `i`
(`none` = created); `exec attempt i` is the outcome of `execute_agent_task`;
`mergeOk attempt agent` tells whether `merge_changes` succeeds (the git
error message is abstracted). -/
structure RunScript where
  dock : Nat → Except OrchestrateError DockPlan
  create : Nat → Nat → Option WorktreeErrorM
  exec : Nat → Nat → Except OrchestrateError ExecOutcome
  mergeOk : Nat → String → Bool

inductive OrchEvent where
  | dockInvoked (attempt : Nat) (withReplan : Bool)
  | createWorktree (attempt : Nat) (agent : String)
  | mergeChanges (attempt : Nat) (agent : String)
  | cleanupRun
deriving DecidableEq, Repr

inductive TaskPhase where
  | fatal (events : List OrchEvent) (e : OrchestrateError)
  | finished (events : List OrchEvent) (registry : List String)
      (results : List AgentResult) (violations : List (String × List Violation))
      (any_failed : Bool)
deriving DecidableEq, Repr

/-- The per-attempt task loop of `orchestrate` (phase 2, lines 81-124):
create a worktree, execute the task, merge immediately on success under
`Incremental`, push the result, and break on the first non-success.
`registry` is the worktree manager's active list, reduced to the agent names
of this run. -/
def taskLoop (script : RunScript) (cfg : OrchestrateConfig) (attempt : Nat) (plan : DockPlan) :
    List Nat → List OrchEvent → List String → List AgentResult →
    List (String × List Violation) → TaskPhase
  | [], events, registry, results, violations =>
    .finished events registry results violations false
  | task_idx :: restOrder, events, registry, results, violations =>
    let task := plan.tasks.getD task_idx default
    match script.create attempt task_idx with
    | some e => .fatal events (.Worktree e)
    | none =>
      let events := events ++ [OrchEvent.createWorktree attempt task.agent]
      let registry := registry ++ [task.agent]
      match script.exec attempt task_idx with
      | .error e => .fatal events e
      | .ok out =>
        let result : AgentResult :=
          ⟨task.agent, task_idx, out.status, out.files_modified, out.stdout, out.stderr⟩
        match out.status with
        | .Success =>
          if cfg.merge_strategy == MergeStrategy.Incremental
              && registry.contains task.agent then
            let events := events ++ [OrchEvent.mergeChanges attempt task.agent]
            if script.mergeOk attempt task.agent then
              taskLoop script cfg attempt plan restOrder events registry
                (results ++ [result]) violations
            else
              .fatal events (.Worktree (.GitFailed "merge failed"))
          else
            taskLoop script cfg attempt plan restOrder events registry
              (results ++ [result]) violations
        | .Failed _ =>
          .finished events registry (results ++ [result]) violations true
        | .PermissionViolation vs =>
          .finished events registry (results ++ [result])
            (violations ++ [(task.agent, vs)]) true

/-- The `AllOrNothing` merge loop of phase 3 (lines 129-137): merge every
`Success` result's worktree in result order, stopping at the first git
failure (which propagates with `?`). -/
def mergeAll (script : RunScript) (attempt : Nat) :
    List AgentResult → List String → List OrchEvent × Option OrchestrateError
  | [], _ => ([], none)
  | r :: rest, registry =>
    match r.status with
    | .Success =>
      if registry.contains r.agent then
        if script.mergeOk attempt r.agent then
          let m := mergeAll script attempt rest registry
          (OrchEvent.mergeChanges attempt r.agent :: m.1, m.2)
        else
          ([OrchEvent.mergeChanges attempt r.agent], some (.Worktree (.GitFailed "merge failed")))
      else mergeAll script attempt rest registry
    | _ => mergeAll script attempt rest registry

inductive RunResult where
  | ok (res : OrchestrateResult)
  | err (e : OrchestrateError)
deriving DecidableEq, Repr

/-- The `for attempt in 0..=max_replan_attempts` loop of `orchestrate`.
`remaining` counts the iterations the `for` loop still has (`orchestrate`
starts it at `max_replan_attempts + 1`); when it reaches zero the loop has
ended and `orchestrate` returns `ReplanExhausted` (line 171, unreachable in
practice since the continue branch requires `attempt < max_replan_attempts`). -/
def runAttempts (script : RunScript) (cfg : OrchestrateConfig) :
    Nat → Nat → Option ReplanContext → List OrchEvent → List OrchEvent × RunResult
  | 0, _, _, events => (events, .err (.ReplanExhausted cfg.max_replan_attempts))
  | remaining + 1, attempt, replanCtx, events =>
    let events := events ++ [OrchEvent.dockInvoked attempt replanCtx.isSome]
    match script.dock attempt with
    | .error e => (events, .err e)
    | .ok plan =>
      match topological_sort plan with
      | .error e => (events, .err e)
      | .ok order =>
        match taskLoop script cfg attempt plan order events [] [] [] with
        | .fatal evs e => (evs, .err e)
        | .finished evs registry results violations any_failed =>
          if violations.isEmpty && !any_failed then
            match
              (if cfg.merge_strategy == MergeStrategy.AllOrNothing then
                mergeAll script attempt results registry
              else ([], none)) with
            | (mevs, some e) => (evs ++ mevs, .err e)
            | (mevs, none) =>
              ((evs ++ mevs) ++ [OrchEvent.cleanupRun], .ok ⟨plan, results, true, []⟩)
          else
            let events2 := evs ++ [OrchEvent.cleanupRun]
            if attempt < cfg.max_replan_attempts && !violations.isEmpty then
              runAttempts script cfg remaining (attempt + 1)
                (some ⟨plan, violations, attempt + 1⟩) events2
            else
              (events2, .ok ⟨plan, results, false, violations⟩)

/-- `orchestrate` (orchestrator.rs): the full run, returning the event trace
and the result. -/
def orchestrate (script : RunScript) (cfg : OrchestrateConfig) :
    List OrchEvent × RunResult :=
  runAttempts script cfg (cfg.max_replan_attempts + 1) 0 none []

/-- Every `createWorktree` event is followed, later in the trace, by a
`cleanupRun` event. -/
def CreatesCleaned : List OrchEvent → Prop
  | [] => True
  | e :: rest =>
    (∀ (a : Nat) (ag : String), e = OrchEvent.createWorktree a ag →
      OrchEvent.cleanupRun ∈ rest) ∧
    CreatesCleaned rest

/-- `script.exec` delivers a clean success for every task in `order`. -/
def ExecAllSuccess (script : RunScript) (attempt : Nat) (order : List Nat) : Prop :=
  ∀ i ∈ order, ∃ out : ExecOutcome,
    script.exec attempt i = .ok out ∧ out.status = .Success

/-- Two-task plan used by the concrete scenarios: the second task depends on
the first, so the execution order is `[0, 1]`. -/
def planAB : DockPlan := ⟨"p", [⟨"agent-a", "x", [], []⟩, ⟨"agent-b", "y", [], [0]⟩]⟩

/-- Concrete script: the first task succeeds, the second fails hard
(for the `AllOrNothing` scenario of claim C2). -/
def scriptFailB : RunScript where
  dock := fun _ => .ok planAB
  create := fun _ _ => none
  exec := fun _ i =>
    if i == 0 then .ok ⟨.Success, ["f0"], "", ""⟩
    else .ok ⟨.Failed "boom", [], "", ""⟩
  mergeOk := fun _ _ => true

/-- Concrete script: the single task violates permissions on attempt 0 and
succeeds on the replan (for the claim-C3 witness). -/
def scriptReplan : RunScript where
  dock := fun _ => .ok ⟨"p", [⟨"agent-a", "x", [], []⟩]⟩
  create := fun _ _ => none
  exec := fun attempt _ =>
    if attempt == 0 then
      .ok ⟨.PermissionViolation [⟨"src/cli.rs", "outside declared globs"⟩], ["src/cli.rs"], "", ""⟩
    else .ok ⟨.Success, [], "", ""⟩
  mergeOk := fun _ _ => true

/-- Concrete script: agent execution errors out (provider failure), so
`orchestrate` propagates an error after a worktree was created (for the
claim-C7 counterexample). -/
def scriptExecErr : RunScript where
  dock := fun _ => .ok ⟨"p", [⟨"agent-a", "x", [], []⟩]⟩
  create := fun _ _ => none
  exec := fun _ _ => .error (.AgentFailed "agent-a" "provider invoke failed")
  mergeOk := fun _ _ => true

/-- Concrete script: a clean single-task success run (for the claim-C7
witness). -/
def scriptClean : RunScript where
  dock := fun _ => .ok ⟨"p", [⟨"agent-a", "x", [], []⟩]⟩
  create := fun _ _ => none
  exec := fun _ _ => .ok ⟨.Success, ["f0"], "", ""⟩
  mergeOk := fun _ _ => true

def TaskPhase.events : TaskPhase → List OrchEvent
  | .fatal evs _ => evs
  | .finished evs _ _ _ _ => evs

/-- Attempt `a` ran its task loop to completion with some task ending in a
hard `Failed` status (proof apparatus for the replan claim). -/
def FailHardAt (script : RunScript) (cfg : OrchestrateConfig) (a : Nat) : Prop :=
  ∃ plan order evs reg results viols af,
    script.dock a = .ok plan ∧
    topological_sort plan = .ok order ∧
    taskLoop script cfg a plan order [] [] [] [] = .finished evs reg results viols af ∧
    ∃ r ∈ results, ∃ msg, r.status = .Failed msg

/-- Attempt `a` ran its task loop to completion with every task executing
to a clean `Success` and no violations recorded (proof apparatus for the
`AllOrNothing` merge-gating claim). -/
def AttemptAllSuccess (script : RunScript) (cfg : OrchestrateConfig) (a : Nat) : Prop :=
  ∃ plan order, script.dock a = .ok plan ∧ topological_sort plan = .ok order ∧
    ExecAllSuccess script a order ∧
    ∃ evs reg results,
      taskLoop script cfg a plan order [] [] [] [] = .finished evs reg results [] false

/-- Attempt `a` is a justified replan: it is not the first attempt, the
budget allows it, and the previous attempt finished its task loop with at
least one recorded permission violation (proof apparatus for the replan
claim). -/
def ReplanJustified (script : RunScript) (cfg : OrchestrateConfig) (a : Nat) : Prop :=
  0 < a ∧ a ≤ cfg.max_replan_attempts ∧
  ∃ plan order evs reg results viols af,
    script.dock (a - 1) = .ok plan ∧
    topological_sort plan = .ok order ∧
    taskLoop script cfg (a - 1) plan order [] [] [] [] =
      .finished evs reg results viols af ∧
    viols ≠ []

/-! ## Dock output extraction (dock.rs): serde_json model

`parse_dock_output` and `extract_json_plan` transcribe dock.rs lines 59-129.
serde_json is modelled by a character-level lexer (`lexSteps`), a pushdown
parser (`jparse`) into a `Json` value tree, and a field decoder
(`planFromJson`) mirroring the `Deserialize` impl of `DockPlan` (with
`#[serde(default)]` on `focus_files` and `depends_on`); serialization
(`planChars`) mirrors compact `serde_json::to_string` of the `Serialize`
impl, escaping quotes, backslashes and the common control characters. -/

inductive Json where
  | null
  | bool (b : Bool)
  | num (raw : String)
  | str (s : String)
  | arr (xs : List Json)
  | obj (fields : List (String × Json))
deriving Repr

inductive JTok where
  | lbrace | rbrace | lbrack | rbrack | colon | comma
  | tru | fls | nul
  | str (s : String)
  | num (raw : String)
deriving DecidableEq, Repr

inductive LexMode where
  | normal
  | inStr (acc : List Char)
  | inStrEsc (acc : List Char)
  | inNum (acc : List Char)

def lexSteps : LexMode → List Char → List JTok → Option (List JTok)
  | .normal, [], acc => some acc.reverse
  | .inNum ds, [], acc => some (JTok.num (String.mk ds.reverse) :: acc).reverse
  | .inStr _, [], _ => none
  | .inStrEsc _, [], _ => none
  | .normal, 't' :: 'r' :: 'u' :: 'e' :: rest, acc => lexSteps .normal rest (.tru :: acc)
  | .normal, 'f' :: 'a' :: 'l' :: 's' :: 'e' :: rest, acc => lexSteps .normal rest (.fls :: acc)
  | .normal, 'n' :: 'u' :: 'l' :: 'l' :: rest, acc => lexSteps .normal rest (.nul :: acc)
  | .normal, c :: rest, acc =>
    if c.isWhitespace then lexSteps .normal rest acc
    else if c = '{' then lexSteps .normal rest (.lbrace :: acc)
    else if c = '}' then lexSteps .normal rest (.rbrace :: acc)
    else if c = '[' then lexSteps .normal rest (.lbrack :: acc)
    else if c = ']' then lexSteps .normal rest (.rbrack :: acc)
    else if c = ':' then lexSteps .normal rest (.colon :: acc)
    else if c = ',' then lexSteps .normal rest (.comma :: acc)
    else if c = '"' then lexSteps (.inStr []) rest acc
    else if c.isDigit || c = '-' then lexSteps (.inNum [c]) rest acc
    else none
  | .inNum ds, c :: rest, acc =>
    if c.isDigit then lexSteps (.inNum (c :: ds)) rest acc
    else if c = ',' then lexSteps .normal rest (.comma :: .num (String.mk ds.reverse) :: acc)
    else if c = ']' then lexSteps .normal rest (.rbrack :: .num (String.mk ds.reverse) :: acc)
    else if c = '}' then lexSteps .normal rest (.rbrace :: .num (String.mk ds.reverse) :: acc)
    else if c.isWhitespace then lexSteps .normal rest (.num (String.mk ds.reverse) :: acc)
    else none
  | .inStr sacc, c :: rest, acc =>
    if c = '"' then lexSteps .normal rest (.str (String.mk sacc.reverse) :: acc)
    else if c = '\\' then lexSteps (.inStrEsc sacc) rest acc
    else lexSteps (.inStr (c :: sacc)) rest acc
  | .inStrEsc sacc, c :: rest, acc =>
    if c = '"' then lexSteps (.inStr ('"' :: sacc)) rest acc
    else if c = '\\' then lexSteps (.inStr ('\\' :: sacc)) rest acc
    else if c = '/' then lexSteps (.inStr ('/' :: sacc)) rest acc
    else if c = 'n' then lexSteps (.inStr ('\n' :: sacc)) rest acc
    else if c = 't' then lexSteps (.inStr ('\t' :: sacc)) rest acc
    else if c = 'r' then lexSteps (.inStr ('\r' :: sacc)) rest acc
    else if c = 'b' then lexSteps (.inStr (Char.ofNat 8 :: sacc)) rest acc
    else if c = 'f' then lexSteps (.inStr (Char.ofNat 12 :: sacc)) rest acc
    else none

inductive PFrame where
  | arrF (done : List Json)
  | objF (done : List (String × Json)) (key : String)

inductive PState where
  | expectVal
  | haveVal (j : Json)

def jparse : List JTok → PState → List PFrame → Option (Json × List JTok)
  | toks, .haveVal j, [] => some (j, toks)
  | .comma :: rest, .haveVal j, .arrF done :: stack =>
    jparse rest .expectVal (.arrF (j :: done) :: stack)
  | .rbrack :: rest, .haveVal j, .arrF done :: stack =>
    jparse rest (.haveVal (.arr (j :: done).reverse)) stack
  | .comma :: .str k :: .colon :: rest, .haveVal j, .objF done key :: stack =>
    jparse rest .expectVal (.objF ((key, j) :: done) k :: stack)
  | .rbrace :: rest, .haveVal j, .objF done key :: stack =>
    jparse rest (.haveVal (.obj ((key, j) :: done).reverse)) stack
  | .str s :: rest, .expectVal, stack => jparse rest (.haveVal (.str s)) stack
  | .num raw :: rest, .expectVal, stack => jparse rest (.haveVal (.num raw)) stack
  | .tru :: rest, .expectVal, stack => jparse rest (.haveVal (.bool true)) stack
  | .fls :: rest, .expectVal, stack => jparse rest (.haveVal (.bool false)) stack
  | .nul :: rest, .expectVal, stack => jparse rest (.haveVal .null) stack
  | .lbrack :: .rbrack :: rest, .expectVal, stack => jparse rest (.haveVal (.arr [])) stack
  | .lbrack :: rest, .expectVal, stack => jparse rest .expectVal (.arrF [] :: stack)
  | .lbrace :: .rbrace :: rest, .expectVal, stack => jparse rest (.haveVal (.obj [])) stack
  | .lbrace :: .str k :: .colon :: rest, .expectVal, stack =>
    jparse rest .expectVal (.objF [] k :: stack)
  | _, _, _ => none

def tokenize (s : List Char) : Option (List JTok) := lexSteps .normal s []

/-- `serde_json::from_str::<serde_json::Value>`: tokenize, parse one value,
require that nothing but whitespace follows. -/
def from_str_value (s : List Char) : Option Json :=
  match tokenize s with
  | none => none
  | some toks =>
    match jparse toks .expectVal [] with
    | some (j, []) => some j
    | _ => none

def getField (fields : List (String × Json)) (k : String) : Option Json :=
  match fields.find? (fun f => f.1 == k) with
  | some f => some f.2
  | none => none

def asStr : Json → Option String
  | .str s => some s
  | _ => none

def strListOf : List Json → Option (List String)
  | [] => some []
  | j :: rest =>
    match asStr j, strListOf rest with
    | some s, some ss => some (s :: ss)
    | _, _ => none

def digitsToNat : List Char → Nat → Nat
  | [], acc => acc
  | c :: rest, acc => digitsToNat rest (acc * 10 + (c.toNat - 48))

/-- `usize` deserialization: a plain digit literal. -/
def asNat : Json → Option Nat
  | .num raw =>
    if !raw.data.isEmpty && raw.data.all Char.isDigit then some (digitsToNat raw.data 0)
    else none
  | _ => none

def natListOf : List Json → Option (List Nat)
  | [] => some []
  | j :: rest =>
    match asNat j, natListOf rest with
    | some n, some ns => some (n :: ns)
    | _, _ => none

/-- `Deserialize` for `AgentTask`: `agent` and `instruction` are required
strings; `focus_files` and `depends_on` fall back to `[]` when absent
(`#[serde(default)]`); unknown fields are ignored. -/
def taskFromJson : Json → Option AgentTask
  | .obj fs =>
    match getField fs "agent", getField fs "instruction" with
    | some (.str ag), some (.str ins) =>
      match (match getField fs "focus_files" with
             | none => some []
             | some j => match j with
               | .arr xs => strListOf xs
               | _ => none),
            (match getField fs "depends_on" with
             | none => some []
             | some j => match j with
               | .arr xs => natListOf xs
               | _ => none) with
      | some ff, some dep => some ⟨ag, ins, ff, dep⟩
      | _, _ => none
    | _, _ => none
  | _ => none

def tasksFromJson : List Json → Option (List AgentTask)
  | [] => some []
  | j :: rest =>
    match taskFromJson j, tasksFromJson rest with
    | some t, some ts => some (t :: ts)
    | _, _ => none

/-- `Deserialize` for `DockPlan`: required `summary` string and `tasks`
array. -/
def planFromJson : Json → Option DockPlan
  | .obj fs =>
    match getField fs "summary", getField fs "tasks" with
    | some (.str sm), some (.arr txs) =>
      match tasksFromJson txs with
      | some ts => some ⟨sm, ts⟩
      | none => none
    | _, _ => none
  | _ => none

/-- `cli_output.get("result").and_then(|v| v.as_str())` (dock.rs line 64). -/
def getResultStr : Json → Option String
  | .obj fs =>
    match getField fs "result" with
    | some (.str s) => some s
    | _ => none
  | _ => none

/-- `serde_json::from_str::<DockPlan>`. -/
def from_str_plan (s : List Char) : Option DockPlan :=
  match from_str_value s with
  | some v => planFromJson v
  | none => none

def digitChar (n : Nat) : Char := Char.ofNat (48 + n)

def natToDigitsAux : Nat → Nat → List Char → List Char
  | 0, _, acc => acc
  | fuel + 1, n, acc =>
    if n < 10 then digitChar n :: acc
    else natToDigitsAux fuel (n / 10) (digitChar (n % 10) :: acc)

/-- Decimal digits of `n`, most significant first. -/
def natChars (n : Nat) : List Char := natToDigitsAux (n + 1) n []

def natToString (n : Nat) : String := String.mk (natChars n)

/-- JSON string escaping as `serde_json` emits it for text made of printable
characters, newlines, tabs and carriage returns. -/
def escChar (c : Char) : List Char :=
  if c = '"' then ['\\', '"']
  else if c = '\\' then ['\\', '\\']
  else if c = '\n' then ['\\', 'n']
  else if c = '\t' then ['\\', 't']
  else if c = '\r' then ['\\', 'r']
  else [c]

def escStr : List Char → List Char
  | [] => []
  | c :: rest => escChar c ++ escStr rest

def quoteStr (s : String) : List Char := '"' :: (escStr s.data ++ ['"'])

def strTailChars : List String → List Char
  | [] => []
  | s :: rest => ',' :: (quoteStr s ++ strTailChars rest)

def strListChars : List String → List Char
  | [] => []
  | s :: rest => quoteStr s ++ strTailChars rest

def natTailChars : List Nat → List Char
  | [] => []
  | n :: rest => ',' :: (natChars n ++ natTailChars rest)

def natListChars : List Nat → List Char
  | [] => []
  | n :: rest => natChars n ++ natTailChars rest

/-- Compact serde serialization of one `AgentTask`, fields in declaration
order. -/
def taskInner (t : AgentTask) : List Char :=
  quoteStr "agent" ++ [':'] ++ quoteStr t.agent ++ [','] ++
  quoteStr "instruction" ++ [':'] ++ quoteStr t.instruction ++ [','] ++
  quoteStr "focus_files" ++ [':'] ++ ['['] ++ strListChars t.focus_files ++ [']'] ++ [','] ++
  quoteStr "depends_on" ++ [':'] ++ ['['] ++ natListChars t.depends_on ++ [']']

def taskChars (t : AgentTask) : List Char := '{' :: (taskInner t ++ ['}'])

def taskTailChars : List AgentTask → List Char
  | [] => []
  | t :: rest => ',' :: (taskChars t ++ taskTailChars rest)

def tasksChars : List AgentTask → List Char
  | [] => []
  | t :: rest => taskChars t ++ taskTailChars rest

def planInner (p : DockPlan) : List Char :=
  quoteStr "summary" ++ [':'] ++ quoteStr p.summary ++ [','] ++
  quoteStr "tasks" ++ [':'] ++ ['['] ++ tasksChars p.tasks ++ [']']

/-- `serde_json::to_string(&plan)`. -/
def planChars (p : DockPlan) : List Char := '{' :: (planInner p ++ ['}'])

def serializePlan (p : DockPlan) : String := String.mk (planChars p)

/-- The Claude CLI envelope `{"result":"<payload>"}`. -/
def envelopeChars (s : String) : List Char :=
  '{' :: (quoteStr "result" ++ [':'] ++ quoteStr s ++ ['}'])

def startsWithC : List Char → List Char → Bool
  | [], _ => true
  | _ :: _, [] => false
  | p :: ps, c :: cs => p == c && startsWithC ps cs

/-- `text.find(pat)` followed by slicing off everything through the match:
the suffix just after the first occurrence of `pat`. -/
def afterSub (pat : List Char) : List Char → Option (List Char)
  | [] => if startsWithC pat [] then some [] else none
  | c :: rest =>
    if startsWithC pat (c :: rest) then some ((c :: rest).drop pat.length)
    else afterSub pat rest

/-- `text.find(pat)` keeping the part before the first occurrence. -/
def takeBeforeSub (pat : List Char) : List Char → Option (List Char)
  | [] => if startsWithC pat [] then some [] else none
  | c :: rest =>
    if startsWithC pat (c :: rest) then some []
    else
      match takeBeforeSub pat rest with
      | some pre => some (c :: pre)
      | none => none

/-- The brace-matching loop of `extract_json_plan` (dock.rs lines 101-117)
after the first `{` was consumed at depth 1: returns the consumed chunk when
the depth returns to zero, `none` when the text ends first. -/
def braceTake (depth : Nat) (acc : List Char) : List Char → Option (List Char)
  | [] => none
  | c :: rest =>
    if c = '{' then braceTake (depth + 1) (c :: acc) rest
    else if c = '}' then
      if depth = 1 then some (c :: acc).reverse
      else braceTake (depth - 1) (c :: acc) rest
    else braceTake depth (c :: acc) rest

/-- `text.find('{')` plus the brace-matching scan. -/
def braceChunk : List Char → Option (List Char)
  | [] => none
  | c :: rest => if c = '{' then braceTake 1 [c] rest else braceChunk rest

/-- `extract_json_plan` (dock.rs lines 81-129): direct parse, then the
fenced ```json block, then the first brace-balanced chunk, else `DockFailed`. -/
def extract_json_plan (text : List Char) : Except OrchestrateError DockPlan :=
  let text := trimChars text
  match from_str_plan text with
  | some plan => .ok plan
  | none =>
    let fenced : Option DockPlan :=
      match afterSub "```json".data text with
      | none => none
      | some after_fence =>
        match takeBeforeSub "```".data after_fence with
        | none => none
        | some body => from_str_plan (trimChars body)
    match fenced with
    | some plan => .ok plan
    | none =>
      let braced : Option DockPlan :=
        match braceChunk text with
        | none => none
        | some chunk => from_str_plan chunk
      match braced with
      | some plan => .ok plan
      | none =>
        .error (.DockFailed (String.mk ("Could not parse DockPlan from output: ".data ++ text)))

/-- `parse_dock_output` (dock.rs lines 59-78): try the Claude CLI wrapper's
`result` string, then the whole value as a plan, then raw extraction. -/
def parse_dock_output (stdout : String) : Except OrchestrateError DockPlan :=
  let text := trimChars stdout.data
  match from_str_value text with
  | some cli_output =>
    match getResultStr cli_output with
    | some result =>
      match extract_json_plan result.data with
      | .ok plan => .ok plan
      | .error _ =>
        match planFromJson cli_output with
        | some plan => .ok plan
        | none => extract_json_plan text
    | none =>
      match planFromJson cli_output with
      | some plan => .ok plan
      | none => extract_json_plan text
  | none => extract_json_plan text

def isDockFailed : Except OrchestrateError DockPlan → Bool
  | .error (.DockFailed _) => true
  | _ => false

/-! Proof apparatus for the extraction claims: token and value images of the
serializer, and the side-condition predicates. -/

def strTailToks : List String → List JTok
  | [] => []
  | s :: rest => .comma :: .str s :: strTailToks rest

def strListToks : List String → List JTok
  | [] => []
  | s :: rest => .str s :: strTailToks rest

def natTailToks : List Nat → List JTok
  | [] => []
  | n :: rest => .comma :: .num (natToString n) :: natTailToks rest

def natListToks : List Nat → List JTok
  | [] => []
  | n :: rest => .num (natToString n) :: natTailToks rest

def taskToks (t : AgentTask) : List JTok :=
  [.lbrace, .str "agent", .colon, .str t.agent, .comma, .str "instruction", .colon,
   .str t.instruction, .comma, .str "focus_files", .colon, .lbrack] ++
  strListToks t.focus_files ++
  [.rbrack, .comma, .str "depends_on", .colon, .lbrack] ++
  natListToks t.depends_on ++ [.rbrack, .rbrace]

def taskTailToks : List AgentTask → List JTok
  | [] => []
  | t :: rest => .comma :: (taskToks t ++ taskTailToks rest)

def tasksToks : List AgentTask → List JTok
  | [] => []
  | t :: rest => taskToks t ++ taskTailToks rest

def planToks (p : DockPlan) : List JTok :=
  [.lbrace, .str "summary", .colon, .str p.summary, .comma, .str "tasks", .colon, .lbrack] ++
  tasksToks p.tasks ++ [.rbrack, .rbrace]

def taskJson (t : AgentTask) : Json :=
  .obj [("agent", .str t.agent), ("instruction", .str t.instruction),
    ("focus_files", .arr (t.focus_files.map Json.str)),
    ("depends_on", .arr (t.depends_on.map (fun n => Json.num (natToString n))))]

def planJson (p : DockPlan) : Json :=
  .obj [("summary", .str p.summary), ("tasks", .arr (p.tasks.map taskJson))]

def digitChars : List Char := ['0', '1', '2', '3', '4', '5', '6', '7', '8', '9']

/-- A character that cannot begin any JSON token: reading it in normal mode
fails the lexer at once. -/
def proseHead (c : Char) : Bool :=
  !(c.isWhitespace || c == '{' || c == '}' || c == '[' || c == ']' || c == ':' || c == ','
    || c == '"' || c.isDigit || c == '-' || c == 't' || c == 'f' || c == 'n')

/-- The surrounding prose opens with a character that starts no JSON token. -/
def proseLead (pre : String) : Bool :=
  match pre.data with
  | [] => false
  | c :: _ => proseHead c

def noChar (x : Char) (s : String) : Bool := s.data.all (fun c => c != x)

def planStrings (p : DockPlan) : List String :=
  p.summary :: p.tasks.bind (fun t => t.agent :: t.instruction :: t.focus_files)

/-- No string of the plan contains `x`. -/
def planNoChar (x : Char) (p : DockPlan) : Bool := (planStrings p).all (noChar x)

/-- Plan strings stay in the fragment where the serializer model matches
serde byte for byte: no control characters other than newline, tab and
carriage return. -/
def strNoCtl (s : String) : Bool :=
  s.data.all (fun c => 32 ≤ c.toNat || c == '\n' || c == '\t' || c == '\r')

def planOk (p : DockPlan) : Bool := (planStrings p).all strNoCtl

/-- Every character the serializer emits outside plan strings, braces
excepted. -/
def nonBraceSpecials : List Char :=
  "[]:,\"\\ntr0123456789summarytasksagentinstructionfocus_filesdepends_on".data

/-- Every character the serializer emits outside plan strings. -/
def structuralChars : List Char := '{' :: '}' :: nonBraceSpecials

/-- A character segment that the brace scan walks through returning to its
entry depth, never touching zero: the building block of balanced chunks. -/
def Neutral (seg : List Char) : Prop :=
  ∀ (d : Nat) (acc rest : List Char), 1 ≤ d →
    braceTake d acc (seg ++ rest) = braceTake d (seg.reverse ++ acc) rest

/-- A small well-behaved plan exercised by the extraction witnesses. -/
def planWit : DockPlan := ⟨"test", [⟨"core-agent", "do it", ["a.rs"], []⟩]⟩

/-- The plan used by the extraction counterexample: valid, but its summary
mentions a closing brace. -/
def planBrace : DockPlan :=
  ⟨"fix \x7d handling", [⟨"core-agent", "do it", [], []⟩]⟩

/-! # Theorems -/

/-! ## Helper lemmas -/

theorem foldl_push_filter_map {α β : Type} (f : α → Bool) (g : α → β) (l : List α) :
    ∀ init : List β,
      l.foldl (fun acc a => if f a then acc ++ [g a] else acc) init =
        init ++ (l.filter f).map g := by
  induction l with
  | nil => intro init; simp
  | cons a t ih =>
    intro init
    cases hfa : f a <;> simp [List.foldl_cons, hfa, ih, List.filter_cons]

theorem foldl_push_map {α β : Type} (g : α → β) (l : List α) :
    ∀ init : List β,
      l.foldl (fun acc a => acc ++ [g a]) init = init ++ l.map g := by
  induction l with
  | nil => intro init; simp
  | cons a t ih => intro init; simp [List.foldl_cons, ih]

/-- Characterization of `check_agent_permissions` as a filter-map, per role. -/
theorem check_agent_permissions_eq (agent_name : String) (entries : List DiffEntry)
    (ctx : RepoContext) :
    check_agent_permissions agent_name entries ctx =
      match ctx.agent_role agent_name with
      | some .Subsystem =>
        (entries.filter fun e => !matches_any_glob e.path (ctx.agent_file_globs agent_name)).map
          fun e => ⟨e.path, subsystemReason agent_name e.path⟩
      | some .Skimsystem =>
        (entries.filter fun e => !e.path.endsWith ".bog").map
          fun e => ⟨e.path, skimsystemReason agent_name e.path⟩
      | none => entries.map fun e => ⟨e.path, unregisteredReason agent_name⟩ := by
  unfold check_agent_permissions
  cases ctx.agent_role agent_name with
  | none =>
    simpa using foldl_push_map
      (fun e : DiffEntry => (⟨e.path, unregisteredReason agent_name⟩ : Violation)) entries []
  | some role =>
    cases role with
    | Subsystem =>
      simpa using foldl_push_filter_map
        (fun e : DiffEntry => !matches_any_glob e.path (ctx.agent_file_globs agent_name))
        (fun e : DiffEntry => (⟨e.path, subsystemReason agent_name e.path⟩ : Violation)) entries []
    | Skimsystem =>
      simpa using foldl_push_filter_map
        (fun e : DiffEntry => !e.path.endsWith ".bog")
        (fun e : DiffEntry => (⟨e.path, skimsystemReason agent_name e.path⟩ : Violation)) entries []

theorem matches_any_glob_of_all_invalid (pats : List String)
    (h : ∀ p ∈ pats, tokenizePattern p = none) (pth : String) :
    matches_any_glob pth pats = false := by
  induction pats with
  | nil => rfl
  | cons q qs ih =>
    have hq := h q (by simp)
    have hqs : ∀ p ∈ qs, tokenizePattern p = none := fun p hp => h p (by simp [hp])
    have ihq := ih hqs
    simp [matches_any_glob, globMatches, hq] at *
    exact ihq

/-! ## Claim C1 -/

/-- C1, counterexample: with agent `core-agent` owning the single glob
`src/*` and a diff touching `src/a/b.rs`, the code reports **no** violation
(the glob crate's default `*` crosses `/`), while the claim — which fixes
shell-glob semantics where `*` stays within one path segment — demands exactly
one violation for that path.  So `check_agent_permissions` does not return the
violation set the claim describes. -/
theorem C1_counterexample_star_crosses_separator :
    check_agent_permissions "core-agent" [⟨"src/a/b.rs", .Modified⟩]
        ⟨[("core-agent", .Subsystem)], [("core-agent", ["src/*"])]⟩ = [] ∧
      specSubsystemViolations "core-agent" [⟨"src/a/b.rs", .Modified⟩] ["src/*"] =
        [⟨"src/a/b.rs", subsystemReason "core-agent" "src/a/b.rs"⟩] := by
  constructor <;> decide

/-- C1, amended: `check_agent_permissions` returns exactly one violation per
offending entry, never short-circuiting: for a `Subsystem` agent the offending
entries are those whose path matches none of the agent's owned glob patterns
**under the glob crate's default matching semantics** (in which `*` and `?`
may also match the path separator, and an invalid pattern matches nothing);
for a `Skimsystem` agent those whose path does not end in `.bog`; for an
unregistered agent every entry.  The reasons name the agent and path as the
claim states. -/
theorem C1_permission_check_exact_violations (agent_name : String)
    (entries : List DiffEntry) (ctx : RepoContext) :
    check_agent_permissions agent_name entries ctx =
      match ctx.agent_role agent_name with
      | some .Subsystem =>
        (entries.filter fun e => !matches_any_glob e.path (ctx.agent_file_globs agent_name)).map
          fun e => ⟨e.path, subsystemReason agent_name e.path⟩
      | some .Skimsystem =>
        (entries.filter fun e => !e.path.endsWith ".bog").map
          fun e => ⟨e.path, skimsystemReason agent_name e.path⟩
      | none => entries.map fun e => ⟨e.path, unregisteredReason agent_name⟩ :=
  check_agent_permissions_eq agent_name entries ctx

/-! ## Claim C10 -/

/-- C10: a pattern string that fails to compile contributes no match —
`matches_any_glob` over a list of invalid patterns is `false` for every path,
and a `Subsystem` agent whose declared patterns are all malformed receives
exactly one violation for every diff entry (fails closed). -/
theorem C10_invalid_globs_fail_closed (path : String) (patterns : List String)
    (agent_name : String) (entries : List DiffEntry) (ctx : RepoContext)
    (hbad : ∀ p ∈ patterns, tokenizePattern p = none)
    (hrole : ctx.agent_role agent_name = some .Subsystem)
    (hglobs : ∀ p ∈ ctx.agent_file_globs agent_name, tokenizePattern p = none) :
    matches_any_glob path patterns = false ∧
      check_agent_permissions agent_name entries ctx =
        entries.map fun e => ⟨e.path, subsystemReason agent_name e.path⟩ := by
  refine ⟨matches_any_glob_of_all_invalid patterns hbad path, ?_⟩
  rw [check_agent_permissions_eq, hrole]
  have hall : ∀ e ∈ entries, (!matches_any_glob e.path (ctx.agent_file_globs agent_name)) = true := by
    intro e _
    rw [matches_any_glob_of_all_invalid _ hglobs e.path]
    rfl
  rw [List.filter_eq_self.mpr hall]

/-- C10, witness: two malformed patterns (`src/[` has an unclosed range,
`a**` has a `**` not forming a whole path component) match nothing, and an
agent owning only them gets one violation per diff entry. -/
theorem C10_invalid_globs_fail_closed_witness :
    matches_any_glob "src/ast.rs" ["src/[", "a**"] = false ∧
      check_agent_permissions "core-agent" [⟨"a.rs", .Modified⟩, ⟨"b.rs", .Added⟩]
          ⟨[("core-agent", .Subsystem)], [("core-agent", ["src/[", "a**"])]⟩ =
        [⟨"a.rs", subsystemReason "core-agent" "a.rs"⟩,
         ⟨"b.rs", subsystemReason "core-agent" "b.rs"⟩] :=
  C10_invalid_globs_fail_closed "src/ast.rs" ["src/[", "a**"] "core-agent"
    [⟨"a.rs", .Modified⟩, ⟨"b.rs", .Added⟩]
    ⟨[("core-agent", .Subsystem)], [("core-agent", ["src/[", "a**"])]⟩
    (by decide) (by decide) (by decide)

/-! ## Claim C4 -/

/-- The dedup fold of `inspect_diff`: appending each entry only when its path
is fresh preserves path-distinctness and only ever appends entries of the
folded list. -/
theorem dedup_foldl_spec (l : List DiffEntry) :
    ∀ acc : List DiffEntry, (acc.map (·.path)).Nodup →
      ∃ extra,
        l.foldl (fun es e => if es.any (fun x => x.path == e.path) then es else es ++ [e]) acc =
          acc ++ extra ∧
        (∀ e ∈ extra, e ∈ l) ∧
        (((acc ++ extra).map (·.path)).Nodup) := by
  induction l with
  | nil =>
    intro acc h
    exact ⟨[], by simp, by simp, by simpa using h⟩
  | cons e t ih =>
    intro acc hacc
    cases hmem : acc.any (fun x => x.path == e.path) with
    | true =>
      obtain ⟨extra, heq, hsub, hnd⟩ := ih acc hacc
      refine ⟨extra, ?_, ?_, hnd⟩
      · rw [List.foldl_cons, if_pos hmem]
        exact heq
      · exact fun x hx => List.mem_cons_of_mem _ (hsub x hx)
    | false =>
      have hfresh : e.path ∉ acc.map (·.path) := by
        intro hmem2
        rw [List.any_eq_false] at hmem
        obtain ⟨x, hx, hxe⟩ := List.mem_map.mp hmem2
        exact hmem x hx (by simp [hxe])
      have hacc2 : ((acc ++ [e]).map (·.path)).Nodup := by
        rw [List.map_append, List.nodup_append]
        refine ⟨hacc, List.nodup_singleton _, ?_⟩
        intro p hp1 hp2
        simp only [List.map_cons, List.map_nil, List.mem_singleton] at hp2
        subst hp2
        exact hfresh hp1
      obtain ⟨extra, heq, hsub, hnd⟩ := ih (acc ++ [e]) hacc2
      refine ⟨e :: extra, ?_, ?_, ?_⟩
      · rw [List.foldl_cons, if_neg (by simp [hmem])]
        simpa [List.append_assoc] using heq
      · intro x hx
        rcases hx with _ | hx
        · exact List.mem_cons_self e t
        · exact List.mem_cons_of_mem _ (hsub x (by assumption))
      · simpa [List.append_assoc] using hnd

/-- C4, counterexample: a path appearing in both the uncommitted `--name-status`
output and the untracked-files output appears **twice** in the final entry
list (the code never deduplicates the first two sources against each other),
contradicting "every path occurs at most once ... appears exactly once". -/
theorem C4_counterexample_duplicate_path :
    (inspect_diff_entries "M\tfoo.rs" "foo.rs" "").map (·.path) = ["foo.rs", "foo.rs"] := by
  decide

/-- C4, amended: the combined list starts with the uncommitted entries followed
by the untracked entries, concatenated without deduplication; only the
committed-diff entries are deduplicated, each appended only when its path is
not already present (first classification wins against the committed source).
Consequently, *provided* the uncommitted and untracked sources together
mention each path at most once — which git guarantees, since a path cannot be
both tracked-modified and untracked — every path occurs at most once in the
final entry list. -/
theorem C4_inspect_diff_dedup (uncommitted untracked committed : String)
    (h : ((parse_name_status uncommitted ++ untrackedEntries untracked).map (·.path)).Nodup) :
    ∃ extra : List DiffEntry,
      inspect_diff_entries uncommitted untracked committed =
        (parse_name_status uncommitted ++ untrackedEntries untracked) ++ extra ∧
      (∀ e ∈ extra, e ∈ parse_name_status committed) ∧
      ((inspect_diff_entries uncommitted untracked committed).map (·.path)).Nodup := by
  obtain ⟨extra, heq, hsub, hnd⟩ :=
    dedup_foldl_spec (parse_name_status committed)
      (parse_name_status uncommitted ++ untrackedEntries untracked) h
  refine ⟨extra, ?_, hsub, ?_⟩
  · simpa [inspect_diff_entries] using heq
  · rw [show inspect_diff_entries uncommitted untracked committed =
        (parse_name_status uncommitted ++ untrackedEntries untracked) ++ extra from by
      simpa [inspect_diff_entries] using heq]
    exact hnd

/-- C4, witness: a concrete instantiation with pairwise-distinct source
paths. -/
theorem C4_inspect_diff_dedup_witness :
    ∃ extra : List DiffEntry,
      inspect_diff_entries "M\ta.rs" "b.rs" "A\tc.rs" =
        (parse_name_status "M\ta.rs" ++ untrackedEntries "b.rs") ++ extra ∧
      (∀ e ∈ extra, e ∈ parse_name_status "A\tc.rs") ∧
      ((inspect_diff_entries "M\ta.rs" "b.rs" "A\tc.rs").map (·.path)).Nodup :=
  C4_inspect_diff_dedup "M\ta.rs" "b.rs" "A\tc.rs" (by decide)

/-! ## Claim C8 -/

/-- C8: on the timeout path of `invoke` the child is killed and reaped and the
`Timeout` error is returned, but — contrary to the claim — neither the stdout
reader thread nor the stderr reader thread is joined before the return (their
`JoinHandle`s are dropped, detaching the threads); both providers share this
structure.  On the normal-exit path both threads are joined. -/
theorem C8_timeout_path_skips_reader_joins :
    (claude_invoke_trace 300 .outlivesTimeout).2 = .error (.Timeout 300) ∧
      ThreadAct.killChild ∈ (claude_invoke_trace 300 .outlivesTimeout).1 ∧
      ThreadAct.reapChild ∈ (claude_invoke_trace 300 .outlivesTimeout).1 ∧
      ThreadAct.joinStdoutReader ∉ (claude_invoke_trace 300 .outlivesTimeout).1 ∧
      ThreadAct.joinStderrReader ∉ (claude_invoke_trace 300 .outlivesTimeout).1 ∧
      codex_invoke_trace 300 .outlivesTimeout = claude_invoke_trace 300 .outlivesTimeout ∧
      ThreadAct.joinStdoutReader ∈ (claude_invoke_trace 300 (.exitsInTime 0 "out" "err")).1 ∧
      ThreadAct.joinStderrReader ∈ (claude_invoke_trace 300 (.exitsInTime 0 "out" "err")).1 :=
  ⟨rfl, by decide, by decide, by decide, by decide, rfl, by decide, by decide⟩

/-! ## Claim C9 -/

/-- C9: `cleanup_run` attempts removal exactly on the worktrees tagged with
the given run id (so other runs' directories and branches are untouched, and
removal is attempted on every matching worktree regardless of individual
failures) — but, contrary to the claim, a worktree registered under a
*different* run id is dropped from the manager's active set: after the call
the registry is empty, not still holding `run-2`'s worktree.  This contradicts
the code's own comment "Put back any worktrees from other runs". -/
theorem C9_cleanup_run_unregisters_other_runs :
    cleanup_run
        ⟨[⟨"agent-a", "run-1", "bog/orchestrate/run-1/agent-a", "wt/run-1/agent-a"⟩,
          ⟨"agent-b", "run-2", "bog/orchestrate/run-2/agent-b", "wt/run-2/agent-b"⟩]⟩ "run-1" =
      (⟨[]⟩, [⟨"agent-a", "run-1", "bog/orchestrate/run-1/agent-a", "wt/run-1/agent-a"⟩]) ∧
      (∀ st : WorktreeManagerState, ∀ run_id : String,
        (cleanup_run st run_id).2 = st.active.filter (fun wt => wt.run_id == run_id)) := by
  exact ⟨by decide, fun st run_id => rfl⟩

/-! ## Claim C5 -/

theorem getD_set_self {α : Type} (l : List α) (i : Nat) (v d : α) (h : i < l.length) :
    (l.set i v).getD i d = v := by
  simp [List.getD_eq_getElem?_getD, List.getElem?_set, h]

theorem getD_set_ne {α : Type} (l : List α) (i j : Nat) (v d : α) (h : i ≠ j) :
    (l.set i v).getD j d = l.getD j d := by
  simp [List.getD_eq_getElem?_getD, List.getElem?_set, h]

theorem sum_set (l : List Nat) :
    ∀ i : Nat, i < l.length → ∀ v, (l.set i v).sum + l.getD i 0 = l.sum + v := by
  induction l with
  | nil => intro i h; simp at h
  | cons a t ih =>
    intro i h v
    cases i with
    | zero => simp [List.set, List.getD]; omega
    | succ n =>
      simp only [List.set, List.sum_cons, List.getD_cons_succ]
      have := ih n (by simpa using h) v
      omega

theorem countP_add_countP_not (p : Nat → Bool) (l : List Nat) :
    l.countP p + l.countP (fun a => !p a) = l.length := by
  induction l with
  | nil => simp
  | cons a t ih => by_cases h : p a <;> simp [List.countP_cons, h] <;> omega

theorem count_le_countP (a : Nat) (l : List Nat) (p : Nat → Bool) (hp : p a) :
    l.count a ≤ l.countP p := by
  unfold List.count
  apply List.countP_mono_left
  intro x _ hbeq
  have hxa : x = a := by simpa using hbeq
  subst hxa; exact hp

theorem countP_mem_append_singleton (deps : List Nat) (order : List Nat) (node : Nat)
    (h : node ∉ order) :
    deps.countP (fun d => decide (d ∈ order ++ [node])) =
      deps.countP (fun d => decide (d ∈ order)) + deps.count node := by
  induction deps with
  | nil => simp
  | cons d t ih =>
    rw [List.countP_cons, List.countP_cons, List.count_cons, ih]
    by_cases hd : d = node
    · subst hd
      have h1 : decide (d ∈ order ++ [d]) = true := by simp
      have h2 : decide (d ∈ order) = false := by simp [h]
      have h3 : (d == d) = true := by simp
      rw [h1, h2, h3]
      simp
      omega
    · have h1 : decide (d ∈ order ++ [node]) = decide (d ∈ order) := by simp [hd]
      have h3 : (d == node) = false := by simp [hd]
      rw [h1, h3]
      simp
      omega

/-- Full characterization of `processEdges` on inputs where no decrement
underflows. -/
theorem processEdges_spec (A : List Nat) :
    ∀ (deg queue : List Nat),
      (∀ i ∈ A, i < deg.length) →
      (∀ i ∈ A, A.count i ≤ deg.getD i 0) →
      (∀ q ∈ queue, deg.getD q 0 = 0) →
      queue.Nodup →
      (processEdges A deg queue).1.length = deg.length ∧
      (∀ i, (processEdges A deg queue).1.getD i 0 + A.count i = deg.getD i 0) ∧
      (∀ x, x ∈ (processEdges A deg queue).2 ↔
        x ∈ queue ∨ (x ∈ A ∧ deg.getD x 0 = A.count x)) ∧
      (processEdges A deg queue).2.Nodup ∧
      (∀ q ∈ (processEdges A deg queue).2, (processEdges A deg queue).1.getD q 0 = 0) ∧
      (processEdges A deg queue).2.length + (processEdges A deg queue).1.sum ≤
        queue.length + deg.sum := by
  induction A with
  | nil =>
    intro deg queue _ _ hq0 hqn
    refine ⟨rfl, by intro i; simp [processEdges], by intro x; simp [processEdges], hqn, ?_,
      le_refl _⟩
    intro q hq
    simp only [processEdges] at hq ⊢
    exact hq0 q hq
  | cons next rest ih =>
    intro deg queue hlen hcount hq0 hqn
    have hnextlen : next < deg.length := hlen next (by simp)
    have hcnthead : (next :: rest).count next = rest.count next + 1 :=
      List.count_cons_self _ _
    have hcntne : ∀ i, i ≠ next → (next :: rest).count i = rest.count i := by
      intro i hi
      exact List.count_cons_of_ne hi _
    have hd0pos : 1 ≤ deg.getD next 0 := by
      have := hcount next (by simp)
      omega
    have hunf : processEdges (next :: rest) deg queue =
        if (deg.getD next 0 - 1) == 0 then
          processEdges rest (deg.set next (deg.getD next 0 - 1)) (next :: queue)
        else processEdges rest (deg.set next (deg.getD next 0 - 1)) queue := rfl
    have hset_self : (deg.set next (deg.getD next 0 - 1)).getD next 0 = deg.getD next 0 - 1 :=
      getD_set_self deg next _ 0 hnextlen
    have hset_ne : ∀ j, j ≠ next →
        (deg.set next (deg.getD next 0 - 1)).getD j 0 = deg.getD j 0 := by
      intro j hj
      exact getD_set_ne deg next j _ 0 (fun h => hj h.symm)
    have hlen' : ∀ i ∈ rest, i < (deg.set next (deg.getD next 0 - 1)).length := by
      intro i hi
      rw [List.length_set]
      exact hlen i (by simp [hi])
    have hcount' : ∀ i ∈ rest, rest.count i ≤ (deg.set next (deg.getD next 0 - 1)).getD i 0 := by
      intro i hi
      by_cases hin : i = next
      · subst hin
        rw [hset_self]
        have h1 := hcount i (by simp)
        omega
      · rw [hset_ne i hin]
        have h1 := hcount i (by simp [hi])
        have h2 := hcntne i hin
        omega
    have hnextnotq : next ∉ queue := by
      intro hmem
      have := hq0 next hmem
      omega
    have hsum : (deg.set next (deg.getD next 0 - 1)).sum + deg.getD next 0 =
        deg.sum + (deg.getD next 0 - 1) :=
      sum_set deg next hnextlen _
    by_cases hpush : deg.getD next 0 - 1 = 0
    · -- push branch: `next` reaches in-degree zero and enters the queue
      have hd01 : deg.getD next 0 = 1 := by omega
      have hrestnext : rest.count next = 0 := by
        have := hcount next (by simp)
        omega
      have hnextnotrest : next ∉ rest := by
        intro hmem
        have := List.count_pos_iff.mpr hmem
        omega
      have hq0' : ∀ q ∈ next :: queue, (deg.set next (deg.getD next 0 - 1)).getD q 0 = 0 := by
        intro q hq
        rcases List.mem_cons.mp hq with hq | hq
        · subst hq
          rw [hset_self]
          omega
        · have hqne : q ≠ next := fun h => hnextnotq (h ▸ hq)
          rw [hset_ne q hqne]
          exact hq0 q hq
      have hqn' : (next :: queue).Nodup := by
        simp [List.nodup_cons, hnextnotq, hqn]
      obtain ⟨L, E, M, N, Z, S⟩ :=
        ih (deg.set next (deg.getD next 0 - 1)) (next :: queue) hlen' hcount' hq0' hqn'
      have hrw : processEdges (next :: rest) deg queue =
          processEdges rest (deg.set next (deg.getD next 0 - 1)) (next :: queue) := by
        rw [hunf]
        rw [beq_iff_eq.mpr hpush]
        simp
      rw [hrw]
      refine ⟨by rw [L, List.length_set], ?_, ?_, N, Z, ?_⟩
      · intro i
        have hE := E i
        by_cases hin : i = next
        · subst hin
          rw [hset_self] at hE
          omega
        · rw [hset_ne i hin] at hE
          have h2 := hcntne i hin
          omega
      · intro x
        rw [M x]
        constructor
        · rintro (hx | ⟨hxr, hxd⟩)
          · rcases List.mem_cons.mp hx with hx | hx
            · subst hx
              exact Or.inr ⟨by simp, by omega⟩
            · exact Or.inl hx
          · have hxne : x ≠ next := fun h => hnextnotrest (h ▸ hxr)
            rw [hset_ne x hxne] at hxd
            have h2 := hcntne x hxne
            exact Or.inr ⟨by simp [hxr], by omega⟩
        · rintro (hx | ⟨hxA, hxd⟩)
          · exact Or.inl (by simp [hx])
          · by_cases hxn : x = next
            · subst hxn
              exact Or.inl (by simp)
            · have hxr : x ∈ rest := by
                rcases List.mem_cons.mp hxA with h | h
                · exact absurd h hxn
                · exact h
              refine Or.inr ⟨hxr, ?_⟩
              rw [hset_ne x hxn]
              have h2 := hcntne x hxn
              omega
      · simp only [List.length_cons] at S
        omega
    · -- no-push branch
      have hq0' : ∀ q ∈ queue, (deg.set next (deg.getD next 0 - 1)).getD q 0 = 0 := by
        intro q hq
        have hqne : q ≠ next := fun h => hnextnotq (h ▸ hq)
        rw [hset_ne q hqne]
        exact hq0 q hq
      obtain ⟨L, E, M, N, Z, S⟩ :=
        ih (deg.set next (deg.getD next 0 - 1)) queue hlen' hcount' hq0' hqn
      have hrw : processEdges (next :: rest) deg queue =
          processEdges rest (deg.set next (deg.getD next 0 - 1)) queue := by
        rw [hunf]
        rw [beq_eq_false_iff_ne.mpr hpush]
        simp
      rw [hrw]
      refine ⟨by rw [L, List.length_set], ?_, ?_, N, Z, ?_⟩
      · intro i
        have hE := E i
        by_cases hin : i = next
        · subst hin
          rw [hset_self] at hE
          omega
        · rw [hset_ne i hin] at hE
          have h2 := hcntne i hin
          omega
      · intro x
        rw [M x]
        constructor
        · rintro (hx | ⟨hxr, hxd⟩)
          · exact Or.inl hx
          · by_cases hxn : x = next
            · subst hxn
              rw [hset_self] at hxd
              exact Or.inr ⟨by simp, by omega⟩
            · rw [hset_ne x hxn] at hxd
              have h2 := hcntne x hxn
              exact Or.inr ⟨by simp [hxr], by omega⟩
        · rintro (hx | ⟨hxA, hxd⟩)
          · exact Or.inl hx
          · by_cases hxn : x = next
            · subst hxn
              have hxr : x ∈ rest := by
                apply List.count_pos_iff.mp
                omega
              refine Or.inr ⟨hxr, ?_⟩
              rw [hset_self]
              omega
            · have hxr : x ∈ rest := by
                rcases List.mem_cons.mp hxA with h | h
                · exact absurd h hxn
                · exact h
              refine Or.inr ⟨hxr, ?_⟩
              rw [hset_ne x hxn]
              have h2 := hcntne x hxn
              omega
      · omega

theorem pushAll_length (deps : List Nat) :
    ∀ (adj : List (List Nat)) (j : Nat),
      (deps.foldl (fun adj d => adj.set d (adj.getD d [] ++ [j])) adj).length = adj.length := by
  induction deps with
  | nil => intro adj j; simp
  | cons d t ih =>
    intro adj j
    rw [List.foldl_cons, ih _ j, List.length_set]

theorem pushAll_getD (deps : List Nat) :
    ∀ (adj : List (List Nat)) (j node : Nat), node < adj.length →
      (deps.foldl (fun adj d => adj.set d (adj.getD d [] ++ [j])) adj).getD node [] =
        adj.getD node [] ++ List.replicate (deps.count node) j := by
  induction deps with
  | nil => intro adj j node _; simp
  | cons d t ih =>
    intro adj j node h
    rw [List.foldl_cons]
    have hlen : node < (adj.set d (adj.getD d [] ++ [j])).length := by
      rw [List.length_set]; exact h
    rw [ih _ j node hlen]
    by_cases hdn : d = node
    · subst hdn
      rw [getD_set_self adj d _ [] h, List.count_cons_self, List.replicate_succ,
        List.append_assoc]
      rfl
    · have hnd : node ≠ d := fun hh => hdn hh.symm
      rw [getD_set_ne adj d node _ [] hdn, List.count_cons_of_ne hnd]

theorem adj_foldl_length (pairs : List (Nat × AgentTask)) :
    ∀ adj : List (List Nat),
      (pairs.foldl
        (fun adj it =>
          it.2.depends_on.foldl (fun adj d => adj.set d (adj.getD d [] ++ [it.1])) adj)
        adj).length = adj.length := by
  induction pairs with
  | nil => intro adj; simp
  | cons p rest ih =>
    intro adj
    rw [List.foldl_cons, ih, pushAll_length]

theorem adj_foldl_count (pairs : List (Nat × AgentTask)) :
    ∀ (adj : List (List Nat)) (node : Nat), node < adj.length → ∀ i,
      ((pairs.foldl
          (fun adj it =>
            it.2.depends_on.foldl (fun adj d => adj.set d (adj.getD d [] ++ [it.1])) adj)
          adj).getD node []).count i =
        ((adj.getD node []).count i) +
          (pairs.map (fun p => if p.1 = i then p.2.depends_on.count node else 0)).sum := by
  induction pairs with
  | nil => intro adj node _ i; simp
  | cons p rest ih =>
    intro adj node h i
    rw [List.foldl_cons]
    have hlen : node <
        (p.2.depends_on.foldl (fun adj d => adj.set d (adj.getD d [] ++ [p.1])) adj).length := by
      rw [pushAll_length]; exact h
    rw [ih _ node hlen i, pushAll_getD _ adj p.1 node h, List.count_append,
      List.count_replicate, List.map_cons, List.sum_cons]
    by_cases hpi : p.1 = i
    · subst hpi
      simp
      try omega
    · have hb : (p.1 == i) = false := by simp [hpi]
      rw [hb]
      simp [hpi]
      try omega

theorem buildAdj_length (tasks : List AgentTask) : (buildAdj tasks).length = tasks.length := by
  unfold buildAdj
  rw [adj_foldl_length, List.length_replicate]

theorem enumFrom_sum_pick (tasks : List AgentTask) :
    ∀ (k i node : Nat),
      ((tasks.enumFrom k).map (fun p => if p.1 = i then p.2.depends_on.count node else 0)).sum =
        if k ≤ i ∧ i < k + tasks.length then
          ((tasks.getD (i - k) default).depends_on).count node
        else 0 := by
  induction tasks with
  | nil =>
    intro k i node
    have hneg : ¬(k ≤ i ∧ i < k + ([] : List AgentTask).length) := by
      simp
      try omega
    rw [if_neg hneg]
    simp
  | cons t rest ih =>
    intro k i node
    rw [List.enumFrom_cons, List.map_cons, List.sum_cons, ih (k + 1) i node]
    by_cases hki : k = i
    · subst hki
      have h1 : ¬(k + 1 ≤ k) := by omega
      have h2 : k ≤ k ∧ k < k + (t :: rest).length := by
        constructor
        · exact le_refl k
        · simp
      rw [if_pos rfl, if_neg (by omega), if_pos h2]
      simp [Nat.sub_self]
    · rw [if_neg hki]
      by_cases hlt : k + 1 ≤ i ∧ i < (k + 1) + rest.length
      · rw [if_pos hlt, if_pos (by constructor <;> [omega; (simp; omega)])]
        have hsub : i - k = (i - (k + 1)) + 1 := by omega
        rw [hsub, List.getD_cons_succ]
        omega
      · rw [if_neg hlt, if_neg (by
          intro hcon
          apply hlt
          obtain ⟨hc1, hc2⟩ := hcon
          simp only [List.length_cons] at hc2
          constructor <;> omega)]

theorem buildAdj_count (tasks : List AgentTask) (node : Nat) (h : node < tasks.length)
    (i : Nat) :
    ((buildAdj tasks).getD node []).count i =
      ((tasks.getD i default).depends_on).count node := by
  unfold buildAdj
  rw [show tasks.enum = tasks.enumFrom 0 from rfl]
  rw [adj_foldl_count _ _ node (by rw [List.length_replicate]; exact h) i,
    enumFrom_sum_pick tasks 0 i node]
  have hrep : (List.replicate tasks.length ([] : List Nat)).getD node [] = [] := by
    rw [List.getD_eq_getElem?_getD, List.getElem?_replicate]
    rw [if_pos h]
    rfl
  rw [hrep]
  by_cases hi : i < tasks.length
  · rw [if_pos (by omega)]
    simp
  · rw [if_neg (by omega)]
    have : tasks.getD i default = default := by
      simp [List.getD_eq_getElem?_getD, List.getElem?_eq_none (by omega : tasks.length ≤ i)]
    rw [this]
    simp [default]

theorem orderOK_append (plan : DockPlan) (l : List Nat) (x : Nat)
    (h : OrderOK plan l) (hx : ∀ d ∈ depsOf plan x, d ∈ l) : OrderOK plan (l ++ [x]) := by
  intro k hk d hd
  by_cases hkl : k < l.length
  · have hget : (l ++ [x]).get ⟨k, hk⟩ = l.get ⟨k, hkl⟩ := by
      rw [List.get_append]
    rw [hget] at hd
    have htake : (l ++ [x]).take k = l.take k :=
      List.take_append_of_le_length (by omega)
    rw [htake]
    exact h k hkl d hd
  · have hkeq : k = l.length := by
      rw [List.length_append, List.length_singleton] at hk
      omega
    subst hkeq
    have hget : (l ++ [x]).get ⟨l.length, hk⟩ = x := by
      rw [List.get_append_right _ _ (by omega)]
      · simp
      · simp
    rw [hget] at hd
    have htake : (l ++ [x]).take l.length = l := List.take_left l [x]
    rw [htake]
    exact hx d hd

theorem depsOf_out_of_range (plan : DockPlan) (i : Nat) (h : plan.tasks.length ≤ i) :
    depsOf plan i = [] := by
  unfold depsOf
  rw [List.getD_eq_getElem?_getD, List.getElem?_eq_none h]
  rfl

theorem kahn_empty_queue_covers (plan : DockPlan)
    (hvalid : ∀ i, i < plan.tasks.length →
      ∀ d ∈ depsOf plan i, d < plan.tasks.length ∧ d < i)
    (deg : List Nat) (order : List Nat) (inv : KahnInv plan deg [] order) :
    ∀ i, i < plan.tasks.length → i ∈ order := by
  intro i
  induction i using Nat.strong_induction_on with
  | _ i ih =>
    intro hi
    have hdeps : ∀ d ∈ depsOf plan i, d ∈ order := by
      intro d hd
      have hdi := hvalid i hi d hd
      exact ih d hdi.2 (by omega)
    have hcnt : (depsOf plan i).countP (fun d => decide (d ∈ order)) =
        (depsOf plan i).length :=
      List.countP_eq_length.mpr (fun d hd => by simpa using hdeps d hd)
    have hdeg := inv.deg_eq i hi
    have hdeg0 : deg.getD i 0 = 0 := by omega
    rcases inv.zero_mem i hi hdeg0 with h | h
    · exact h
    · simp at h

theorem kahn_loop_complete (plan : DockPlan)
    (hvalid : ∀ i, i < plan.tasks.length →
      ∀ d ∈ depsOf plan i, d < plan.tasks.length ∧ d < i) :
    ∀ (fuel : Nat) (deg queue order : List Nat),
      KahnInv plan deg queue order →
      queue.length + deg.sum ≤ fuel →
      (kahnLoop (buildAdj plan.tasks) fuel deg queue order).Nodup ∧
      (∀ x ∈ kahnLoop (buildAdj plan.tasks) fuel deg queue order, x < plan.tasks.length) ∧
      (∀ i, i < plan.tasks.length → i ∈ kahnLoop (buildAdj plan.tasks) fuel deg queue order) ∧
      OrderOK plan (kahnLoop (buildAdj plan.tasks) fuel deg queue order) := by
  intro fuel
  induction fuel with
  | zero =>
    intro deg queue order inv hfuel
    have hq : queue = [] := by
      cases queue with
      | nil => rfl
      | cons a t => simp at hfuel
    subst hq
    rw [kahnLoop]
    exact ⟨inv.order_nodup, inv.order_lt,
      kahn_empty_queue_covers plan hvalid deg order inv, inv.order_ok⟩
  | succ fuel ih =>
    intro deg queue order inv hfuel
    cases queue with
    | nil =>
      rw [kahnLoop]
      exact ⟨inv.order_nodup, inv.order_lt,
        kahn_empty_queue_covers plan hvalid deg order inv, inv.order_ok⟩
    | cons node qrest =>
      have hnode_n : node < plan.tasks.length := inv.queue_lt node (by simp)
      have hdegnode : deg.getD node 0 = 0 := inv.queue_zero node (by simp)
      have hnode_not_order : node ∉ order := fun h => inv.disj node h (by simp)
      have hAcount : ∀ i, ((buildAdj plan.tasks).getD node []).count i =
          (depsOf plan i).count node := by
        intro i
        exact buildAdj_count plan.tasks node hnode_n i
      have hmemA : ∀ i ∈ (buildAdj plan.tasks).getD node [], i < plan.tasks.length := by
        intro i hi
        by_contra hge
        have hpos := List.count_pos_iff.mpr hi
        rw [hAcount i, depsOf_out_of_range plan i (by omega)] at hpos
        simp at hpos
      have hcountA : ∀ i ∈ (buildAdj plan.tasks).getD node [],
          ((buildAdj plan.tasks).getD node []).count i ≤ deg.getD i 0 := by
        intro i hiA
        have hilt := hmemA i hiA
        have hdeq := inv.deg_eq i hilt
        have hcle : (depsOf plan i).count node ≤
            (depsOf plan i).countP (fun d => !decide (d ∈ order)) :=
          count_le_countP node _ _ (by simp [hnode_not_order])
        have hsplit := countP_add_countP_not (fun d => decide (d ∈ order)) (depsOf plan i)
        rw [hAcount i]
        omega
      have hlenA : ∀ i ∈ (buildAdj plan.tasks).getD node [], i < deg.length := by
        intro i hi
        rw [inv.deg_len]
        exact hmemA i hi
      obtain ⟨L, E, M, N, Z, S⟩ :=
        processEdges_spec ((buildAdj plan.tasks).getD node []) deg qrest hlenA hcountA
          (fun q hq => inv.queue_zero q (by simp [hq])) inv.queue_nodup.of_cons
      have hstep : kahnLoop (buildAdj plan.tasks) (fuel + 1) deg (node :: qrest) order =
          kahnLoop (buildAdj plan.tasks) fuel
            (processEdges ((buildAdj plan.tasks).getD node []) deg qrest).1
            (processEdges ((buildAdj plan.tasks).getD node []) deg qrest).2
            (order ++ [node]) := rfl
      rw [hstep]
      have hdeps_node : ∀ d ∈ depsOf plan node, d ∈ order := by
        have hdeq := inv.deg_eq node hnode_n
        have hcnt : (depsOf plan node).countP (fun d => decide (d ∈ order)) =
            (depsOf plan node).length := by omega
        intro d hd
        have := List.countP_eq_length.mp hcnt d hd
        simpa using this
      apply ih
      · constructor
        case deg_len => rw [L]; exact inv.deg_len
        case queue_lt =>
          intro q hq
          rcases (M q).mp hq with h | ⟨hA, _⟩
          · exact inv.queue_lt q (by simp [h])
          · exact hmemA q hA
        case order_lt =>
          intro x hx
          rcases List.mem_append.mp hx with h | h
          · exact inv.order_lt x h
          · simp at h
            subst h
            exact hnode_n
        case order_nodup =>
          rw [List.nodup_append]
          refine ⟨inv.order_nodup, List.nodup_singleton _, ?_⟩
          intro a ha hb
          simp at hb
          subst hb
          exact hnode_not_order ha
        case queue_nodup => exact N
        case disj =>
          intro x hx hq
          rcases (M x).mp hq with h | ⟨hA, hc⟩
          · rcases List.mem_append.mp hx with ho | ho
            · exact inv.disj x ho (by simp [h])
            · simp at ho
              subst ho
              exact inv.queue_nodup.not_mem h
          · have hpos : 0 < ((buildAdj plan.tasks).getD node []).count x :=
              List.count_pos_iff.mpr hA
            rcases List.mem_append.mp hx with ho | ho
            · have := inv.order_zero x ho
              omega
            · simp at ho
              subst ho
              omega
        case deg_eq =>
          intro i hi
          have hE := E i
          have hdeq := inv.deg_eq i hi
          have hcntP := countP_mem_append_singleton (depsOf plan i) order node hnode_not_order
          rw [hcntP]
          have hAc := hAcount i
          omega
        case zero_mem =>
          intro i hi h0
          by_cases hdi : deg.getD i 0 = 0
          · rcases inv.zero_mem i hi hdi with h | h
            · exact Or.inl (List.mem_append.mpr (Or.inl h))
            · rcases List.mem_cons.mp h with h | h
              · subst h
                exact Or.inl (List.mem_append.mpr (Or.inr (by simp)))
              · exact Or.inr ((M i).mpr (Or.inl h))
          · have hE := E i
            have hApos : ((buildAdj plan.tasks).getD node []).count i = deg.getD i 0 := by
              omega
            have hiA : i ∈ (buildAdj plan.tasks).getD node [] := by
              apply List.count_pos_iff.mp
              omega
            exact Or.inr ((M i).mpr (Or.inr ⟨hiA, hApos.symm⟩))
        case queue_zero => exact Z
        case order_zero =>
          intro x hx
          have hE := E x
          rcases List.mem_append.mp hx with h | h
          · have := inv.order_zero x h
            omega
          · simp at h
            subst h
            omega
        case order_ok =>
          exact orderOK_append plan order node inv.order_ok hdeps_node
      · simp only [List.length_cons] at hfuel
        omega

theorem deg0_getD (plan : DockPlan) (i : Nat) (hi : i < plan.tasks.length) :
    (plan.tasks.map fun t => t.depends_on.length).getD i 0 = (depsOf plan i).length := by
  unfold depsOf
  rw [List.getD_eq_getElem?_getD, List.getElem?_map, List.getElem?_eq_getElem hi,
    List.getD_eq_getElem?_getD, List.getElem?_eq_getElem hi]
  rfl

theorem kahn_init_inv (plan : DockPlan) :
    KahnInv plan (plan.tasks.map fun t => t.depends_on.length)
      (((List.range plan.tasks.length).filter fun i =>
          (plan.tasks.map fun t => t.depends_on.length).getD i 0 == 0).reverse) [] := by
  constructor
  case deg_len => simp
  case queue_lt =>
    intro q hq
    rw [List.mem_reverse, List.mem_filter] at hq
    exact List.mem_range.mp hq.1
  case order_lt => intro x hx; simp at hx
  case order_nodup => exact List.nodup_nil
  case queue_nodup => exact List.nodup_reverse.mpr ((List.nodup_range _).filter _)
  case disj => intro x hx; simp at hx
  case deg_eq =>
    intro i hi
    rw [deg0_getD plan i hi]
    simp
  case zero_mem =>
    intro i hi h0
    right
    rw [List.mem_reverse, List.mem_filter]
    refine ⟨List.mem_range.mpr hi, ?_⟩
    rw [List.getD_eq_getElem?_getD, List.getElem?_map] at h0
    simp [h0]
  case queue_zero =>
    intro q hq
    rw [List.mem_reverse, List.mem_filter] at hq
    simpa using hq.2
  case order_zero => intro x hx; simp at hx
  case order_ok => intro k hk; simp at hk

/-! The claim-C5 theorem. -/

/-- C5: for every plan satisfying the validation rules (each `depends_on`
index is below the task count and strictly below the depending task's own
index), `topological_sort` succeeds with a permutation of all task indices in
which every dependency appears strictly before every task listing it. -/
theorem C5_topological_sort_correct (plan : DockPlan)
    (hvalid : ∀ i, i < plan.tasks.length →
      ∀ d ∈ depsOf plan i, d < plan.tasks.length ∧ d < i) :
    ∃ order, topological_sort plan = .ok order ∧
      order.Perm (List.range plan.tasks.length) ∧
      ∀ k, (hk : k < order.length) →
        ∀ d ∈ depsOf plan (order.get ⟨k, hk⟩), d ∈ order.take k := by
  obtain ⟨hnd, hlt, hcov, hok⟩ :=
    kahn_loop_complete plan hvalid
      ((((List.range plan.tasks.length).filter fun i =>
          (plan.tasks.map fun t => t.depends_on.length).getD i 0 == 0).reverse).length +
        (plan.tasks.map fun t => t.depends_on.length).sum)
      (plan.tasks.map fun t => t.depends_on.length)
      (((List.range plan.tasks.length).filter fun i =>
          (plan.tasks.map fun t => t.depends_on.length).getD i 0 == 0).reverse)
      [] (kahn_init_inv plan) (le_refl _)
  have hperm : (kahnLoop (buildAdj plan.tasks)
      ((((List.range plan.tasks.length).filter fun i =>
          (plan.tasks.map fun t => t.depends_on.length).getD i 0 == 0).reverse).length +
        (plan.tasks.map fun t => t.depends_on.length).sum)
      (plan.tasks.map fun t => t.depends_on.length)
      (((List.range plan.tasks.length).filter fun i =>
          (plan.tasks.map fun t => t.depends_on.length).getD i 0 == 0).reverse)
      []).Perm (List.range plan.tasks.length) :=
    (List.perm_ext_iff_of_nodup hnd (List.nodup_range _)).mpr
      (fun a => ⟨fun ha => List.mem_range.mpr (hlt a ha),
                 fun ha => hcov a (List.mem_range.mp ha)⟩)
  have hlen := hperm.length_eq
  rw [List.length_range] at hlen
  refine ⟨_, ?_, hperm, hok⟩
  have hts : topological_sort plan =
      if (kahnLoop (buildAdj plan.tasks)
          ((((List.range plan.tasks.length).filter fun i =>
              (plan.tasks.map fun t => t.depends_on.length).getD i 0 == 0).reverse).length +
            (plan.tasks.map fun t => t.depends_on.length).sum)
          (plan.tasks.map fun t => t.depends_on.length)
          (((List.range plan.tasks.length).filter fun i =>
              (plan.tasks.map fun t => t.depends_on.length).getD i 0 == 0).reverse)
          []).length == plan.tasks.length then
        Except.ok (kahnLoop (buildAdj plan.tasks)
          ((((List.range plan.tasks.length).filter fun i =>
              (plan.tasks.map fun t => t.depends_on.length).getD i 0 == 0).reverse).length +
            (plan.tasks.map fun t => t.depends_on.length).sum)
          (plan.tasks.map fun t => t.depends_on.length)
          (((List.range plan.tasks.length).filter fun i =>
              (plan.tasks.map fun t => t.depends_on.length).getD i 0 == 0).reverse)
          [])
      else Except.error (OrchestrateError.InvalidPlan "Task dependency cycle detected") := rfl
  rw [hts, if_pos (beq_iff_eq.mpr hlen)]

/-- C5, witness: a three-task diamond plan. -/
theorem C5_topological_sort_correct_witness :
    ∃ order,
      topological_sort ⟨"w", [⟨"a", "i", [], []⟩, ⟨"b", "i", [], []⟩, ⟨"c", "i", [], [0, 1]⟩]⟩ =
        .ok order ∧
      order.Perm (List.range
        (DockPlan.mk "w" [⟨"a", "i", [], []⟩, ⟨"b", "i", [], []⟩, ⟨"c", "i", [], [0, 1]⟩]).tasks.length) ∧
      ∀ k, (hk : k < order.length) →
        ∀ d ∈ depsOf ⟨"w", [⟨"a", "i", [], []⟩, ⟨"b", "i", [], []⟩, ⟨"c", "i", [], [0, 1]⟩]⟩
            (order.get ⟨k, hk⟩), d ∈ order.take k :=
  C5_topological_sort_correct
    ⟨"w", [⟨"a", "i", [], []⟩, ⟨"b", "i", [], []⟩, ⟨"c", "i", [], [0, 1]⟩]⟩ (by decide)

/-! ## Orchestrator lemmas -/

theorem taskLoop_cons_shift (script : RunScript) (cfg : OrchestrateConfig) (attempt : Nat)
    (plan : DockPlan) :
    ∀ (order : List Nat) (e : OrchEvent) (es : List OrchEvent) (reg : List String)
      (res : List AgentResult) (vio : List (String × List Violation)),
      taskLoop script cfg attempt plan order (e :: es) reg res vio =
        match taskLoop script cfg attempt plan order es reg res vio with
        | .fatal evs er => .fatal (e :: evs) er
        | .finished evs r2 rs vs af => .finished (e :: evs) r2 rs vs af := by
  intro order
  induction order with
  | nil => intro e es reg res vio; simp [taskLoop]
  | cons i rest ih =>
    intro e es reg res vio
    simp only [taskLoop]
    cases hc : script.create attempt i with
    | some er => simp
    | none =>
      dsimp only
      cases he : script.exec attempt i with
      | error er => simp
      | ok out =>
        dsimp only
        cases hst : out.status with
        | Success =>
          dsimp only
          by_cases hm : (cfg.merge_strategy == MergeStrategy.Incremental
              && (reg ++ [(plan.tasks.getD i default).agent]).contains
                  (plan.tasks.getD i default).agent) = true
          · rw [if_pos hm, if_pos hm]
            by_cases hmo : script.mergeOk attempt (plan.tasks.getD i default).agent = true
            · rw [if_pos hmo, if_pos hmo]
              have hgoal := ih e
                (es ++ [OrchEvent.createWorktree attempt (plan.tasks.getD i default).agent,
                  OrchEvent.mergeChanges attempt (plan.tasks.getD i default).agent])
                (reg ++ [(plan.tasks.getD i default).agent])
                (res ++ [⟨(plan.tasks.getD i default).agent, i, out.status,
                  out.files_modified, out.stdout, out.stderr⟩]) vio
              simp only [List.cons_append, List.append_assoc, List.singleton_append,
                List.nil_append] at hgoal ⊢
              rw [hst] at hgoal
              exact hgoal
            · rw [if_neg hmo, if_neg hmo]
              simp
          · rw [if_neg hm, if_neg hm]
            have hgoal := ih e
              (es ++ [OrchEvent.createWorktree attempt (plan.tasks.getD i default).agent])
              (reg ++ [(plan.tasks.getD i default).agent])
              (res ++ [⟨(plan.tasks.getD i default).agent, i, out.status,
                out.files_modified, out.stdout, out.stderr⟩]) vio
            simp only [List.cons_append, List.append_assoc, List.singleton_append,
              List.nil_append] at hgoal ⊢
            rw [hst] at hgoal
            exact hgoal
        | Failed msg => simp
        | PermissionViolation vs => simp

theorem taskLoop_shift (script : RunScript) (cfg : OrchestrateConfig) (attempt : Nat)
    (plan : DockPlan) (order : List Nat) :
    ∀ (events1 events2 : List OrchEvent) (reg : List String)
      (res : List AgentResult) (vio : List (String × List Violation)),
      taskLoop script cfg attempt plan order (events1 ++ events2) reg res vio =
        match taskLoop script cfg attempt plan order events2 reg res vio with
        | .fatal evs er => .fatal (events1 ++ evs) er
        | .finished evs r2 rs vs af => .finished (events1 ++ evs) r2 rs vs af := by
  intro events1
  induction events1 with
  | nil =>
    intro events2 reg res vio
    cases h : taskLoop script cfg attempt plan order events2 reg res vio <;> simp [h]
  | cons e es ih =>
    intro events2 reg res vio
    rw [List.cons_append, taskLoop_cons_shift script cfg attempt plan order e (es ++ events2),
      ih]
    cases h : taskLoop script cfg attempt plan order events2 reg res vio <;> simp [h]

/-- Events added by the task loop are worktree creations or merges tagged
with the current attempt. -/
theorem taskLoop_events_new (script : RunScript) (cfg : OrchestrateConfig) (attempt : Nat)
    (plan : DockPlan) :
    ∀ (order : List Nat) (events : List OrchEvent) (reg : List String)
      (res : List AgentResult) (vio : List (String × List Violation)) (e : OrchEvent),
      e ∈ (taskLoop script cfg attempt plan order events reg res vio).events →
      e ∈ events ∨ (∃ ag, e = .createWorktree attempt ag) ∨
        (∃ ag, e = .mergeChanges attempt ag) := by
  intro order
  induction order with
  | nil =>
    intro events reg res vio e he
    simp [taskLoop, TaskPhase.events] at he
    exact Or.inl he
  | cons i rest ih =>
    intro events reg res vio e he
    simp only [taskLoop] at he
    cases hc : script.create attempt i with
    | some er =>
      rw [hc] at he
      simp [TaskPhase.events] at he
      exact Or.inl he
    | none =>
      rw [hc] at he
      dsimp only at he
      cases hexec : script.exec attempt i with
      | error er =>
        rw [hexec] at he
        simp [TaskPhase.events] at he
        rcases he with he | he
        · exact Or.inl he
        · exact Or.inr (Or.inl ⟨_, he⟩)
      | ok out =>
        rw [hexec] at he
        dsimp only at he
        cases hst : out.status with
        | Success =>
          rw [hst] at he
          dsimp only at he
          by_cases hm : (cfg.merge_strategy == MergeStrategy.Incremental
              && (reg ++ [(plan.tasks.getD i default).agent]).contains
                  (plan.tasks.getD i default).agent) = true
          · rw [if_pos hm] at he
            by_cases hmo : script.mergeOk attempt (plan.tasks.getD i default).agent = true
            · rw [if_pos hmo] at he
              rcases ih _ _ _ _ _ he with h | h | h
              · simp at h
                rcases h with ⟨h1⟩ | h1 | h1
                · exact Or.inl (by assumption)
                · exact Or.inr (Or.inl ⟨_, h1⟩)
                · exact Or.inr (Or.inr ⟨_, h1⟩)
              · exact Or.inr (Or.inl h)
              · exact Or.inr (Or.inr h)
            · rw [if_neg hmo] at he
              simp [TaskPhase.events] at he
              rcases he with he | he | he
              · exact Or.inl he
              · exact Or.inr (Or.inl ⟨_, he⟩)
              · exact Or.inr (Or.inr ⟨_, he⟩)
          · rw [if_neg hm] at he
            rcases ih _ _ _ _ _ he with h | h | h
            · simp at h
              rcases h with h1 | h1
              · exact Or.inl h1
              · exact Or.inr (Or.inl ⟨_, h1⟩)
            · exact Or.inr (Or.inl h)
            · exact Or.inr (Or.inr h)
        | Failed msg =>
          rw [hst] at he
          simp [TaskPhase.events] at he
          rcases he with he | he
          · exact Or.inl he
          · exact Or.inr (Or.inl ⟨_, he⟩)
        | PermissionViolation vs =>
          rw [hst] at he
          simp [TaskPhase.events] at he
          rcases he with he | he
          · exact Or.inl he
          · exact Or.inr (Or.inl ⟨_, he⟩)

/-- Under `AllOrNothing` the task loop itself never merges. -/
theorem taskLoop_no_merge_allOrNothing (script : RunScript) (cfg : OrchestrateConfig)
    (attempt : Nat) (plan : DockPlan) (hstrat : cfg.merge_strategy = .AllOrNothing) :
    ∀ (order : List Nat) (events : List OrchEvent) (reg : List String)
      (res : List AgentResult) (vio : List (String × List Violation)) (a : Nat) (ag : String),
      OrchEvent.mergeChanges a ag ∈ (taskLoop script cfg attempt plan order events reg res vio).events →
      OrchEvent.mergeChanges a ag ∈ events := by
  intro order
  induction order with
  | nil =>
    intro events reg res vio a ag he
    simpa [taskLoop, TaskPhase.events] using he
  | cons i rest ih =>
    intro events reg res vio a ag he
    simp only [taskLoop] at he
    cases hc : script.create attempt i with
    | some er =>
      rw [hc] at he
      simpa [TaskPhase.events] using he
    | none =>
      rw [hc] at he
      dsimp only at he
      cases hexec : script.exec attempt i with
      | error er =>
        rw [hexec] at he
        simp [TaskPhase.events] at he
        exact he
      | ok out =>
        rw [hexec] at he
        dsimp only at he
        cases hst : out.status with
        | Success =>
          rw [hst] at he
          dsimp only at he
          have hm : (cfg.merge_strategy == MergeStrategy.Incremental
              && (reg ++ [(plan.tasks.getD i default).agent]).contains
                  (plan.tasks.getD i default).agent) = false := by
            rw [hstrat]
            rfl
          rw [hm] at he
          simp only [Bool.false_eq_true, if_false] at he
          have := ih _ _ _ _ a ag he
          simpa using this
        | Failed msg =>
          rw [hst] at he
          simpa [TaskPhase.events] using he
        | PermissionViolation vs =>
          rw [hst] at he
          simpa [TaskPhase.events] using he

/-- A task loop that finishes with `any_failed = false` executed every task in
the order with a clean `Success`, and every emitted result beyond the incoming
ones has `Success` status. -/
theorem taskLoop_finished_success (script : RunScript) (cfg : OrchestrateConfig)
    (attempt : Nat) (plan : DockPlan) :
    ∀ (order : List Nat) (events : List OrchEvent) (reg : List String)
      (res : List AgentResult) (vio : List (String × List Violation))
      (evs : List OrchEvent) (reg2 : List String) (results : List AgentResult)
      (viols : List (String × List Violation)),
      taskLoop script cfg attempt plan order events reg res vio =
        .finished evs reg2 results viols false →
      ExecAllSuccess script attempt order ∧
        (∀ r ∈ results, r ∈ res ∨ r.status = .Success) := by
  intro order
  induction order with
  | nil =>
    intro events reg res vio evs reg2 results viols h
    simp only [taskLoop, TaskPhase.finished.injEq] at h
    refine ⟨fun i hi => absurd hi (List.not_mem_nil i), ?_⟩
    intro r hr
    exact Or.inl (h.2.2.1 ▸ hr)
  | cons i rest ih =>
    intro events reg res vio evs reg2 results viols h
    simp only [taskLoop] at h
    cases hc : script.create attempt i with
    | some er => rw [hc] at h; simp at h
    | none =>
      rw [hc] at h
      dsimp only at h
      cases hexec : script.exec attempt i with
      | error er => rw [hexec] at h; simp at h
      | ok out =>
        rw [hexec] at h
        dsimp only at h
        cases hst : out.status with
        | Success =>
          rw [hst] at h
          dsimp only at h
          have hcont :
              ∃ events', taskLoop script cfg attempt plan rest events'
                (reg ++ [(plan.tasks.getD i default).agent])
                (res ++ [⟨(plan.tasks.getD i default).agent, i, AgentResultStatus.Success,
                  out.files_modified, out.stdout, out.stderr⟩]) vio =
                .finished evs reg2 results viols false := by
            by_cases hm : (cfg.merge_strategy == MergeStrategy.Incremental
                && (reg ++ [(plan.tasks.getD i default).agent]).contains
                    (plan.tasks.getD i default).agent) = true
            · rw [if_pos hm] at h
              by_cases hmo : script.mergeOk attempt (plan.tasks.getD i default).agent = true
              · rw [if_pos hmo] at h
                exact ⟨_, h⟩
              · rw [if_neg hmo] at h
                simp at h
            · rw [if_neg hm] at h
              exact ⟨_, h⟩
          obtain ⟨events', h'⟩ := hcont
          obtain ⟨hexecall, hres⟩ := ih _ _ _ _ _ _ _ _ h'
          constructor
          · intro j hj
            rcases List.mem_cons.mp hj with hj | hj
            · subst hj
              exact ⟨out, hexec, hst⟩
            · exact hexecall j hj
          · intro r hr
            rcases hres r hr with hr2 | hr2
            · rcases List.mem_append.mp hr2 with hr3 | hr3
              · exact Or.inl hr3
              · simp at hr3
                subst hr3
                exact Or.inr rfl
            · exact Or.inr hr2
        | Failed msg =>
          rw [hst] at h
          simp at h
        | PermissionViolation vs =>
          rw [hst] at h
          simp at h

/-- A finished task loop started with no violations whose results contain a
hard `Failed` (and whose incoming results contain none) ended with empty
violations and `any_failed = true`. -/
theorem taskLoop_failed_no_viols (script : RunScript) (cfg : OrchestrateConfig)
    (attempt : Nat) (plan : DockPlan) :
    ∀ (order : List Nat) (events : List OrchEvent) (reg : List String)
      (res : List AgentResult)
      (evs : List OrchEvent) (reg2 : List String) (results : List AgentResult)
      (viols : List (String × List Violation)) (af : Bool),
      (∀ r ∈ res, ∀ msg, r.status ≠ .Failed msg) →
      taskLoop script cfg attempt plan order events reg res [] =
        .finished evs reg2 results viols af →
      (∃ r ∈ results, ∃ msg, r.status = .Failed msg) →
      viols = [] ∧ af = true := by
  intro order
  induction order with
  | nil =>
    intro events reg res evs reg2 results viols af hres h hfail
    simp only [taskLoop, TaskPhase.finished.injEq] at h
    obtain ⟨r, hr, msg, hmsg⟩ := hfail
    exact absurd hmsg (hres r (h.2.2.1 ▸ hr) msg)
  | cons i rest ih =>
    intro events reg res evs reg2 results viols af hres h hfail
    simp only [taskLoop] at h
    cases hc : script.create attempt i with
    | some er => rw [hc] at h; simp at h
    | none =>
      rw [hc] at h
      dsimp only at h
      cases hexec : script.exec attempt i with
      | error er => rw [hexec] at h; simp at h
      | ok out =>
        rw [hexec] at h
        dsimp only at h
        cases hst : out.status with
        | Success =>
          rw [hst] at h
          dsimp only at h
          have hres' : ∀ r ∈ res ++ [(⟨(plan.tasks.getD i default).agent, i,
              AgentResultStatus.Success, out.files_modified, out.stdout, out.stderr⟩ : AgentResult)],
              ∀ msg, r.status ≠ .Failed msg := by
            intro r hr msg
            rcases List.mem_append.mp hr with hr2 | hr2
            · exact hres r hr2 msg
            · simp at hr2
              subst hr2
              simp
          by_cases hm : (cfg.merge_strategy == MergeStrategy.Incremental
              && (reg ++ [(plan.tasks.getD i default).agent]).contains
                  (plan.tasks.getD i default).agent) = true
          · rw [if_pos hm] at h
            by_cases hmo : script.mergeOk attempt (plan.tasks.getD i default).agent = true
            · rw [if_pos hmo] at h
              exact ih _ _ _ _ _ _ _ _ hres' h hfail
            · rw [if_neg hmo] at h
              simp at h
          · rw [if_neg hm] at h
            exact ih _ _ _ _ _ _ _ _ hres' h hfail
        | Failed msg =>
          rw [hst] at h
          simp only [TaskPhase.finished.injEq] at h
          exact ⟨h.2.2.2.1.symm, h.2.2.2.2.symm⟩
        | PermissionViolation vs =>
          rw [hst] at h
          simp only [TaskPhase.finished.injEq] at h
          obtain ⟨r, hr, msg, hmsg⟩ := hfail
          rw [← h.2.2.1] at hr
          rcases List.mem_append.mp hr with hr2 | hr2
          · exact absurd hmsg (hres r hr2 msg)
          · simp at hr2
            rw [hr2] at hmsg
            simp at hmsg

/-- Every event emitted by the `AllOrNothing` merge loop is a merge of the
current attempt. -/
theorem mergeAll_events (script : RunScript) (attempt : Nat) :
    ∀ (results : List AgentResult) (reg : List String) (e : OrchEvent),
      e ∈ (mergeAll script attempt results reg).1 →
      ∃ ag, e = .mergeChanges attempt ag := by
  intro results
  induction results with
  | nil => intro reg e he; simp [mergeAll] at he
  | cons r rest ih =>
    intro reg e he
    simp only [mergeAll] at he
    cases hst : r.status with
    | Success =>
      rw [hst] at he
      dsimp only at he
      by_cases hcont : reg.contains r.agent = true
      · rw [if_pos hcont] at he
        by_cases hmo : script.mergeOk attempt r.agent = true
        · rw [if_pos hmo] at he
          rcases List.mem_cons.mp he with he | he
          · exact ⟨r.agent, he⟩
          · exact ih reg e he
        · rw [if_neg hmo] at he
          simp at he
          exact ⟨r.agent, he⟩
      · rw [if_neg hcont] at he
        exact ih reg e he
    | Failed msg =>
      rw [hst] at he
      exact ih reg e he
    | PermissionViolation vs =>
      rw [hst] at he
      exact ih reg e he

theorem createsCleaned_append (xs ys : List OrchEvent)
    (hx : CreatesCleaned xs) (hy : CreatesCleaned ys) : CreatesCleaned (xs ++ ys) := by
  induction xs with
  | nil => simpa using hy
  | cons e rest ih =>
    rw [List.cons_append]
    refine ⟨?_, ih hx.2⟩
    intro a ag heq
    exact List.mem_append.mpr (Or.inl (hx.1 a ag heq))

theorem createsCleaned_block (xs : List OrchEvent) :
    CreatesCleaned (xs ++ [OrchEvent.cleanupRun]) := by
  induction xs with
  | nil => exact ⟨(fun a ag h => nomatch h), trivial⟩
  | cons e rest ih =>
    rw [List.cons_append]
    refine ⟨?_, ih⟩
    intro a ag _
    exact List.mem_append.mpr (Or.inr (by simp))

/-- A task loop run with accumulated input events is the run with empty
input events, shifted by that prefix. -/
theorem taskLoop_events_split (script : RunScript) (cfg : OrchestrateConfig)
    (attempt : Nat) (plan : DockPlan) (order : List Nat) (events : List OrchEvent)
    (reg : List String) (res : List AgentResult) (vio : List (String × List Violation)) :
    taskLoop script cfg attempt plan order events reg res vio =
      match taskLoop script cfg attempt plan order [] reg res vio with
      | .fatal evs er => .fatal (events ++ evs) er
      | .finished evs r2 rs vs af => .finished (events ++ evs) r2 rs vs af := by
  have h := taskLoop_shift script cfg attempt plan order events [] reg res vio
  simpa using h

/-- Under `AllOrNothing`, every merge event in the trace of the attempt loop
was already in the accumulated events, or stems from an attempt whose task
loop ran every task to a clean success with no violations. -/
theorem runAttempts_merge_gated (script : RunScript) (cfg : OrchestrateConfig)
    (hstrat : cfg.merge_strategy = MergeStrategy.AllOrNothing) :
    ∀ (remaining attempt : Nat) (ctx : Option ReplanContext) (events : List OrchEvent)
      (a : Nat) (ag : String),
      OrchEvent.mergeChanges a ag ∈ (runAttempts script cfg remaining attempt ctx events).1 →
      OrchEvent.mergeChanges a ag ∈ events ∨ AttemptAllSuccess script cfg a := by
  intro remaining
  induction remaining with
  | zero =>
    intro attempt ctx events a ag he
    exact Or.inl (by simpa [runAttempts] using he)
  | succ remaining ih =>
    intro attempt ctx events a ag he
    simp only [runAttempts] at he
    cases hdock : script.dock attempt with
    | error e =>
      rw [hdock] at he
      dsimp only at he
      rcases List.mem_append.mp he with h1 | h1
      · exact Or.inl h1
      · simp at h1
    | ok plan =>
      rw [hdock] at he
      dsimp only at he
      cases htopo : topological_sort plan with
      | error e =>
        rw [htopo] at he
        dsimp only at he
        rcases List.mem_append.mp he with h1 | h1
        · exact Or.inl h1
        · simp at h1
      | ok order =>
        rw [htopo] at he
        dsimp only at he
        cases htl : taskLoop script cfg attempt plan order
            (events ++ [OrchEvent.dockInvoked attempt ctx.isSome]) [] [] [] with
        | fatal evs er =>
          rw [htl] at he
          dsimp only at he
          have hm := taskLoop_no_merge_allOrNothing script cfg attempt plan hstrat
            order _ [] [] [] a ag (by rw [htl]; exact he)
          rcases List.mem_append.mp hm with h1 | h1
          · exact Or.inl h1
          · simp at h1
        | finished evs reg results viols af =>
          rw [htl] at he
          dsimp only at he
          have hinevs : OrchEvent.mergeChanges a ag ∈ evs →
              OrchEvent.mergeChanges a ag ∈ events := by
            intro h1
            have hm := taskLoop_no_merge_allOrNothing script cfg attempt plan hstrat
              order _ [] [] [] a ag (by rw [htl]; exact h1)
            rcases List.mem_append.mp hm with h2 | h2
            · exact h2
            · simp at h2
          by_cases hok : (viols.isEmpty && !af) = true
          · rw [if_pos hok] at he
            rw [Bool.and_eq_true] at hok
            obtain ⟨hv, haf⟩ := hok
            rw [List.isEmpty_iff] at hv
            rw [Bool.not_eq_true'] at haf
            subst hv haf
            have hstrif : (if cfg.merge_strategy == MergeStrategy.AllOrNothing then
                mergeAll script attempt results reg else ([], none)) =
                mergeAll script attempt results reg := by
              rw [hstrat]
              rfl
            rw [hstrif] at he
            have hsuccess : AttemptAllSuccess script cfg attempt := by
              have hsplit := taskLoop_events_split script cfg attempt plan order
                (events ++ [OrchEvent.dockInvoked attempt ctx.isSome]) [] [] []
              rw [htl] at hsplit
              cases htl0 : taskLoop script cfg attempt plan order [] [] [] [] with
              | fatal evs0 er =>
                rw [htl0] at hsplit
                exact absurd hsplit (by simp)
              | finished evs0 reg0 results0 viols0 af0 =>
                rw [htl0] at hsplit
                dsimp only at hsplit
                injection hsplit with h1 h2 h3 h4 h5
                subst h2 h3 h4 h5
                obtain ⟨hexec, _⟩ := taskLoop_finished_success script cfg attempt plan
                  order [] [] [] [] evs0 reg results [] htl0
                exact ⟨plan, order, hdock, htopo, hexec, evs0, reg, results, htl0⟩
            cases hma : mergeAll script attempt results reg with
            | mk mevs me =>
              rw [hma] at he
              cases me with
              | some e =>
                dsimp only at he
                rcases List.mem_append.mp he with h1 | h1
                · exact Or.inl (hinevs h1)
                · obtain ⟨ag', heq⟩ := mergeAll_events script attempt results reg _
                    (by rw [hma]; exact h1)
                  injection heq with ha hag
                  subst ha
                  exact Or.inr hsuccess
              | none =>
                dsimp only at he
                rcases List.mem_append.mp he with h1 | h1
                · rcases List.mem_append.mp h1 with h2 | h2
                  · exact Or.inl (hinevs h2)
                  · obtain ⟨ag', heq⟩ := mergeAll_events script attempt results reg _
                      (by rw [hma]; exact h2)
                    injection heq with ha hag
                    subst ha
                    exact Or.inr hsuccess
                · simp at h1
          · rw [if_neg hok] at he
            by_cases hrec : (attempt < cfg.max_replan_attempts && !viols.isEmpty) = true
            · rw [if_pos hrec] at he
              rcases ih (attempt + 1) _ (evs ++ [OrchEvent.cleanupRun]) a ag he with h1 | h1
              · rcases List.mem_append.mp h1 with h2 | h2
                · exact Or.inl (hinevs h2)
                · simp at h2
              · exact Or.inr h1
            · rw [if_neg hrec] at he
              rcases List.mem_append.mp he with h1 | h1
              · exact Or.inl (hinevs h1)
              · simp at h1

/-- A replan-context-carrying dock invocation appears in the attempt loop's
trace only when already present in the accumulated events, when the loop was
entered with a replan context justified by the invariant, or after an attempt
that recorded at least one permission violation within the budget. -/
theorem runAttempts_replan_gated (script : RunScript) (cfg : OrchestrateConfig) :
    ∀ (remaining attempt : Nat) (ctx : Option ReplanContext) (events : List OrchEvent),
      (∀ a, OrchEvent.dockInvoked a true ∈ events → ReplanJustified script cfg a) →
      (ctx.isSome = true → ReplanJustified script cfg attempt) →
      ∀ a, OrchEvent.dockInvoked a true ∈
          (runAttempts script cfg remaining attempt ctx events).1 →
        ReplanJustified script cfg a := by
  intro remaining
  induction remaining with
  | zero =>
    intro attempt ctx events hev hctx a he
    exact hev a (by simpa [runAttempts] using he)
  | succ remaining ih =>
    intro attempt ctx events hev hctx a he
    have hev' : ∀ a, OrchEvent.dockInvoked a true ∈
        (events ++ [OrchEvent.dockInvoked attempt ctx.isSome]) →
        ReplanJustified script cfg a := by
      intro a h
      rcases List.mem_append.mp h with h1 | h1
      · exact hev a h1
      · simp at h1
        obtain ⟨ha, hb⟩ := h1
        subst ha
        exact hctx hb
    simp only [runAttempts] at he
    cases hdock : script.dock attempt with
    | error e =>
      rw [hdock] at he
      dsimp only at he
      exact hev' a he
    | ok plan =>
      rw [hdock] at he
      dsimp only at he
      cases htopo : topological_sort plan with
      | error e =>
        rw [htopo] at he
        dsimp only at he
        exact hev' a he
      | ok order =>
        rw [htopo] at he
        dsimp only at he
        cases htl : taskLoop script cfg attempt plan order
            (events ++ [OrchEvent.dockInvoked attempt ctx.isSome]) [] [] [] with
        | fatal evs er =>
          rw [htl] at he
          dsimp only at he
          rcases taskLoop_events_new script cfg attempt plan order _ [] [] []
              _ (by rw [htl]; exact he) with h1 | h1 | h1
          · exact hev' a h1
          · obtain ⟨ag, heq⟩ := h1
            exact nomatch heq
          · obtain ⟨ag, heq⟩ := h1
            exact nomatch heq
        | finished evs reg results viols af =>
          rw [htl] at he
          dsimp only at he
          have hinevs : ∀ a, OrchEvent.dockInvoked a true ∈ evs →
              ReplanJustified script cfg a := by
            intro a h1
            rcases taskLoop_events_new script cfg attempt plan order _ [] [] []
                _ (by rw [htl]; exact h1) with h2 | h2 | h2
            · exact hev' a h2
            · obtain ⟨ag, heq⟩ := h2
              exact nomatch heq
            · obtain ⟨ag, heq⟩ := h2
              exact nomatch heq
          by_cases hok : (viols.isEmpty && !af) = true
          · rw [if_pos hok] at he
            cases hma : (if cfg.merge_strategy == MergeStrategy.AllOrNothing then
                mergeAll script attempt results reg else ([], none)) with
            | mk mevs me =>
              have hmevs : OrchEvent.dockInvoked a true ∈ mevs → False := by
                intro h1
                have h2 : OrchEvent.dockInvoked a true ∈
                    (mergeAll script attempt results reg).1 := by
                  by_cases hs : (cfg.merge_strategy == MergeStrategy.AllOrNothing) = true
                  · rw [if_pos hs] at hma
                    rw [hma]
                    exact h1
                  · rw [if_neg hs] at hma
                    injection hma with hm1 hm2
                    rw [← hm1] at h1
                    exact absurd h1 (List.not_mem_nil _)
                obtain ⟨ag, heq⟩ := mergeAll_events script attempt results reg _ h2
                exact nomatch heq
              rw [hma] at he
              cases me with
              | some e =>
                dsimp only at he
                rcases List.mem_append.mp he with h1 | h1
                · exact hinevs a h1
                · exact absurd h1 (fun h => hmevs h)
              | none =>
                dsimp only at he
                rcases List.mem_append.mp he with h1 | h1
                · rcases List.mem_append.mp h1 with h2 | h2
                  · exact hinevs a h2
                  · exact absurd h2 (fun h => hmevs h)
                · simp at h1
          · rw [if_neg hok] at he
            by_cases hrec : (attempt < cfg.max_replan_attempts && !viols.isEmpty) = true
            · rw [if_pos hrec] at he
              rw [Bool.and_eq_true] at hrec
              obtain ⟨hlt, hne⟩ := hrec
              have hlt' : attempt < cfg.max_replan_attempts := of_decide_eq_true hlt
              have hne' : viols ≠ [] := by
                rw [Bool.not_eq_true'] at hne
                intro hv
                rw [hv] at hne
                simp at hne
              refine ih (attempt + 1) _ (evs ++ [OrchEvent.cleanupRun]) ?_ ?_ a he
              · intro a h
                rcases List.mem_append.mp h with h1 | h1
                · exact hinevs a h1
                · simp at h1
              · intro _
                have hsplit := taskLoop_events_split script cfg attempt plan order
                  (events ++ [OrchEvent.dockInvoked attempt ctx.isSome]) [] [] []
                rw [htl] at hsplit
                cases htl0 : taskLoop script cfg attempt plan order [] [] [] [] with
                | fatal evs0 er =>
                  rw [htl0] at hsplit
                  exact absurd hsplit (by simp)
                | finished evs0 reg0 results0 viols0 af0 =>
                  rw [htl0] at hsplit
                  dsimp only at hsplit
                  injection hsplit with h1 h2 h3 h4 h5
                  subst h2 h3 h4 h5
                  refine ⟨Nat.succ_pos attempt, hlt', plan, order, evs0, reg, results,
                    viols, af, ?_, ?_, ?_, hne'⟩
                  · simpa using hdock
                  · exact htopo
                  · simpa using htl0
            · rw [if_neg hrec] at he
              rcases List.mem_append.mp he with h1 | h1
              · exact hinevs a h1
              · simp at h1

/-- When the current attempt's task loop ends with a hard `Failed` result,
the attempt loop returns immediately with `merged = false` and empty
violations, and invokes the planner for no later attempt. -/
theorem runAttempts_failed_stops (script : RunScript) (cfg : OrchestrateConfig)
    (remaining attempt : Nat) (ctx : Option ReplanContext) (events : List OrchEvent)
    (hfail : FailHardAt script cfg attempt) :
    ∃ plan results tr,
      runAttempts script cfg (remaining + 1) attempt ctx events =
        (tr, .ok ⟨plan, results, false, []⟩) ∧
      ∀ a b, OrchEvent.dockInvoked a b ∈ tr →
        OrchEvent.dockInvoked a b ∈ events ∨ a = attempt := by
  obtain ⟨plan, order, evs, reg, results, viols, af, hdock, htopo, htask, hfailr⟩ := hfail
  obtain ⟨hv, haf⟩ := taskLoop_failed_no_viols script cfg attempt plan order [] [] []
    evs reg results viols af (by intro r hr msg; cases hr) htask hfailr
  subst hv haf
  have hsplit := taskLoop_events_split script cfg attempt plan order
    (events ++ [OrchEvent.dockInvoked attempt ctx.isSome]) [] [] []
  rw [htask] at hsplit
  refine ⟨plan, results,
    ((events ++ [OrchEvent.dockInvoked attempt ctx.isSome]) ++ evs) ++ [OrchEvent.cleanupRun],
    ?_, ?_⟩
  · simp only [runAttempts]
    rw [hdock]
    dsimp only
    rw [htopo]
    dsimp only
    rw [hsplit]
    dsimp only
    rw [if_neg (by simp)]
    rw [if_neg (by simp)]
  · intro a b hmem
    rcases List.mem_append.mp hmem with h1 | h1
    · rcases List.mem_append.mp h1 with h2 | h2
      · rcases List.mem_append.mp h2 with h3 | h3
        · exact Or.inl h3
        · simp at h3
          exact Or.inr h3.1
      · rcases taskLoop_events_new script cfg attempt plan order [] [] [] []
            _ (by rw [htask]; exact h2) with h3 | h3 | h3
        · exact absurd h3 (List.not_mem_nil _)
        · obtain ⟨ag, heq⟩ := h3
          exact nomatch heq
        · obtain ⟨ag, heq⟩ := h3
          exact nomatch heq
    · simp at h1

/-- Every successful return of the attempt loop carries a trace ending in a
`cleanupRun` event. -/
theorem runAttempts_ok_ends_cleanup (script : RunScript) (cfg : OrchestrateConfig) :
    ∀ (remaining attempt : Nat) (ctx : Option ReplanContext) (events : List OrchEvent)
      (tr : List OrchEvent) (res : OrchestrateResult),
      runAttempts script cfg remaining attempt ctx events = (tr, .ok res) →
      ∃ tr2, tr = tr2 ++ [OrchEvent.cleanupRun] := by
  intro remaining
  induction remaining with
  | zero =>
    intro attempt ctx events tr res h
    simp [runAttempts] at h
  | succ remaining ih =>
    intro attempt ctx events tr res h
    simp only [runAttempts] at h
    cases hdock : script.dock attempt with
    | error e =>
      rw [hdock] at h
      simp at h
    | ok plan =>
      rw [hdock] at h
      dsimp only at h
      cases htopo : topological_sort plan with
      | error e =>
        rw [htopo] at h
        simp at h
      | ok order =>
        rw [htopo] at h
        dsimp only at h
        cases htl : taskLoop script cfg attempt plan order
            (events ++ [OrchEvent.dockInvoked attempt ctx.isSome]) [] [] [] with
        | fatal evs er =>
          rw [htl] at h
          simp at h
        | finished evs reg results viols af =>
          rw [htl] at h
          dsimp only at h
          by_cases hok : (viols.isEmpty && !af) = true
          · rw [if_pos hok] at h
            cases hma : (if cfg.merge_strategy == MergeStrategy.AllOrNothing then
                mergeAll script attempt results reg else ([], none)) with
            | mk mevs me =>
              rw [hma] at h
              cases me with
              | some e =>
                simp at h
              | none =>
                dsimp only at h
                rw [Prod.mk.injEq] at h
                exact ⟨evs ++ mevs, h.1.symm⟩
          · rw [if_neg hok] at h
            by_cases hrec : (attempt < cfg.max_replan_attempts && !viols.isEmpty) = true
            · rw [if_pos hrec] at h
              exact ih (attempt + 1) _ _ tr res h
            · rw [if_neg hrec] at h
              rw [Prod.mk.injEq] at h
              exact ⟨evs, h.1.symm⟩

/-- C2: under the `AllOrNothing` merge policy a merge event can only stem
from an attempt whose task loop executed every ordered task to a clean
`Success` with no recorded violations; and in the concrete two-task scenario
where the first task succeeds and the second fails hard, the run returns
`merged = false` and no merge event ever appears in the trace. -/
theorem C2_allOrNothing_merge_gating (script : RunScript) (cfg : OrchestrateConfig)
    (hstrat : cfg.merge_strategy = MergeStrategy.AllOrNothing) :
    (∀ a ag, OrchEvent.mergeChanges a ag ∈ (orchestrate script cfg).1 →
      AttemptAllSuccess script cfg a) ∧
    orchestrate scriptFailB ⟨2, MergeStrategy.AllOrNothing⟩ =
      ([OrchEvent.dockInvoked 0 false, OrchEvent.createWorktree 0 "agent-a",
        OrchEvent.createWorktree 0 "agent-b", OrchEvent.cleanupRun],
       .ok ⟨planAB,
         [⟨"agent-a", 0, .Success, ["f0"], "", ""⟩,
          ⟨"agent-b", 1, .Failed "boom", [], "", ""⟩], false, []⟩) ∧
    (∀ a ag, OrchEvent.mergeChanges a ag ∉
      (orchestrate scriptFailB ⟨2, MergeStrategy.AllOrNothing⟩).1) := by
  refine ⟨?_, by decide, ?_⟩
  · intro a ag he
    rcases runAttempts_merge_gated script cfg hstrat (cfg.max_replan_attempts + 1) 0 none []
      a ag he with h | h
    · exact absurd h (List.not_mem_nil _)
    · exact h
  · intro a ag h
    have h2 : OrchEvent.mergeChanges a ag ∈
        [OrchEvent.dockInvoked 0 false, OrchEvent.createWorktree 0 "agent-a",
         OrchEvent.createWorktree 0 "agent-b", OrchEvent.cleanupRun] := h
    simp at h2

theorem C2_allOrNothing_merge_gating_witness :
    AttemptAllSuccess scriptClean ⟨2, MergeStrategy.AllOrNothing⟩ 0 :=
  (C2_allOrNothing_merge_gating scriptClean ⟨2, MergeStrategy.AllOrNothing⟩ rfl).1
    0 "agent-a" (by decide)

/-- C3: a dock invocation carrying replan context happens only for a
non-initial attempt within the replan budget whose previous attempt's task
loop recorded at least one permission violation; and whenever the current
attempt's task loop ends with a hard `Failed` result, the attempt loop
returns immediately with `merged = false`, empty violations, and no dock
invocation for any later attempt. -/
theorem C3_replan_gating_and_failed_terminal (script : RunScript)
    (cfg : OrchestrateConfig) :
    (∀ a, OrchEvent.dockInvoked a true ∈ (orchestrate script cfg).1 →
      ReplanJustified script cfg a) ∧
    (∀ (remaining attempt : Nat) (ctx : Option ReplanContext) (events : List OrchEvent),
      FailHardAt script cfg attempt →
      ∃ plan results tr,
        runAttempts script cfg (remaining + 1) attempt ctx events =
          (tr, .ok ⟨plan, results, false, []⟩) ∧
        ∀ a b, OrchEvent.dockInvoked a b ∈ tr →
          OrchEvent.dockInvoked a b ∈ events ∨ a = attempt) := by
  constructor
  · intro a he
    exact runAttempts_replan_gated script cfg (cfg.max_replan_attempts + 1) 0 none []
      (fun a h => absurd h (List.not_mem_nil _)) (fun h => by simp at h) a he
  · intro remaining attempt ctx events hfail
    exact runAttempts_failed_stops script cfg remaining attempt ctx events hfail

theorem C3_replan_gating_and_failed_terminal_witness :
    ReplanJustified scriptReplan ⟨2, MergeStrategy.AllOrNothing⟩ 1 ∧
    (∃ plan results tr,
      runAttempts scriptFailB ⟨2, MergeStrategy.AllOrNothing⟩ 3 0 none [] =
        (tr, .ok ⟨plan, results, false, []⟩) ∧
      ∀ a b, OrchEvent.dockInvoked a b ∈ tr →
        OrchEvent.dockInvoked a b ∈ ([] : List OrchEvent) ∨ a = 0) :=
  ⟨(C3_replan_gating_and_failed_terminal scriptReplan ⟨2, MergeStrategy.AllOrNothing⟩).1
      1 (by decide),
   (C3_replan_gating_and_failed_terminal scriptFailB ⟨2, MergeStrategy.AllOrNothing⟩).2
      2 0 none []
      ⟨planAB, [0, 1],
        [OrchEvent.createWorktree 0 "agent-a", OrchEvent.createWorktree 0 "agent-b"],
        ["agent-a", "agent-b"],
        [⟨"agent-a", 0, .Success, ["f0"], "", ""⟩,
         ⟨"agent-b", 1, .Failed "boom", [], "", ""⟩],
        [], true, rfl, rfl, by decide,
        ⟨⟨"agent-b", 1, .Failed "boom", [], "", ""⟩, by decide, "boom", rfl⟩⟩⟩

/-- C7, counterexample: when `execute_agent_task` propagates an error,
`orchestrate` returns that error right away, leaving the worktree just
created for the agent without any cleanup in the rest of the trace. -/
theorem C7_counterexample_error_path_skips_cleanup :
    orchestrate scriptExecErr ⟨2, MergeStrategy.AllOrNothing⟩ =
      ([OrchEvent.dockInvoked 0 false, OrchEvent.createWorktree 0 "agent-a"],
       .err (.AgentFailed "agent-a" "provider invoke failed")) ∧
    ¬ CreatesCleaned (orchestrate scriptExecErr ⟨2, MergeStrategy.AllOrNothing⟩).1 := by
  refine ⟨by decide, ?_⟩
  intro h
  have h2 : CreatesCleaned
      [OrchEvent.dockInvoked 0 false, OrchEvent.createWorktree 0 "agent-a"] := h
  exact absurd (h2.2.1 0 "agent-a" rfl) (List.not_mem_nil _)

/-- C7 (amended): on every `Ok` return of `orchestrate` — full success or a
rejected run — the trace ends with a `cleanup_run`, so every worktree created
during the run is followed by a cleanup of the run's worktrees; error returns
do not carry this guarantee. -/
theorem C7_ok_returns_clean_worktrees (script : RunScript) (cfg : OrchestrateConfig)
    (tr : List OrchEvent) (res : OrchestrateResult)
    (h : orchestrate script cfg = (tr, .ok res)) :
    CreatesCleaned tr := by
  obtain ⟨tr2, htr⟩ := runAttempts_ok_ends_cleanup script cfg (cfg.max_replan_attempts + 1)
    0 none [] tr res h
  rw [htr]
  exact createsCleaned_block tr2

theorem C7_ok_returns_clean_worktrees_witness :
    CreatesCleaned [OrchEvent.dockInvoked 0 false, OrchEvent.createWorktree 0 "agent-a",
      OrchEvent.mergeChanges 0 "agent-a", OrchEvent.cleanupRun] :=
  C7_ok_returns_clean_worktrees scriptClean ⟨2, MergeStrategy.AllOrNothing⟩
    [OrchEvent.dockInvoked 0 false, OrchEvent.createWorktree 0 "agent-a",
      OrchEvent.mergeChanges 0 "agent-a", OrchEvent.cleanupRun]
    ⟨⟨"p", [⟨"agent-a", "x", [], []⟩]⟩,
      [⟨"agent-a", 0, .Success, ["f0"], "", ""⟩], true, []⟩
    rfl

/-! ## Lexer lemmas -/

theorem lex_str (s : List Char) : ∀ (sacc : List Char) (acc : List JTok) (rest : List Char),
    lexSteps (.inStr sacc) (escStr s ++ '"' :: rest) acc =
      lexSteps .normal rest (.str (String.mk (sacc.reverse ++ s)) :: acc) := by
  induction s with
  | nil => intro sacc acc rest; simp [escStr, lexSteps]
  | cons c s ih =>
    intro sacc acc rest
    simp only [escStr, List.append_assoc, List.cons_append]
    by_cases h1 : c = '"'
    · subst h1
      simp [escChar, lexSteps, ih]
    · by_cases h2 : c = '\\'
      · subst h2; simp [escChar, lexSteps, ih]
      · by_cases h3 : c = '\n'
        · subst h3; simp [escChar, lexSteps, ih]
        · by_cases h4 : c = '\t'
          · subst h4; simp [escChar, lexSteps, ih]
          · by_cases h5 : c = '\r'
            · subst h5; simp [escChar, lexSteps, ih]
            · rw [escChar, if_neg h1, if_neg h2, if_neg h3, if_neg h4, if_neg h5]
              simp only [List.cons_append, List.nil_append]
              rw [lexSteps, if_neg h1]
              rw [if_neg h2]
              rw [ih]
              simp

theorem lex_quote (s : String) (acc : List JTok) (rest : List Char) :
    lexSteps .normal ('"' :: (escStr s.data ++ '"' :: rest)) acc =
      lexSteps .normal rest (.str s :: acc) := by
  rw [lexSteps]
  · simp only [decide_True, decide_False]
    rw [if_neg (by decide), if_neg (by decide), if_neg (by decide), if_neg (by decide),
      if_neg (by decide), if_neg (by decide), if_neg (by decide)]
    simp only [if_true]
    rw [lex_str]
    simp
  · intro h1 h2 h3
    exact absurd h2 (by decide)
  · intro h1 h2 h3
    exact absurd h2 (by decide)
  · intro h1 h2 h3
    exact absurd h2 (by decide)

theorem lex_quoteStr (s : String) (acc : List JTok) (rest : List Char) :
    lexSteps .normal (quoteStr s ++ rest) acc = lexSteps .normal rest (.str s :: acc) := by
  have h := lex_quote s acc rest
  simp only [quoteStr, List.cons_append, List.append_assoc, List.singleton_append] at h ⊢
  exact h

theorem lex_lbrace (rest : List Char) (acc : List JTok) :
    lexSteps .normal ('{' :: rest) acc = lexSteps .normal rest (.lbrace :: acc) := by
  simp [lexSteps]

theorem lex_rbrace (rest : List Char) (acc : List JTok) :
    lexSteps .normal ('}' :: rest) acc = lexSteps .normal rest (.rbrace :: acc) := by
  simp [lexSteps]

theorem lex_lbrack (rest : List Char) (acc : List JTok) :
    lexSteps .normal ('[' :: rest) acc = lexSteps .normal rest (.lbrack :: acc) := by
  simp [lexSteps]

theorem lex_rbrack (rest : List Char) (acc : List JTok) :
    lexSteps .normal (']' :: rest) acc = lexSteps .normal rest (.rbrack :: acc) := by
  simp [lexSteps]

theorem lex_colon (rest : List Char) (acc : List JTok) :
    lexSteps .normal (':' :: rest) acc = lexSteps .normal rest (.colon :: acc) := by
  simp [lexSteps]

theorem lex_comma (rest : List Char) (acc : List JTok) :
    lexSteps .normal (',' :: rest) acc = lexSteps .normal rest (.comma :: acc) := by
  simp [lexSteps]

theorem digitChar_mem (n : Nat) (h : n < 10) : digitChar n ∈ digitChars := by
  interval_cases n <;> simp [digitChar, digitChars]

theorem natToDigitsAux_acc (fuel : Nat) : ∀ (n : Nat) (acc : List Char),
    natToDigitsAux fuel n acc = natToDigitsAux fuel n [] ++ acc := by
  induction fuel with
  | zero => intro n acc; simp [natToDigitsAux]
  | succ fuel ih =>
    intro n acc
    by_cases h : n < 10
    · simp [natToDigitsAux, if_pos h]
    · rw [natToDigitsAux, if_neg h, natToDigitsAux, if_neg h]
      rw [ih (n / 10) (digitChar (n % 10) :: acc), ih (n / 10) [digitChar (n % 10)]]
      simp

theorem natToDigitsAux_stab (fuel : Nat) : ∀ (fuel2 n : Nat) (acc : List Char),
    n < fuel → n < fuel2 → natToDigitsAux fuel n acc = natToDigitsAux fuel2 n acc := by
  induction fuel with
  | zero => intro fuel2 n acc h1 _; omega
  | succ fuel ih =>
    intro fuel2 n acc h1 h2
    cases fuel2 with
    | zero => omega
    | succ fuel2 =>
      by_cases h : n < 10
      · rw [natToDigitsAux, if_pos h, natToDigitsAux, if_pos h]
      · rw [natToDigitsAux, if_neg h, natToDigitsAux, if_neg h]
        have hd : n / 10 < n := Nat.div_lt_self (by omega) (by omega)
        exact ih fuel2 (n / 10) _ (by omega) (by omega)

theorem natChars_step (n : Nat) (h : 10 ≤ n) :
    natChars n = natChars (n / 10) ++ [digitChar (n % 10)] := by
  rw [natChars, natToDigitsAux, if_neg (by omega)]
  rw [natToDigitsAux_acc]
  have hd : n / 10 < n := Nat.div_lt_self (by omega) (by omega)
  rw [natToDigitsAux_stab n (n / 10 + 1) (n / 10) [] (by omega) (by omega)]
  rfl

theorem natChars_lt10 (n : Nat) (h : n < 10) : natChars n = [digitChar n] := by
  rw [natChars, natToDigitsAux, if_pos h]

theorem natChars_digits (n : Nat) : ∀ c ∈ natChars n, c ∈ digitChars := by
  induction n using Nat.strong_induction_on with
  | _ n ih =>
    by_cases h : n < 10
    · rw [natChars_lt10 n h]
      intro c hc
      simp at hc
      subst hc
      exact digitChar_mem n h
    · rw [natChars_step n (by omega)]
      intro c hc
      rcases List.mem_append.mp hc with h1 | h1
      · exact ih (n / 10) (Nat.div_lt_self (by omega) (by omega)) c h1
      · simp at h1
        subst h1
        exact digitChar_mem (n % 10) (Nat.mod_lt n (by omega))

theorem natChars_ne_nil (n : Nat) : natChars n ≠ [] := by
  by_cases h : n < 10
  · rw [natChars_lt10 n h]; simp
  · rw [natChars_step n (by omega)]; simp

theorem digitsToNat_append (ds : List Char) : ∀ (d : Char) (acc : Nat),
    digitsToNat (ds ++ [d]) acc = (digitsToNat ds acc) * 10 + (d.toNat - 48) := by
  induction ds with
  | nil => intro d acc; simp [digitsToNat]
  | cons c ds ih => intro d acc; simp only [List.cons_append, digitsToNat]; exact ih d _

theorem digitChar_toNat (n : Nat) (h : n < 10) : (digitChar n).toNat = 48 + n := by
  interval_cases n <;> decide

theorem digitsToNat_natChars (n : Nat) : digitsToNat (natChars n) 0 = n := by
  induction n using Nat.strong_induction_on with
  | _ n ih =>
    by_cases h : n < 10
    · rw [natChars_lt10 n h]
      simp [digitsToNat, digitChar_toNat n h]
    · rw [natChars_step n (by omega), digitsToNat_append]
      rw [ih (n / 10) (Nat.div_lt_self (by omega) (by omega))]
      rw [digitChar_toNat (n % 10) (Nat.mod_lt n (by omega))]
      omega

theorem lex_digits (ds : List Char) : ∀ (dsacc : List Char) (acc : List JTok) (rest : List Char),
    (∀ c ∈ ds, c ∈ digitChars) →
    lexSteps (.inNum dsacc) (ds ++ rest) acc =
      lexSteps (.inNum (ds.reverse ++ dsacc)) rest acc := by
  induction ds with
  | nil => intro dsacc acc rest _; simp
  | cons c ds ih =>
    intro dsacc acc rest hdig
    have hc : c ∈ digitChars := hdig c (List.mem_cons_self c ds)
    have hrec := fun dsacc2 => ih dsacc2 acc rest (fun x hx => hdig x (List.mem_cons_of_mem c hx))
    fin_cases hc <;>
      (simp only [List.cons_append]
       rw [lexSteps, if_pos (by decide)]
       rw [hrec]
       simp)

theorem lex_num_start (c : Char) (hc : c ∈ digitChars) (rest : List Char) (acc : List JTok) :
    lexSteps .normal (c :: rest) acc = lexSteps (.inNum [c]) rest acc := by
  fin_cases hc <;> simp [lexSteps]

theorem lex_num_comma (ds : List Char) (rest : List Char) (acc : List JTok)
    (hne : ds ≠ []) (hdig : ∀ c ∈ ds, c ∈ digitChars) :
    lexSteps .normal (ds ++ ',' :: rest) acc =
      lexSteps .normal rest (.comma :: .num (String.mk ds) :: acc) := by
  cases ds with
  | nil => exact absurd rfl hne
  | cons c ds =>
    have hc : c ∈ digitChars := hdig c (List.mem_cons_self c ds)
    have hds : ∀ x ∈ ds, x ∈ digitChars := fun x hx => hdig x (List.mem_cons_of_mem c hx)
    simp only [List.cons_append]
    rw [lex_num_start c hc]
    rw [lex_digits ds [c] acc (',' :: rest) hds]
    rw [lexSteps, if_neg (by decide), if_pos rfl]
    simp

theorem lex_num_rbrack (ds : List Char) (rest : List Char) (acc : List JTok)
    (hne : ds ≠ []) (hdig : ∀ c ∈ ds, c ∈ digitChars) :
    lexSteps .normal (ds ++ ']' :: rest) acc =
      lexSteps .normal rest (.rbrack :: .num (String.mk ds) :: acc) := by
  cases ds with
  | nil => exact absurd rfl hne
  | cons c ds =>
    have hc : c ∈ digitChars := hdig c (List.mem_cons_self c ds)
    have hds : ∀ x ∈ ds, x ∈ digitChars := fun x hx => hdig x (List.mem_cons_of_mem c hx)
    simp only [List.cons_append]
    rw [lex_num_start c hc]
    rw [lex_digits ds [c] acc (']' :: rest) hds]
    rw [lexSteps, if_neg (by decide), if_neg (by decide), if_pos rfl]
    simp

theorem lex_prose_none (c : Char) (rest : List Char) (acc : List JTok)
    (h : proseHead c = true) :
    lexSteps .normal (c :: rest) acc = none := by
  simp only [proseHead, Bool.not_eq_true', Bool.or_eq_false_iff, beq_eq_false_iff_ne,
    ne_eq] at h
  obtain ⟨⟨⟨⟨⟨⟨⟨⟨⟨⟨⟨⟨hws, hlb⟩, hrb⟩, hlk⟩, hrk⟩, hco⟩, hcm⟩, hq⟩, hd⟩, hmi⟩, ht⟩, hf⟩, hn⟩ := h
  rw [lexSteps]
  · rw [if_neg (by simp [hws]), if_neg hlb, if_neg hrb, if_neg hlk, if_neg hrk,
      if_neg hco, if_neg hcm, if_neg hq, if_neg (by simp [hd, hmi])]
  · intro h1 h2 h3
    exact ht h2
  · intro h1 h2 h3
    exact hf h2
  · intro h1 h2 h3
    exact hn h2

theorem lex_strTail (ss : List String) : ∀ (rest : List Char) (acc : List JTok),
    lexSteps .normal (strTailChars ss ++ ']' :: rest) acc =
      lexSteps .normal rest (.rbrack :: ((strTailToks ss).reverse ++ acc)) := by
  induction ss with
  | nil => intro rest acc; simp [strTailChars, strTailToks, lex_rbrack]
  | cons s ss ih =>
    intro rest acc
    simp only [strTailChars, strTailToks, List.cons_append, List.append_assoc]
    rw [lex_comma, lex_quoteStr, ih]
    simp

theorem lex_strList (ss : List String) (rest : List Char) (acc : List JTok) :
    lexSteps .normal (strListChars ss ++ ']' :: rest) acc =
      lexSteps .normal rest (.rbrack :: ((strListToks ss).reverse ++ acc)) := by
  cases ss with
  | nil => simp [strListChars, strListToks, lex_rbrack]
  | cons s ss =>
    simp only [strListChars, strListToks, List.cons_append, List.append_assoc]
    rw [lex_quoteStr, lex_strTail]
    simp

theorem lex_natSeq (ns : List Nat) : ∀ (n : Nat) (rest : List Char) (acc : List JTok),
    lexSteps .normal ((natChars n ++ natTailChars ns) ++ ']' :: rest) acc =
      lexSteps .normal rest (.rbrack :: ((natListToks (n :: ns)).reverse ++ acc)) := by
  induction ns with
  | nil =>
    intro n rest acc
    simp only [natTailChars, List.append_nil]
    rw [lex_num_rbrack (natChars n) rest acc (natChars_ne_nil n) (natChars_digits n)]
    simp [natListToks, natTailToks, natToString]
  | cons m ns ih =>
    intro n rest acc
    simp only [natTailChars, List.cons_append, List.append_assoc]
    rw [lex_num_comma (natChars n) _ acc (natChars_ne_nil n) (natChars_digits n)]
    have h := ih m rest (.comma :: .num (String.mk (natChars n)) :: acc)
    simp only [List.append_assoc] at h
    rw [h]
    simp [natListToks, natTailToks, natToString]

theorem lex_natList (ns : List Nat) (rest : List Char) (acc : List JTok) :
    lexSteps .normal (natListChars ns ++ ']' :: rest) acc =
      lexSteps .normal rest (.rbrack :: ((natListToks ns).reverse ++ acc)) := by
  cases ns with
  | nil => simp [natListChars, natListToks, lex_rbrack]
  | cons n ns =>
    simp only [natListChars]
    rw [lex_natSeq ns n rest acc]

theorem lex_task (t : AgentTask) (rest : List Char) (acc : List JTok) :
    lexSteps .normal (taskChars t ++ rest) acc =
      lexSteps .normal rest ((taskToks t).reverse ++ acc) := by
  simp only [taskChars, taskInner, List.cons_append, List.append_assoc,
    List.singleton_append, List.nil_append]
  rw [lex_lbrace, lex_quoteStr, lex_colon, lex_quoteStr, lex_comma, lex_quoteStr,
    lex_colon, lex_quoteStr, lex_comma, lex_quoteStr, lex_colon, lex_lbrack]
  rw [lex_strList, lex_comma, lex_quoteStr, lex_colon, lex_lbrack, lex_natList, lex_rbrace]
  simp [taskToks]

theorem lex_taskTail (ts : List AgentTask) : ∀ (rest : List Char) (acc : List JTok),
    lexSteps .normal (taskTailChars ts ++ ']' :: rest) acc =
      lexSteps .normal rest (.rbrack :: ((taskTailToks ts).reverse ++ acc)) := by
  induction ts with
  | nil => intro rest acc; simp [taskTailChars, taskTailToks, lex_rbrack]
  | cons t ts ih =>
    intro rest acc
    simp only [taskTailChars, taskTailToks, List.cons_append, List.append_assoc]
    rw [lex_comma, lex_task, ih]
    simp

theorem lex_tasksList (ts : List AgentTask) (rest : List Char) (acc : List JTok) :
    lexSteps .normal (tasksChars ts ++ ']' :: rest) acc =
      lexSteps .normal rest (.rbrack :: ((tasksToks ts).reverse ++ acc)) := by
  cases ts with
  | nil => simp [tasksChars, tasksToks, lex_rbrack]
  | cons t ts =>
    simp only [tasksChars, tasksToks, List.append_assoc]
    rw [lex_task, lex_taskTail]
    simp

theorem lex_plan (p : DockPlan) (rest : List Char) (acc : List JTok) :
    lexSteps .normal (planChars p ++ rest) acc =
      lexSteps .normal rest ((planToks p).reverse ++ acc) := by
  simp only [planChars, planInner, List.cons_append, List.append_assoc,
    List.singleton_append, List.nil_append]
  rw [lex_lbrace, lex_quoteStr, lex_colon, lex_quoteStr, lex_comma, lex_quoteStr,
    lex_colon, lex_lbrack]
  rw [lex_tasksList, lex_rbrace]
  simp [planToks]

theorem tokenize_plan (p : DockPlan) : tokenize (planChars p) = some (planToks p) := by
  rw [tokenize, show planChars p = planChars p ++ [] by simp, lex_plan]
  simp [lexSteps]

theorem tokenize_envelope (s : String) :
    tokenize (envelopeChars s) =
      some [.lbrace, .str "result", .colon, .str s, .rbrace] := by
  rw [tokenize]
  simp only [envelopeChars, List.cons_append, List.append_assoc, List.singleton_append,
    List.nil_append]
  rw [lex_lbrace, lex_quoteStr, lex_colon]
  rw [show quoteStr s ++ ['}'] = quoteStr s ++ '}' :: [] from rfl]
  rw [lex_quoteStr, lex_rbrace]
  simp [lexSteps]

/-! ## Pushdown parser lemmas -/

theorem jp_arrStrChain (ss : List String) : ∀ (j : Json) (done : List Json)
    (stack : List PFrame) (rest : List JTok),
    jparse (strTailToks ss ++ .rbrack :: rest) (.haveVal j) (.arrF done :: stack) =
      jparse rest (.haveVal (.arr (done.reverse ++ j :: ss.map Json.str))) stack := by
  induction ss with
  | nil =>
    intro j done stack rest
    simp [strTailToks, jparse]
  | cons s ss ih =>
    intro j done stack rest
    simp only [strTailToks, List.cons_append]
    rw [show jparse (.comma :: .str s :: (strTailToks ss ++ .rbrack :: rest))
        (.haveVal j) (.arrF done :: stack) =
        jparse (.str s :: (strTailToks ss ++ .rbrack :: rest))
          .expectVal (.arrF (j :: done) :: stack) from by simp [jparse]]
    rw [show jparse (.str s :: (strTailToks ss ++ .rbrack :: rest))
        .expectVal (.arrF (j :: done) :: stack) =
        jparse (strTailToks ss ++ .rbrack :: rest)
          (.haveVal (.str s)) (.arrF (j :: done) :: stack) from by simp [jparse]]
    rw [ih]
    simp

theorem jp_arrStr (ss : List String) (stack : List PFrame) (rest : List JTok) :
    jparse (.lbrack :: (strListToks ss ++ .rbrack :: rest)) .expectVal stack =
      jparse rest (.haveVal (.arr (ss.map Json.str))) stack := by
  cases ss with
  | nil => simp [strListToks, jparse]
  | cons s ss =>
    simp only [strListToks, List.cons_append]
    rw [show jparse (.lbrack :: .str s :: (strTailToks ss ++ .rbrack :: rest))
        .expectVal stack =
        jparse (.str s :: (strTailToks ss ++ .rbrack :: rest))
          .expectVal (.arrF [] :: stack) from by simp [jparse]]
    rw [show jparse (.str s :: (strTailToks ss ++ .rbrack :: rest))
        .expectVal (.arrF [] :: stack) =
        jparse (strTailToks ss ++ .rbrack :: rest)
          (.haveVal (.str s)) (.arrF [] :: stack) from by simp [jparse]]
    rw [jp_arrStrChain]
    simp

theorem jp_arrNatChain (ns : List Nat) : ∀ (j : Json) (done : List Json)
    (stack : List PFrame) (rest : List JTok),
    jparse (natTailToks ns ++ .rbrack :: rest) (.haveVal j) (.arrF done :: stack) =
      jparse rest
        (.haveVal (.arr (done.reverse ++ j :: ns.map (fun n => Json.num (natToString n)))))
        stack := by
  induction ns with
  | nil =>
    intro j done stack rest
    simp [natTailToks, jparse]
  | cons n ns ih =>
    intro j done stack rest
    simp only [natTailToks, List.cons_append]
    rw [show jparse (.comma :: .num (natToString n) :: (natTailToks ns ++ .rbrack :: rest))
        (.haveVal j) (.arrF done :: stack) =
        jparse (natTailToks ns ++ .rbrack :: rest)
          (.haveVal (.num (natToString n))) (.arrF (j :: done) :: stack) from by simp [jparse]]
    rw [ih]
    simp

theorem jp_arrNat (ns : List Nat) (stack : List PFrame) (rest : List JTok) :
    jparse (.lbrack :: (natListToks ns ++ .rbrack :: rest)) .expectVal stack =
      jparse rest (.haveVal (.arr (ns.map (fun n => Json.num (natToString n))))) stack := by
  cases ns with
  | nil => simp [natListToks, jparse]
  | cons n ns =>
    simp only [natListToks, List.cons_append]
    rw [show jparse (.lbrack :: .num (natToString n) :: (natTailToks ns ++ .rbrack :: rest))
        .expectVal stack =
        jparse (natTailToks ns ++ .rbrack :: rest)
          (.haveVal (.num (natToString n))) (.arrF [] :: stack) from by simp [jparse]]
    rw [jp_arrNatChain]
    simp

theorem jp_task (t : AgentTask) (stack : List PFrame) (rest : List JTok) :
    jparse (taskToks t ++ rest) .expectVal stack =
      jparse rest (.haveVal (taskJson t)) stack := by
  simp only [taskToks, List.cons_append, List.append_assoc, List.nil_append]
  rw [show jparse (.lbrace :: .str "agent" :: .colon :: .str t.agent :: .comma ::
      .str "instruction" :: .colon :: .str t.instruction :: .comma :: .str "focus_files" ::
      .colon :: .lbrack :: (strListToks t.focus_files ++ (.rbrack :: .comma ::
      .str "depends_on" :: .colon :: .lbrack :: (natListToks t.depends_on ++
      (.rbrack :: .rbrace :: rest))))) .expectVal stack =
      jparse (.lbrack :: (strListToks t.focus_files ++ .rbrack :: (.comma ::
      .str "depends_on" :: .colon :: .lbrack :: (natListToks t.depends_on ++
      (.rbrack :: .rbrace :: rest)))))
        .expectVal (.objF [("instruction", .str t.instruction), ("agent", .str t.agent)]
          "focus_files" :: stack) from by simp [jparse]]
  rw [jp_arrStr]
  rw [show jparse (.comma :: .str "depends_on" :: .colon :: .lbrack ::
      (natListToks t.depends_on ++ (.rbrack :: .rbrace :: rest)))
      (.haveVal (.arr (t.focus_files.map Json.str)))
      (.objF [("instruction", .str t.instruction), ("agent", .str t.agent)]
        "focus_files" :: stack) =
      jparse (.lbrack :: (natListToks t.depends_on ++ .rbrack :: (.rbrace :: rest)))
        .expectVal (.objF [("focus_files", .arr (t.focus_files.map Json.str)),
          ("instruction", .str t.instruction), ("agent", .str t.agent)]
          "depends_on" :: stack) from by simp [jparse]]
  rw [jp_arrNat]
  simp [jparse, taskJson]

theorem jp_tasksChain (ts : List AgentTask) : ∀ (j : Json) (done : List Json)
    (stack : List PFrame) (rest : List JTok),
    jparse (taskTailToks ts ++ .rbrack :: rest) (.haveVal j) (.arrF done :: stack) =
      jparse rest (.haveVal (.arr (done.reverse ++ j :: ts.map taskJson))) stack := by
  induction ts with
  | nil =>
    intro j done stack rest
    simp [taskTailToks, jparse]
  | cons t ts ih =>
    intro j done stack rest
    simp only [taskTailToks, List.cons_append, List.append_assoc]
    rw [show jparse (.comma :: (taskToks t ++ (taskTailToks ts ++ .rbrack :: rest)))
        (.haveVal j) (.arrF done :: stack) =
        jparse (taskToks t ++ (taskTailToks ts ++ .rbrack :: rest))
          .expectVal (.arrF (j :: done) :: stack) from ?_]
    · rw [jp_task, ih]
      simp
    · cases ht : taskToks t with
      | nil => simp [taskToks] at ht
      | cons tok toks =>
        have : tok = .lbrace := by
          have := congrArg (fun l => l.head?) ht
          simp [taskToks] at this
          exact this.symm
        subst this
        simp [jparse]

theorem jp_plan (p : DockPlan) (rest : List JTok) (stack : List PFrame) :
    jparse (planToks p ++ rest) .expectVal stack =
      jparse rest (.haveVal (planJson p)) stack := by
  simp only [planToks, List.cons_append, List.append_assoc, List.nil_append]
  rw [show jparse (.lbrace :: .str "summary" :: .colon :: .str p.summary :: .comma ::
      .str "tasks" :: .colon :: .lbrack :: (tasksToks p.tasks ++ (.rbrack :: .rbrace :: rest)))
      .expectVal stack =
      jparse (.lbrack :: (tasksToks p.tasks ++ (.rbrack :: .rbrace :: rest)))
        .expectVal (.objF [("summary", .str p.summary)] "tasks" :: stack) from by
        simp [jparse]]
  cases hts : p.tasks with
  | nil =>
    simp [tasksToks, jparse, planJson, hts]
  | cons t ts =>
    simp only [tasksToks, List.cons_append, List.append_assoc]
    rw [show jparse (.lbrack :: (taskToks t ++ (taskTailToks ts ++ .rbrack :: .rbrace :: rest)))
        .expectVal (.objF [("summary", .str p.summary)] "tasks" :: stack) =
        jparse (taskToks t ++ (taskTailToks ts ++ .rbrack :: .rbrace :: rest))
          .expectVal (.arrF [] :: .objF [("summary", .str p.summary)] "tasks" :: stack) from ?_]
    · rw [jp_task]
      rw [show taskTailToks ts ++ .rbrack :: .rbrace :: rest =
          taskTailToks ts ++ .rbrack :: (.rbrace :: rest) from rfl]
      rw [jp_tasksChain]
      simp [jparse, planJson, hts]
    · cases ht : taskToks t with
      | nil => simp [taskToks] at ht
      | cons tok toks =>
        have : tok = .lbrace := by
          have := congrArg (fun l => l.head?) ht
          simp [taskToks] at this
          exact this.symm
        subst this
        simp [jparse]

/-! ## Decoder and round-trip composition lemmas -/

theorem strListOf_map (ss : List String) : strListOf (ss.map Json.str) = some ss := by
  induction ss with
  | nil => rfl
  | cons s ss ih => simp [strListOf, asStr, ih]

theorem mem_digitChars_isDigit (c : Char) (h : c ∈ digitChars) : c.isDigit = true := by
  fin_cases h <;> decide

theorem asNat_natToString (n : Nat) : asNat (.num (natToString n)) = some n := by
  rw [asNat]
  rw [if_pos ?_]
  · rw [show (natToString n).data = natChars n from rfl, digitsToNat_natChars]
  · rw [show (natToString n).data = natChars n from rfl]
    rw [Bool.and_eq_true]
    constructor
    · cases h : natChars n with
      | nil => exact absurd h (natChars_ne_nil n)
      | cons c cs => simp
    · rw [List.all_eq_true]
      intro c hc
      exact mem_digitChars_isDigit c (natChars_digits n c hc)

theorem natListOf_map (ns : List Nat) :
    natListOf (ns.map (fun n => Json.num (natToString n))) = some ns := by
  induction ns with
  | nil => rfl
  | cons n ns ih => simp [natListOf, asNat_natToString, ih]

theorem taskFromJson_taskJson (t : AgentTask) : taskFromJson (taskJson t) = some t := by
  have h1 : taskFromJson (taskJson t) =
      match strListOf (t.focus_files.map Json.str),
            natListOf (t.depends_on.map (fun n => Json.num (natToString n))) with
      | some ff, some dep => some ⟨t.agent, t.instruction, ff, dep⟩
      | _, _ => none := rfl
  rw [h1, strListOf_map, natListOf_map]

theorem tasksFromJson_map (ts : List AgentTask) :
    tasksFromJson (ts.map taskJson) = some ts := by
  induction ts with
  | nil => rfl
  | cons t ts ih => simp [tasksFromJson, taskFromJson_taskJson, ih]

theorem planFromJson_planJson (p : DockPlan) : planFromJson (planJson p) = some p := by
  have h1 : planFromJson (planJson p) =
      match tasksFromJson (p.tasks.map taskJson) with
      | some ts => some ⟨p.summary, ts⟩
      | none => none := rfl
  rw [h1, tasksFromJson_map]

theorem from_str_value_plan (p : DockPlan) :
    from_str_value (planChars p) = some (planJson p) := by
  simp only [from_str_value]
  rw [tokenize_plan]
  dsimp only
  have h := jp_plan p [] []
  rw [List.append_nil] at h
  rw [h]
  simp [jparse]

theorem from_str_plan_planChars (p : DockPlan) : from_str_plan (planChars p) = some p := by
  simp only [from_str_plan]
  rw [from_str_value_plan]
  exact planFromJson_planJson p

theorem getResultStr_planJson (p : DockPlan) : getResultStr (planJson p) = none := rfl

theorem from_str_value_envelope (s : String) :
    from_str_value (envelopeChars s) = some (.obj [("result", .str s)]) := by
  simp only [from_str_value]
  rw [tokenize_envelope]
  dsimp only
  simp [jparse]

theorem trim_wrap (a b : Char) (l : List Char) (ha : a.isWhitespace = false)
    (hb : b.isWhitespace = false) : trimChars (a :: (l ++ [b])) = a :: (l ++ [b]) := by
  rw [trimChars]
  rw [List.dropWhile_cons]
  rw [if_neg (by simp [ha])]
  rw [show (a :: (l ++ [b])).reverse = b :: (l.reverse ++ [a]) by simp]
  rw [List.dropWhile_cons]
  rw [if_neg (by simp [hb])]
  simp

theorem trim_planChars (p : DockPlan) : trimChars (planChars p) = planChars p := by
  rw [planChars]
  exact trim_wrap '{' '}' (planInner p) (by decide) (by decide)

theorem trim_envelopeChars (s : String) :
    trimChars (envelopeChars s) = envelopeChars s := by
  rw [envelopeChars]
  rw [show quoteStr "result" ++ [':'] ++ quoteStr s ++ ['}'] =
    (quoteStr "result" ++ [':'] ++ quoteStr s) ++ ['}'] by simp]
  exact trim_wrap '{' '}' _ (by decide) (by decide)

theorem extract_json_plan_planChars (p : DockPlan) :
    extract_json_plan (planChars p) = .ok p := by
  simp only [extract_json_plan]
  rw [trim_planChars, from_str_plan_planChars]

/-! ## Trimming lemmas -/

theorem dropWhile_head_false (p : Char → Bool) (l : List Char) :
    ∀ d ds, l.dropWhile p = d :: ds → p d = false := by
  induction l with
  | nil => intro d ds h; simp at h
  | cons c cs ih =>
    intro d ds h
    rw [List.dropWhile_cons] at h
    by_cases hc : p c = true
    · rw [if_pos hc] at h
      exact ih d ds h
    · rw [if_neg hc] at h
      cases h
      exact Bool.not_eq_true _ ▸ hc

theorem dropWhile_suffix (p : Char → Bool) (l : List Char) :
    ∃ t, l = t ++ l.dropWhile p := by
  induction l with
  | nil => exact ⟨[], rfl⟩
  | cons c cs ih =>
    rw [List.dropWhile_cons]
    by_cases hc : p c = true
    · rw [if_pos hc]
      obtain ⟨t, ht⟩ := ih
      exact ⟨c :: t, by rw [List.cons_append, ← ht]⟩
    · rw [if_neg hc]
      exact ⟨[], rfl⟩

theorem trim_self (l : List Char)
    (hhead : ∀ c, l.head? = some c → c.isWhitespace = false)
    (hlast : ∀ c, l.getLast? = some c → c.isWhitespace = false) :
    trimChars l = l := by
  have h1 : l.dropWhile Char.isWhitespace = l := by
    cases l with
    | nil => rfl
    | cons c cs =>
      rw [List.dropWhile_cons, if_neg (by simp [hhead c rfl])]
  rw [trimChars, h1]
  have h2 : l.reverse.dropWhile Char.isWhitespace = l.reverse := by
    cases hr : l.reverse with
    | nil => rfl
    | cons c cs =>
      rw [List.dropWhile_cons, if_neg ?_]
      have : l.getLast? = some c := by
        rw [← List.head?_reverse, hr]
        rfl
      simp [hlast c this]
  rw [h2, List.reverse_reverse]

theorem trim_idem (l : List Char) : trimChars (trimChars l) = trimChars l := by
  apply trim_self
  · intro c hc
    rw [trimChars, List.head?_reverse] at hc
    rcases hd : List.dropWhile Char.isWhitespace
        (List.dropWhile Char.isWhitespace l).reverse with _ | ⟨d, ds⟩
    · rw [hd] at hc; simp at hc
    · obtain ⟨t, ht⟩ := dropWhile_suffix Char.isWhitespace
        (List.dropWhile Char.isWhitespace l).reverse
      have h2 : (List.dropWhile Char.isWhitespace l).reverse.getLast? = some c := by
        rw [ht, List.getLast?_append_of_ne_nil _ (by rw [hd]; simp)]
        exact hc
      rw [List.getLast?_reverse] at h2
      cases hA : List.dropWhile Char.isWhitespace l with
      | nil => rw [hA] at h2; simp at h2
      | cons a as =>
        rw [hA] at h2
        simp at h2
        subst h2
        exact dropWhile_head_false _ l a as hA
  · intro c hc
    rw [trimChars, List.getLast?_reverse] at hc
    rcases hd : List.dropWhile Char.isWhitespace
        (List.dropWhile Char.isWhitespace l).reverse with _ | ⟨d, ds⟩
    · rw [hd] at hc; simp at hc
    · rw [hd] at hc
      simp at hc
      subst hc
      exact dropWhile_head_false _ _ _ ds hd

theorem trim_left_nonws (c : Char) (cs : List Char) (h : c.isWhitespace = false) :
    trimChars (c :: cs) = ((c :: cs).reverse.dropWhile Char.isWhitespace).reverse := by
  rw [trimChars, List.dropWhile_cons, if_neg (by simp [h])]

theorem dropR_append (w2 : List Char) (b : Char) (y : List Char)
    (hb : b.isWhitespace = false) :
    (((w2 ++ [b]) ++ y).reverse.dropWhile Char.isWhitespace).reverse =
      (w2 ++ [b]) ++ (y.reverse.dropWhile Char.isWhitespace).reverse := by
  rw [List.reverse_append, List.dropWhile_append]
  by_cases hy : (y.reverse.dropWhile Char.isWhitespace).isEmpty = true
  · rw [if_pos hy]
    rw [List.isEmpty_iff] at hy
    rw [hy]
    rw [List.reverse_append, List.reverse_singleton, List.singleton_append,
      List.dropWhile_cons, if_neg (by simp [hb])]
    simp
  · rw [if_neg hy]
    simp

/-! ## Character membership in serialized output -/

theorem mem_pair (x a b : Char) (h : x ∈ [a, b]) : x = a ∨ x = b := by simpa using h

theorem mem_five (x : Char) (h : x ∈ ['\\', '"', 'n', 't', 'r']) :
    x = '\\' ∨ x = '"' ∨ x = 'n' ∨ x = 't' ∨ x = 'r' := by simpa using h

theorem mem_escChar (x c : Char) (h : x ∈ escChar c) :
    x = c ∨ x ∈ ['\\', '"', 'n', 't', 'r'] := by
  rw [escChar] at h
  split_ifs at h with h1 h2 h3 h4 h5 <;>
    first
      | (rcases mem_pair x _ _ h with h6 | h6 <;> exact Or.inr (by rw [h6]; decide))
      | (exact Or.inl (by simpa using h))

theorem mem_escStr (x : Char) (s : List Char) (h : x ∈ escStr s) :
    x ∈ s ∨ x ∈ ['\\', '"', 'n', 't', 'r'] := by
  induction s with
  | nil => simp [escStr] at h
  | cons c cs ih =>
    rw [escStr] at h
    rcases List.mem_append.mp h with h1 | h1
    · rcases mem_escChar x c h1 with h2 | h2
      · exact Or.inl (h2 ▸ List.mem_cons_self c cs)
      · rcases mem_five x (by simpa using h2) with h3 | h3 | h3 | h3 | h3 <;>
          exact Or.inr (by subst h3; decide)
    · rcases ih h1 with h2 | h2
      · exact Or.inl (List.mem_cons_of_mem c h2)
      · exact Or.inr h2

theorem mem_quoteStr (x : Char) (s : String) (h : x ∈ quoteStr s) :
    x ∈ s.data ∨ x ∈ ['\\', '"', 'n', 't', 'r'] := by
  rw [quoteStr] at h
  rcases List.mem_cons.mp h with h1 | h1
  · exact Or.inr (by simp [h1])
  · rcases List.mem_append.mp h1 with h2 | h2
    · rcases mem_escStr x s.data h2 with h3 | h3
      · exact Or.inl h3
      · rcases mem_five x (by simpa using h3) with h4 | h4 | h4 | h4 | h4 <;>
          exact Or.inr (by subst h4; decide)
    · simp at h2
      exact Or.inr (by simp [h2])

theorem five_structural (x : Char) (h : x ∈ ['\\', '"', 'n', 't', 'r']) :
    x ∈ nonBraceSpecials := by
  rcases mem_five x h with h1 | h1 | h1 | h1 | h1 <;> (subst h1; decide)

theorem quote_structural (x : Char) (s : String)
    (hs : ∀ c ∈ s.data, c ∈ nonBraceSpecials) (h : x ∈ quoteStr s) :
    x ∈ nonBraceSpecials := by
  rcases mem_quoteStr x s h with h1 | h1
  · exact hs x h1
  · exact five_structural x h1

theorem mem_strTailChars (x : Char) (ss : List String) (h : x ∈ strTailChars ss) :
    (∃ s ∈ ss, x ∈ s.data) ∨ x ∈ nonBraceSpecials := by
  induction ss with
  | nil => simp [strTailChars] at h
  | cons s ss ih =>
    rw [strTailChars] at h
    rcases List.mem_cons.mp h with h1 | h1
    · exact Or.inr (by subst h1; decide)
    · rcases List.mem_append.mp h1 with h2 | h2
      · rcases mem_quoteStr x s h2 with h3 | h3
        · exact Or.inl ⟨s, List.mem_cons_self s ss, h3⟩
        · exact Or.inr (five_structural x h3)
      · rcases ih h2 with h3 | h3
        · obtain ⟨s2, hs2, hx⟩ := h3
          exact Or.inl ⟨s2, List.mem_cons_of_mem s hs2, hx⟩
        · exact Or.inr h3

theorem mem_strListChars (x : Char) (ss : List String) (h : x ∈ strListChars ss) :
    (∃ s ∈ ss, x ∈ s.data) ∨ x ∈ nonBraceSpecials := by
  cases ss with
  | nil => simp [strListChars] at h
  | cons s ss =>
    rw [strListChars] at h
    rcases List.mem_append.mp h with h1 | h1
    · rcases mem_quoteStr x s h1 with h2 | h2
      · exact Or.inl ⟨s, List.mem_cons_self s ss, h2⟩
      · exact Or.inr (five_structural x h2)
    · rcases mem_strTailChars x ss h1 with h2 | h2
      · obtain ⟨s2, hs2, hx⟩ := h2
        exact Or.inl ⟨s2, List.mem_cons_of_mem s hs2, hx⟩
      · exact Or.inr h2

theorem digit_structural (x : Char) (h : x ∈ digitChars) : x ∈ nonBraceSpecials := by
  fin_cases h <;> decide

theorem mem_natTailChars (x : Char) (ns : List Nat) (h : x ∈ natTailChars ns) :
    x ∈ nonBraceSpecials := by
  induction ns with
  | nil => simp [natTailChars] at h
  | cons n ns ih =>
    rw [natTailChars] at h
    rcases List.mem_cons.mp h with h1 | h1
    · subst h1; decide
    · rcases List.mem_append.mp h1 with h2 | h2
      · exact digit_structural x (natChars_digits n x h2)
      · exact ih h2

theorem mem_natListChars (x : Char) (ns : List Nat) (h : x ∈ natListChars ns) :
    x ∈ nonBraceSpecials := by
  cases ns with
  | nil => simp [natListChars] at h
  | cons n ns =>
    rw [natListChars] at h
    rcases List.mem_append.mp h with h1 | h1
    · exact digit_structural x (natChars_digits n x h1)
    · exact mem_natTailChars x ns h1

theorem name_structural_agent : ∀ c ∈ "agent".data, c ∈ nonBraceSpecials := by decide

theorem name_structural_instruction : ∀ c ∈ "instruction".data, c ∈ nonBraceSpecials := by
  decide

theorem name_structural_focus : ∀ c ∈ "focus_files".data, c ∈ nonBraceSpecials := by decide

theorem name_structural_depends : ∀ c ∈ "depends_on".data, c ∈ nonBraceSpecials := by decide

theorem name_structural_summary : ∀ c ∈ "summary".data, c ∈ nonBraceSpecials := by decide

theorem name_structural_tasks : ∀ c ∈ "tasks".data, c ∈ nonBraceSpecials := by decide


theorem mem_taskInner (x : Char) (t : AgentTask) (h : x ∈ taskInner t) :
    (∃ s ∈ t.agent :: t.instruction :: t.focus_files, x ∈ s.data) ∨
      x ∈ nonBraceSpecials := by
  rw [taskInner] at h
  simp only [List.mem_append] at h
  rcases h with ((((((((((((((((((h1 | h2) | h3) | h4) | h5) | h6) | h7) | h8) | h9) | h10) | h11) | h12) | h13) | h14) | h15) | h16) | h17) | h18) | h19)
  · exact Or.inr (quote_structural x _ name_structural_agent h1)
  · exact Or.inr (by simp at h2; subst h2; decide)
  · rcases mem_quoteStr x t.agent h3 with h20 | h20
    · exact Or.inl ⟨t.agent, by simp, h20⟩
    · exact Or.inr (five_structural x h20)
  · exact Or.inr (by simp at h4; subst h4; decide)
  · exact Or.inr (quote_structural x _ name_structural_instruction h5)
  · exact Or.inr (by simp at h6; subst h6; decide)
  · rcases mem_quoteStr x t.instruction h7 with h20 | h20
    · exact Or.inl ⟨t.instruction, by simp, h20⟩
    · exact Or.inr (five_structural x h20)
  · exact Or.inr (by simp at h8; subst h8; decide)
  · exact Or.inr (quote_structural x _ name_structural_focus h9)
  · exact Or.inr (by simp at h10; subst h10; decide)
  · exact Or.inr (by simp at h11; subst h11; decide)
  · rcases mem_strListChars x t.focus_files h12 with h20 | h20
    · obtain ⟨s2, hs2, hx⟩ := h20
      exact Or.inl ⟨s2, by simp [hs2], hx⟩
    · exact Or.inr h20
  · exact Or.inr (by simp at h13; subst h13; decide)
  · exact Or.inr (by simp at h14; subst h14; decide)
  · exact Or.inr (quote_structural x _ name_structural_depends h15)
  · exact Or.inr (by simp at h16; subst h16; decide)
  · exact Or.inr (by simp at h17; subst h17; decide)
  · exact Or.inr (mem_natListChars x t.depends_on h18)
  · exact Or.inr (by simp at h19; subst h19; decide)

theorem mem_taskChars (x : Char) (t : AgentTask) (h : x ∈ taskChars t) :
    (∃ s ∈ t.agent :: t.instruction :: t.focus_files, x ∈ s.data) ∨
      x ∈ structuralChars := by
  rw [taskChars] at h
  rcases List.mem_cons.mp h with h1 | h1
  · exact Or.inr (by subst h1; decide)
  · rcases List.mem_append.mp h1 with h2 | h2
    · rcases mem_taskInner x t h2 with h3 | h3
      · exact Or.inl h3
      · exact Or.inr (by rw [structuralChars]; exact List.mem_cons_of_mem _ (List.mem_cons_of_mem _ h3))
    · exact Or.inr (by simp at h2; subst h2; decide)

theorem taskStrings_sub (t : AgentTask) (ts : List AgentTask) (h : t ∈ ts) (p : DockPlan)
    (hts : p.tasks = ts) :
    ∀ s ∈ t.agent :: t.instruction :: t.focus_files, s ∈ planStrings p := by
  intro s hs
  rw [planStrings, hts]
  apply List.mem_cons_of_mem
  rw [List.mem_bind]
  exact ⟨t, h, hs⟩

theorem mem_taskTailChars (x : Char) (ts : List AgentTask) (h : x ∈ taskTailChars ts) :
    (∃ t ∈ ts, ∃ s ∈ t.agent :: t.instruction :: t.focus_files, x ∈ s.data) ∨
      x ∈ structuralChars := by
  induction ts with
  | nil => simp [taskTailChars] at h
  | cons t ts ih =>
    rw [taskTailChars] at h
    rcases List.mem_cons.mp h with h1 | h1
    · exact Or.inr (by subst h1; decide)
    · rcases List.mem_append.mp h1 with h2 | h2
      · rcases mem_taskChars x t h2 with h3 | h3
        · obtain ⟨s, hs, hx⟩ := h3
          exact Or.inl ⟨t, List.mem_cons_self t ts, s, hs, hx⟩
        · exact Or.inr h3
      · rcases ih h2 with h3 | h3
        · obtain ⟨t2, ht2, s, hs, hx⟩ := h3
          exact Or.inl ⟨t2, List.mem_cons_of_mem t ht2, s, hs, hx⟩
        · exact Or.inr h3

theorem mem_tasksChars (x : Char) (ts : List AgentTask) (h : x ∈ tasksChars ts) :
    (∃ t ∈ ts, ∃ s ∈ t.agent :: t.instruction :: t.focus_files, x ∈ s.data) ∨
      x ∈ structuralChars := by
  cases ts with
  | nil => simp [tasksChars] at h
  | cons t ts =>
    rw [tasksChars] at h
    rcases List.mem_append.mp h with h1 | h1
    · rcases mem_taskChars x t h1 with h2 | h2
      · obtain ⟨s, hs, hx⟩ := h2
        exact Or.inl ⟨t, List.mem_cons_self t ts, s, hs, hx⟩
      · exact Or.inr h2
    · rcases mem_taskTailChars x ts h1 with h2 | h2
      · obtain ⟨t2, ht2, s, hs, hx⟩ := h2
        exact Or.inl ⟨t2, List.mem_cons_of_mem t ht2, s, hs, hx⟩
      · exact Or.inr h2


theorem mem_planChars (x : Char) (p : DockPlan) (h : x ∈ planChars p) :
    (∃ s ∈ planStrings p, x ∈ s.data) ∨ x ∈ structuralChars := by
  rw [planChars] at h
  rcases List.mem_cons.mp h with h0 | h0
  · exact Or.inr (by subst h0; decide)
  rcases List.mem_append.mp h0 with hin | hin
  swap
  · exact Or.inr (by simp at hin; subst hin; decide)
  rw [planInner] at hin
  simp only [List.mem_append] at hin
  rcases hin with ((((((((h1 | h2) | h3) | h4) | h5) | h6) | h7) | h8) | h9)
  · exact Or.inr (by rw [structuralChars]; exact List.mem_cons_of_mem _ (List.mem_cons_of_mem _ (quote_structural x _ name_structural_summary h1)))
  · exact Or.inr (by simp at h2; subst h2; decide)
  · rcases mem_quoteStr x p.summary h3 with h20 | h20
    · exact Or.inl ⟨p.summary, by simp [planStrings], h20⟩
    · exact Or.inr (by rw [structuralChars]; exact List.mem_cons_of_mem _ (List.mem_cons_of_mem _ (five_structural x h20)))
  · exact Or.inr (by simp at h4; subst h4; decide)
  · exact Or.inr (by rw [structuralChars]; exact List.mem_cons_of_mem _ (List.mem_cons_of_mem _ (quote_structural x _ name_structural_tasks h5)))
  · exact Or.inr (by simp at h6; subst h6; decide)
  · exact Or.inr (by simp at h7; subst h7; decide)
  · rcases mem_tasksChars x p.tasks h8 with h20 | h20
    · obtain ⟨t2, ht2, s, hs, hx⟩ := h20
      refine Or.inl ⟨s, ?_, hx⟩
      rw [planStrings]
      apply List.mem_cons_of_mem
      rw [List.mem_bind]
      exact ⟨t2, ht2, hs⟩
    · exact Or.inr h20
  · exact Or.inr (by simp at h9; subst h9; decide)

/-! ## Brace balance and substring search -/

theorem neutral_nil : Neutral [] := by
  intro d acc rest _
  simp

theorem neutral_append (a b : List Char) (ha : Neutral a) (hb : Neutral b) :
    Neutral (a ++ b) := by
  intro d acc rest hd
  rw [List.append_assoc, ha d acc (b ++ rest) hd, hb d (a.reverse ++ acc) rest hd]
  simp

theorem neutral_of_noBraces (seg : List Char) (h1 : '{' ∉ seg) (h2 : '}' ∉ seg) :
    Neutral seg := by
  induction seg with
  | nil => exact neutral_nil
  | cons c cs ih =>
    intro d acc rest hd
    have hc1 : c ≠ '{' := fun hc => h1 (by rw [← hc]; exact List.mem_cons_self c cs)
    have hc2 : c ≠ '}' := fun hc => h2 (by rw [← hc]; exact List.mem_cons_self c cs)
    rw [List.cons_append, braceTake, if_neg hc1, if_neg hc2]
    rw [ih (fun hc => h1 (List.mem_cons_of_mem c hc))
        (fun hc => h2 (List.mem_cons_of_mem c hc)) d (c :: acc) rest hd]
    simp

theorem neutral_wrap (seg : List Char) (h : Neutral seg) :
    Neutral ('{' :: (seg ++ ['}'])) := by
  intro d acc rest hd
  rw [List.cons_append, braceTake, if_pos rfl]
  rw [List.append_assoc]
  rw [h (d + 1) ('{' :: acc) (['}'] ++ rest) (by omega)]
  rw [List.singleton_append, braceTake]
  rw [if_neg (by decide), if_pos rfl, if_neg (by omega)]
  simp

theorem braceTake_close (seg : List Char) (h : Neutral seg) (acc rest : List Char) :
    braceTake 1 acc (seg ++ '}' :: rest) = some (('}' :: (seg.reverse ++ acc)).reverse) := by
  rw [show seg ++ '}' :: rest = seg ++ ('}' :: rest) from rfl]
  rw [h 1 acc ('}' :: rest) (by omega)]
  rw [braceTake, if_neg (by decide), if_pos rfl, if_pos rfl]

theorem braceChunk_skip (l1 : List Char) (l2 : List Char) (h : '{' ∉ l1) :
    braceChunk (l1 ++ l2) = braceChunk l2 := by
  induction l1 with
  | nil => simp
  | cons c cs ih =>
    have hc : c ≠ '{' := fun hc => h (by rw [← hc]; exact List.mem_cons_self c cs)
    rw [List.cons_append, braceChunk, if_neg hc]
    exact ih (fun hc => h (List.mem_cons_of_mem c hc))

theorem braceChunk_plan (p : DockPlan) (y : List Char) (h : Neutral (planInner p)) :
    braceChunk (planChars p ++ y) = some (planChars p) := by
  rw [planChars, List.cons_append, braceChunk, if_pos rfl]
  rw [List.append_assoc, List.singleton_append]
  rw [braceTake_close (planInner p) h ['{'] y]
  simp

theorem startsWithC_self (pat rest : List Char) : startsWithC pat (pat ++ rest) = true := by
  induction pat with
  | nil => rfl
  | cons c cs ih => simp [startsWithC, ih]

theorem startsWithC_false (p0 c : Char) (ps l : List Char) (h : c ≠ p0) :
    startsWithC (p0 :: ps) (c :: l) = false := by
  simp [startsWithC]
  intro hc
  exact absurd hc.symm h

theorem afterSub_skip (p0 : Char) (ps l1 l2 : List Char) (h : p0 ∉ l1) :
    afterSub (p0 :: ps) (l1 ++ l2) = afterSub (p0 :: ps) l2 := by
  induction l1 with
  | nil => simp
  | cons c cs ih =>
    rw [List.cons_append, afterSub]
    rw [if_neg (by rw [startsWithC_false p0 c ps _ (fun hc => h (hc ▸ List.mem_cons_self c cs))]; simp)]
    exact ih (fun hc => h (List.mem_cons_of_mem c hc))

theorem afterSub_hit (pat rest : List Char) (hne : pat ≠ []) :
    afterSub pat (pat ++ rest) = some rest := by
  have hs : startsWithC pat (pat ++ rest) = true := startsWithC_self pat rest
  have hdrop : (pat ++ rest).drop pat.length = rest := List.drop_left pat rest
  cases hp : pat ++ rest with
  | nil =>
    rcases List.append_eq_nil.mp hp with ⟨h1, _⟩
    exact absurd h1 hne
  | cons c cs =>
    rw [hp] at hs hdrop
    rw [afterSub, if_pos hs, hdrop]

theorem afterSub_none (p0 : Char) (ps l : List Char) (h : p0 ∉ l) :
    afterSub (p0 :: ps) l = none := by
  induction l with
  | nil => rfl
  | cons c cs ih =>
    rw [afterSub]
    rw [if_neg (by rw [startsWithC_false p0 c ps _ (fun hc => h (hc ▸ List.mem_cons_self c cs))]; simp)]
    exact ih (fun hc => h (List.mem_cons_of_mem c hc))

theorem takeBeforeSub_hit (p0 : Char) (ps l1 rest : List Char) (h : p0 ∉ l1) :
    takeBeforeSub (p0 :: ps) (l1 ++ ((p0 :: ps) ++ rest)) = some l1 := by
  induction l1 with
  | nil =>
    have hs : startsWithC (p0 :: ps) (p0 :: (ps ++ rest)) = true := by
      have := startsWithC_self (p0 :: ps) rest
      rw [List.cons_append] at this
      exact this
    rw [List.nil_append, List.cons_append, takeBeforeSub.eq_def]
    try dsimp only
    rw [if_pos hs]
  | cons c cs ih =>
    have hc : c ≠ p0 := fun hc => h (by rw [← hc]; exact List.mem_cons_self c cs)
    rw [List.cons_append, takeBeforeSub.eq_def]
    try dsimp only
    rw [if_neg (by rw [startsWithC_false p0 c ps _ hc]; simp)]
    rw [ih (fun hc => h (List.mem_cons_of_mem c hc))]

/-! ## Freeness corollaries, neutrality of the serialized plan -/

theorem noChar_not_mem (z : Char) (s : String) (h : noChar z s = true) : z ∉ s.data := by
  rw [noChar, List.all_eq_true] at h
  intro hz
  have h2 := h z hz
  simp at h2

theorem planNoChar_strings (z : Char) (p : DockPlan) (h : planNoChar z p = true) :
    ∀ s ∈ planStrings p, noChar z s = true := by
  rw [planNoChar, List.all_eq_true] at h
  exact h

theorem planChars_no_tick (p : DockPlan) (h : planNoChar '`' p = true) :
    '`' ∉ planChars p := by
  intro hmem
  rcases mem_planChars '`' p hmem with ⟨s, hs, hx⟩ | h1
  · exact noChar_not_mem '`' s (planNoChar_strings '`' p h s hs) hx
  · exact absurd h1 (by decide)

theorem taskInner_no (z : Char) (t : AgentTask) (hz : z ∉ nonBraceSpecials)
    (hs : ∀ s ∈ t.agent :: t.instruction :: t.focus_files, noChar z s = true) :
    z ∉ taskInner t := by
  intro hm
  rcases mem_taskInner z t hm with ⟨s, h2, hx⟩ | h2
  · exact noChar_not_mem z s (hs s h2) hx
  · exact hz h2

theorem neutral_task (t : AgentTask)
    (hs1 : ∀ s ∈ t.agent :: t.instruction :: t.focus_files, noChar '{' s = true)
    (hs2 : ∀ s ∈ t.agent :: t.instruction :: t.focus_files, noChar '}' s = true) :
    Neutral (taskChars t) := by
  rw [taskChars]
  exact neutral_wrap _ (neutral_of_noBraces _
    (taskInner_no '{' t (by decide) hs1) (taskInner_no '}' t (by decide) hs2))

theorem planNoChar_task (z : Char) (p : DockPlan) (t : AgentTask)
    (h : planNoChar z p = true) (ht : t ∈ p.tasks) :
    ∀ s ∈ t.agent :: t.instruction :: t.focus_files, noChar z s = true := by
  intro s hs
  apply planNoChar_strings z p h
  rw [planStrings]
  apply List.mem_cons_of_mem
  rw [List.mem_bind]
  exact ⟨t, ht, hs⟩

theorem neutral_taskTail (ts : List AgentTask)
    (hs : ∀ t ∈ ts, ∀ s ∈ t.agent :: t.instruction :: t.focus_files,
      (noChar '{' s = true ∧ noChar '}' s = true)) :
    Neutral (taskTailChars ts) := by
  induction ts with
  | nil => exact neutral_nil
  | cons t ts ih =>
    rw [taskTailChars, show (',' :: (taskChars t ++ taskTailChars ts)) =
      [','] ++ (taskChars t ++ taskTailChars ts) from rfl]
    apply neutral_append
    · exact neutral_of_noBraces [','] (by decide) (by decide)
    · apply neutral_append
      · exact neutral_task t
          (fun s h2 => (hs t (List.mem_cons_self t ts) s h2).1)
          (fun s h2 => (hs t (List.mem_cons_self t ts) s h2).2)
      · exact ih (fun t2 h2 => hs t2 (List.mem_cons_of_mem t h2))

theorem neutral_tasks (ts : List AgentTask)
    (hs : ∀ t ∈ ts, ∀ s ∈ t.agent :: t.instruction :: t.focus_files,
      (noChar '{' s = true ∧ noChar '}' s = true)) :
    Neutral (tasksChars ts) := by
  cases ts with
  | nil => exact neutral_nil
  | cons t ts =>
    rw [tasksChars]
    apply neutral_append
    · exact neutral_task t
        (fun s h2 => (hs t (List.mem_cons_self t ts) s h2).1)
        (fun s h2 => (hs t (List.mem_cons_self t ts) s h2).2)
    · exact neutral_taskTail ts (fun t2 h2 => hs t2 (List.mem_cons_of_mem t h2))

theorem quoteStr_no (z : Char) (s : String) (hz : z ∉ nonBraceSpecials)
    (h : noChar z s = true) : z ∉ quoteStr s := by
  intro hm
  rcases mem_quoteStr z s hm with h1 | h1
  · exact noChar_not_mem z s h h1
  · exact hz (five_structural z h1)

theorem neutral_planInner (p : DockPlan) (h1 : planNoChar '{' p = true)
    (h2 : planNoChar '}' p = true) : Neutral (planInner p) := by
  rw [planInner]
  simp only [List.append_assoc]
  have hsum1 : noChar '{' p.summary = true :=
    planNoChar_strings '{' p h1 p.summary (by rw [planStrings]; exact List.mem_cons_self _ _)
  have hsum2 : noChar '}' p.summary = true :=
    planNoChar_strings '}' p h2 p.summary (by rw [planStrings]; exact List.mem_cons_self _ _)
  apply neutral_append
  · exact neutral_of_noBraces _ (by decide) (by decide)
  apply neutral_append
  · exact neutral_of_noBraces _ (by decide) (by decide)
  apply neutral_append
  · exact neutral_of_noBraces _
      (quoteStr_no '{' p.summary (by decide) hsum1)
      (quoteStr_no '}' p.summary (by decide) hsum2)
  apply neutral_append
  · exact neutral_of_noBraces _ (by decide) (by decide)
  apply neutral_append
  · exact neutral_of_noBraces _ (by decide) (by decide)
  apply neutral_append
  · exact neutral_of_noBraces _ (by decide) (by decide)
  apply neutral_append
  · exact neutral_of_noBraces _ (by decide) (by decide)
  apply neutral_append
  · exact neutral_tasks p.tasks (fun t ht s hs =>
      ⟨planNoChar_task '{' p t h1 ht s hs, planNoChar_task '}' p t h2 ht s hs⟩)
  exact neutral_of_noBraces _ (by decide) (by decide)

/-! ## Prose-led inputs and composite trimming -/

theorem proseHead_not_ws (c : Char) (h : proseHead c = true) : c.isWhitespace = false := by
  simp only [proseHead, Bool.not_eq_true', Bool.or_eq_false_iff] at h
  exact h.1.1.1.1.1.1.1.1.1.1.1.1

theorem tokenize_prose (c : Char) (rest : List Char) (h : proseHead c = true) :
    tokenize (c :: rest) = none := by
  rw [tokenize]
  exact lex_prose_none c rest [] h

theorem from_str_value_prose (c : Char) (rest : List Char) (h : proseHead c = true) :
    from_str_value (c :: rest) = none := by
  simp only [from_str_value]
  rw [tokenize_prose c rest h]

theorem from_str_plan_prose (c : Char) (rest : List Char) (h : proseHead c = true) :
    from_str_plan (c :: rest) = none := by
  simp only [from_str_plan]
  rw [from_str_value_prose c rest h]

theorem trim_concat (c : Char) (mid : List Char) (b : Char) (y : List Char)
    (hc : c.isWhitespace = false) (hb : b.isWhitespace = false) :
    trimChars ((c :: (mid ++ [b])) ++ y) =
      (c :: (mid ++ [b])) ++ (y.reverse.dropWhile Char.isWhitespace).reverse := by
  rw [List.cons_append]
  rw [trim_left_nonws c _ hc]
  rw [show c :: ((mid ++ [b]) ++ y) = ((c :: mid) ++ [b]) ++ y by simp]
  rw [dropR_append (c :: mid) b y hb]
  simp

theorem trim_self_concat (c : Char) (mid : List Char) (b : Char) (y : List Char)
    (hc : c.isWhitespace = false) (hb : b.isWhitespace = false) :
    trimChars ((c :: (mid ++ [b])) ++ (y.reverse.dropWhile Char.isWhitespace).reverse) =
      (c :: (mid ++ [b])) ++ (y.reverse.dropWhile Char.isWhitespace).reverse := by
  apply trim_self
  · intro d hd
    simp at hd
    rw [← hd]
    exact hc
  · intro d hd
    cases hy : y.reverse.dropWhile Char.isWhitespace with
    | nil =>
      rw [hy] at hd
      simp only [List.reverse_nil, List.append_nil] at hd
      rw [show c :: (mid ++ [b]) = (c :: mid) ++ [b] by simp, List.getLast?_concat] at hd
      cases hd
      exact hb
    | cons e es =>
      rw [hy] at hd
      rw [show (e :: es).reverse = es.reverse ++ [e] by simp] at hd
      rw [← List.append_assoc, List.getLast?_concat] at hd
      cases hd
      exact dropWhile_head_false _ _ _ es hy

theorem trim_pad (p : DockPlan) :
    trimChars ('\n' :: (planChars p ++ ['\n'])) = planChars p := by
  rw [trimChars]
  rw [List.dropWhile_cons, if_pos (by decide)]
  rw [planChars, List.cons_append]
  rw [List.dropWhile_cons, if_neg (by decide)]
  rw [show '{' :: ((planInner p ++ ['}']) ++ ['\n']) =
    ('{' :: (planInner p ++ ['}'])) ++ ['\n'] by simp]
  rw [List.reverse_append]
  rw [show (['\n'] : List Char).reverse = ['\n'] from rfl]
  rw [List.singleton_append, List.dropWhile_cons, if_pos (by decide)]
  rw [show ('{' :: (planInner p ++ ['}'])).reverse = '}' :: ((planInner p).reverse ++ ['{']) by simp]
  rw [List.dropWhile_cons, if_neg (by decide)]
  simp

/-! ## The four extraction paths -/

theorem parse_dock_raw (p : DockPlan) : parse_dock_output (serializePlan p) = .ok p := by
  simp only [parse_dock_output]
  rw [show (serializePlan p).data = planChars p from rfl]
  rw [trim_planChars, from_str_value_plan]
  dsimp only
  rw [getResultStr_planJson]
  dsimp only
  rw [planFromJson_planJson]

theorem parse_dock_envelope (p : DockPlan) :
    parse_dock_output (String.mk (envelopeChars (serializePlan p))) = .ok p := by
  simp only [parse_dock_output]
  rw [trim_envelopeChars, from_str_value_envelope]
  dsimp only
  rw [show getResultStr (.obj [("result", .str (serializePlan p))]) =
    some (serializePlan p) from rfl]
  dsimp only
  rw [show (serializePlan p).data = planChars p from rfl]
  rw [extract_json_plan_planChars]

theorem parse_dock_fenced (p : DockPlan) (pre post : String)
    (hl : proseLead pre = true) (hpre : '`' ∉ pre.data) (ht : planNoChar '`' p = true) :
    parse_dock_output (pre ++ "```json\n" ++ serializePlan p ++ "\n```" ++ post) = .ok p := by
  obtain ⟨c, cs, hdata, hph⟩ : ∃ c cs, pre.data = c :: cs ∧ proseHead c = true := by
    rw [proseLead] at hl
    cases hd : pre.data with
    | nil => rw [hd] at hl; simp at hl
    | cons c2 cs2 => rw [hd] at hl; exact ⟨c2, cs2, rfl, hl⟩
  have hcws : c.isWhitespace = false := proseHead_not_ws c hph
  have hshape : (pre ++ "```json\n" ++ serializePlan p ++ "\n```" ++ post).data =
      (c :: ((cs ++ ("```json".data ++ ('\n' :: (planChars p ++ ['\n', '`', '`'])))) ++ ['`']))
        ++ post.data := by
    simp only [String.data_append]
    rw [hdata]
    rw [show (serializePlan p).data = planChars p from rfl]
    simp [List.append_assoc]
  have hbody : '`' ∉ ('\n' :: (planChars p ++ ['\n'])) := by
    intro hm
    rcases List.mem_cons.mp hm with h1 | h1
    · exact absurd h1 (by decide)
    · rcases List.mem_append.mp h1 with h2 | h2
      · exact planChars_no_tick p ht h2
      · simp at h2
  have hA1 : from_str_value ((c :: ((cs ++ ("```json".data ++
      ('\n' :: (planChars p ++ ['\n', '`', '`'])))) ++ ['`'])) ++
      (post.data.reverse.dropWhile Char.isWhitespace).reverse) = none := by
    rw [show (c :: ((cs ++ ("```json".data ++ ('\n' :: (planChars p ++ ['\n', '`', '`'])))) ++
      ['`'])) ++ (post.data.reverse.dropWhile Char.isWhitespace).reverse =
      c :: (((cs ++ ("```json".data ++ ('\n' :: (planChars p ++ ['\n', '`', '`'])))) ++
        ['`']) ++ (post.data.reverse.dropWhile Char.isWhitespace).reverse) from by simp]
    exact from_str_value_prose c _ hph
  have hA2 : from_str_plan ((c :: ((cs ++ ("```json".data ++
      ('\n' :: (planChars p ++ ['\n', '`', '`'])))) ++ ['`'])) ++
      (post.data.reverse.dropWhile Char.isWhitespace).reverse) = none := by
    rw [show (c :: ((cs ++ ("```json".data ++ ('\n' :: (planChars p ++ ['\n', '`', '`'])))) ++
      ['`'])) ++ (post.data.reverse.dropWhile Char.isWhitespace).reverse =
      c :: (((cs ++ ("```json".data ++ ('\n' :: (planChars p ++ ['\n', '`', '`'])))) ++
        ['`']) ++ (post.data.reverse.dropWhile Char.isWhitespace).reverse) from by simp]
    exact from_str_plan_prose c _ hph
  have hfence : afterSub ("```json".data) ((c :: ((cs ++ ("```json".data ++
      ('\n' :: (planChars p ++ ['\n', '`', '`'])))) ++ ['`'])) ++
      (post.data.reverse.dropWhile Char.isWhitespace).reverse) =
      some (('\n' :: (planChars p ++ ['\n'])) ++ ('`' :: '`' :: '`' ::
        (post.data.reverse.dropWhile Char.isWhitespace).reverse)) := by
    rw [show (c :: ((cs ++ ("```json".data ++ ('\n' :: (planChars p ++ ['\n', '`', '`'])))) ++
      ['`'])) ++ (post.data.reverse.dropWhile Char.isWhitespace).reverse =
      (c :: cs) ++ ("```json".data ++ (('\n' :: (planChars p ++ ['\n'])) ++
        ('`' :: '`' :: '`' ::
          (post.data.reverse.dropWhile Char.isWhitespace).reverse))) from by simp]
    rw [show ("```json").data = '`' :: "``json".data from rfl]
    rw [afterSub_skip '`' _ (c :: cs) _ (by rw [← hdata]; exact hpre)]
    rw [show ('`' :: "``json".data) ++ (('\n' :: (planChars p ++ ['\n'])) ++
      ('`' :: '`' :: '`' :: (post.data.reverse.dropWhile Char.isWhitespace).reverse)) =
      ('`' :: "``json".data) ++ (('\n' :: (planChars p ++ ['\n'])) ++
      ('`' :: '`' :: '`' :: (post.data.reverse.dropWhile Char.isWhitespace).reverse)) from rfl]
    exact afterSub_hit ('`' :: "``json".data) _ (by simp)
  have htake : takeBeforeSub ("```".data) (('\n' :: (planChars p ++ ['\n'])) ++
      ('`' :: '`' :: '`' :: (post.data.reverse.dropWhile Char.isWhitespace).reverse)) =
      some ('\n' :: (planChars p ++ ['\n'])) := by
    rw [show ('`' :: '`' :: '`' ::
      (post.data.reverse.dropWhile Char.isWhitespace).reverse : List Char) =
      ('`' :: "``".data) ++ (post.data.reverse.dropWhile Char.isWhitespace).reverse from rfl]
    rw [show ("```").data = '`' :: "``".data from rfl]
    exact takeBeforeSub_hit '`' ("``".data) ('\n' :: (planChars p ++ ['\n'])) _ hbody
  simp only [parse_dock_output]
  rw [hshape]
  rw [trim_concat c _ '`' post.data hcws (by decide)]
  rw [hA1]
  dsimp only
  simp only [extract_json_plan]
  rw [trim_self_concat c _ '`' post.data hcws (by decide)]
  rw [hA2]
  dsimp only
  rw [hfence]
  dsimp only
  rw [htake]
  dsimp only
  rw [trim_pad p, from_str_plan_planChars p]

theorem mem_trimR (x : Char) (y : List Char)
    (h : x ∈ (y.reverse.dropWhile Char.isWhitespace).reverse) : x ∈ y := by
  rw [List.mem_reverse] at h
  have h2 := (List.dropWhile_sublist Char.isWhitespace).subset h
  rw [List.mem_reverse] at h2
  exact h2

theorem parse_dock_braced (p : DockPlan) (pre post : String)
    (hl : proseLead pre = true) (hpre1 : '`' ∉ pre.data) (hpre2 : '{' ∉ pre.data)
    (hpost : '`' ∉ post.data) (ht : planNoChar '`' p = true)
    (hb1 : planNoChar '{' p = true) (hb2 : planNoChar '}' p = true) :
    parse_dock_output (pre ++ serializePlan p ++ post) = .ok p := by
  obtain ⟨c, cs, hdata, hph⟩ : ∃ c cs, pre.data = c :: cs ∧ proseHead c = true := by
    rw [proseLead] at hl
    cases hd : pre.data with
    | nil => rw [hd] at hl; simp at hl
    | cons c2 cs2 => rw [hd] at hl; exact ⟨c2, cs2, rfl, hl⟩
  have hcws : c.isWhitespace = false := proseHead_not_ws c hph
  have hshape : (pre ++ serializePlan p ++ post).data =
      (c :: ((cs ++ ('{' :: planInner p)) ++ ['}'])) ++ post.data := by
    simp only [String.data_append]
    rw [hdata]
    rw [show (serializePlan p).data = planChars p from rfl]
    rw [planChars]
    simp [List.append_assoc]
  have hA1 : from_str_value ((c :: ((cs ++ ('{' :: planInner p)) ++ ['}'])) ++
      (post.data.reverse.dropWhile Char.isWhitespace).reverse) = none := by
    rw [show (c :: ((cs ++ ('{' :: planInner p)) ++ ['}'])) ++
      (post.data.reverse.dropWhile Char.isWhitespace).reverse =
      c :: (((cs ++ ('{' :: planInner p)) ++ ['}']) ++
        (post.data.reverse.dropWhile Char.isWhitespace).reverse) from by simp]
    exact from_str_value_prose c _ hph
  have hA2 : from_str_plan ((c :: ((cs ++ ('{' :: planInner p)) ++ ['}'])) ++
      (post.data.reverse.dropWhile Char.isWhitespace).reverse) = none := by
    rw [show (c :: ((cs ++ ('{' :: planInner p)) ++ ['}'])) ++
      (post.data.reverse.dropWhile Char.isWhitespace).reverse =
      c :: (((cs ++ ('{' :: planInner p)) ++ ['}']) ++
        (post.data.reverse.dropWhile Char.isWhitespace).reverse) from by simp]
    exact from_str_plan_prose c _ hph
  have hAeq : (c :: ((cs ++ ('{' :: planInner p)) ++ ['}'])) ++
      (post.data.reverse.dropWhile Char.isWhitespace).reverse =
      (c :: cs) ++ (planChars p ++
        (post.data.reverse.dropWhile Char.isWhitespace).reverse) := by
    rw [planChars]
    simp [List.append_assoc]
  have hNoFence : afterSub ("```json".data) ((c :: ((cs ++ ('{' :: planInner p)) ++ ['}'])) ++
      (post.data.reverse.dropWhile Char.isWhitespace).reverse) = none := by
    rw [hAeq]
    rw [show ("```json").data = '`' :: "``json".data from rfl]
    apply afterSub_none
    intro hm
    rcases List.mem_append.mp hm with h1 | h1
    · rw [← hdata] at h1
      exact hpre1 h1
    · rcases List.mem_append.mp h1 with h2 | h2
      · exact planChars_no_tick p ht h2
      · exact hpost (mem_trimR _ _ h2)
  have hbrace : braceChunk ((c :: ((cs ++ ('{' :: planInner p)) ++ ['}'])) ++
      (post.data.reverse.dropWhile Char.isWhitespace).reverse) = some (planChars p) := by
    rw [hAeq]
    rw [braceChunk_skip (c :: cs) _ (by rw [← hdata]; exact hpre2)]
    exact braceChunk_plan p _ (neutral_planInner p hb1 hb2)
  simp only [parse_dock_output]
  rw [hshape]
  rw [trim_concat c _ '}' post.data hcws (by decide)]
  rw [hA1]
  dsimp only
  simp only [extract_json_plan]
  rw [trim_self_concat c _ '}' post.data hcws (by decide)]
  rw [hA2]
  dsimp only
  rw [hNoFence]
  dsimp only
  rw [hbrace]
  dsimp only
  rw [from_str_plan_planChars p]

theorem extract_json_plan_shape (t : List Char) :
    (∃ p, extract_json_plan t = .ok p) ∨
      (∃ m, extract_json_plan t = .error (.DockFailed m)) := by
  simp only [extract_json_plan]
  split
  · exact Or.inl ⟨_, rfl⟩
  · split
    · exact Or.inl ⟨_, rfl⟩
    · split
      · exact Or.inl ⟨_, rfl⟩
      · exact Or.inr ⟨_, rfl⟩

theorem parse_dock_output_shape (s : String) :
    (∃ p, parse_dock_output s = .ok p) ∨
      (∃ m, parse_dock_output s = .error (.DockFailed m)) := by
  simp only [parse_dock_output]
  repeat
    first
      | exact Or.inl ⟨_, rfl⟩
      | exact extract_json_plan_shape _
      | split

/-- C6 (amended): a valid plan serialized by serde is recovered semantically
identical by `parse_dock_output` (a) from the raw JSON and (b) from a
one-level `result`-string envelope; (c) from a fenced ```json block after
prose, provided the prose opens with a non-JSON-token character and neither
prose nor plan strings contain a backtick; and (d) surrounded by prose,
provided additionally that the prose before the plan contains no opening
brace, the trailing prose no backtick, and the plan strings no brace —
the brace scan of dock.rs counts braces inside string literals, so braces
in prose or strings break recovery (see the counterexample).  On every
other input the result is a `DockFailed` error value, never a panic.
Plans stay in the fragment where the serializer model is byte-faithful to
serde (`planOk`: no exotic control characters in strings). -/
theorem C6_dock_extraction_roundtrip :
    (∀ p : DockPlan, planOk p = true →
      parse_dock_output (serializePlan p) = .ok p) ∧
    (∀ p : DockPlan, planOk p = true →
      parse_dock_output (String.mk (envelopeChars (serializePlan p))) = .ok p) ∧
    (∀ (p : DockPlan) (pre post : String), planOk p = true →
      proseLead pre = true → noChar '`' pre = true → planNoChar '`' p = true →
      parse_dock_output (pre ++ "```json\n" ++ serializePlan p ++ "\n```" ++ post) = .ok p) ∧
    (∀ (p : DockPlan) (pre post : String), planOk p = true →
      proseLead pre = true → noChar '`' pre = true → noChar '{' pre = true →
      noChar '`' post = true → planNoChar '`' p = true → planNoChar '{' p = true →
      planNoChar '}' p = true →
      parse_dock_output (pre ++ serializePlan p ++ post) = .ok p) ∧
    (∀ s : String, (∃ p, parse_dock_output s = .ok p) ∨
      (∃ msg, parse_dock_output s = .error (.DockFailed msg))) := by
  refine ⟨?_, ?_, ?_, ?_, ?_⟩
  · intro p _
    exact parse_dock_raw p
  · intro p _
    exact parse_dock_envelope p
  · intro p pre post _ hl hpre ht
    exact parse_dock_fenced p pre post hl (noChar_not_mem _ pre hpre) ht
  · intro p pre post _ hl hpre1 hpre2 hpost ht hb1 hb2
    exact parse_dock_braced p pre post hl (noChar_not_mem _ pre hpre1)
      (noChar_not_mem _ pre hpre2) (noChar_not_mem _ post hpost) ht hb1 hb2
  · intro s
    exact parse_dock_output_shape s

theorem C6_dock_extraction_roundtrip_witness :
    parse_dock_output (serializePlan planWit) = .ok planWit ∧
    parse_dock_output (String.mk (envelopeChars (serializePlan planWit))) = .ok planWit ∧
    parse_dock_output ("Here is the plan: " ++ "```json\n" ++ serializePlan planWit ++
      "\n```" ++ " Done.") = .ok planWit ∧
    parse_dock_output ("Here is the plan: " ++ serializePlan planWit ++ " and done.") =
      .ok planWit ∧
    ((∃ p, parse_dock_output "not json at all" = .ok p) ∨
      (∃ msg, parse_dock_output "not json at all" = .error (.DockFailed msg))) :=
  ⟨C6_dock_extraction_roundtrip.1 planWit (by decide),
   C6_dock_extraction_roundtrip.2.1 planWit (by decide),
   C6_dock_extraction_roundtrip.2.2.1 planWit "Here is the plan: " " Done."
     (by decide) (by decide) (by decide) (by decide),
   C6_dock_extraction_roundtrip.2.2.2.1 planWit "Here is the plan: " " and done."
     (by decide) (by decide) (by decide) (by decide) (by decide) (by decide) (by decide)
     (by decide),
   C6_dock_extraction_roundtrip.2.2.2.2 "not json at all"⟩

/-- C6, counterexample: the plan `planBrace` is well-formed and serializes
cleanly — raw extraction recovers it — yet surrounded by plain prose the
extraction fails with `DockFailed`: the brace scan starts at the plan's
opening brace and treats the `\x7d` inside the summary string as the
closing brace, so the chunk it cuts is not valid JSON, refuting claim (d)
for arbitrary prose-wrapped plans. -/
theorem C6_counterexample_brace_in_summary :
    planOk planBrace = true ∧
    proseLead "The plan: " = true ∧
    noChar '`' "The plan: " = true ∧
    parse_dock_output (serializePlan planBrace) = .ok planBrace ∧
    isDockFailed
      (parse_dock_output ("The plan: " ++ serializePlan planBrace ++ " done.")) = true := by
  refine ⟨by decide, by decide, by decide, ?_, by decide⟩
  set_option maxRecDepth 10000 in rfl
